import Mathlib

/-!
# mesh_pruning: a shallow embedding of `mesh_pruning.c`

Modelling conventions.

* A C `float` is modelled at two levels.  In the exact model a `float` is an exact
  rational (`ℚ`) and `+INFINITY` in `min_cost` is the top element of `WithTop ℚ`;
  rounding is not modelled there.  The exact model carries the results that do not
  depend on rounding: the fields a call writes, termination, the queue discipline,
  the key of the root, and the values on inputs whose arithmetic is exact.
* The definitions whose name ends in `_f32` repeat the program in single precision:
  every `float` operation is rounded to binary32 on its own (round to nearest, ties
  to even, with subnormals; `sqrtf` correctly rounded; `roundf` half away from
  zero).  A rounded `min_cost` of `2^128` or more is `+INFINITY`.  NaN does not
  arise: the program never subtracts infinities and divides by `n_node ≥ 1`.
* The array `graph->nodes` is a list of nodes and `n_node` is its length; a
  neighbour pointer is the index of the node it points to.  An access through
  an index outside the array (undefined behaviour in C) leaves the state as it is.
* The heap of `cHeap/heap.h` is a list of the queued node indices.  The choice
  made by `heap_pop` is a parameter `pick`, constrained by `heap_contract`.
* `for(;;)` in `mesh_graph_get_cost` is a recursion on a fuel argument; running
  out of fuel gives `none`.
* The square root of a rational need not be rational, so in the exact model a
  distance is carried by its square: `mesh_node_get_dis` returns the squared
  distance and `mesh_node_dis_to_cost` takes it.  In single precision
  `mesh_node_get_dis_f32` returns the binary32 value of `sqrtf`.
* `expf` and `rand` are outside the program: the function `sigmoid` and the values
  returned by `randf()` are parameters of the operations that use them.
* Allocation failure (`exit(1)`) and console output are not modelled.
-/

namespace MeshPruning

/-! ## Constants -/

def COST_NOT_FOUND : ℚ := 5000
def COST_SWITCH : ℚ := 80
def COST_MESSAGE : ℚ := 2
def INIT_WEIGHT : ℚ := 3 / 2
def CUTOFF_DISTANCE : ℚ := 10
def LEARNING_RATE : ℚ := 3 / 1000

/-! ## Data model -/

/-- One entry of `node->neighbors`: the pointed-to node (as an index) and the edge cost. -/
structure mesh_node_neighbor where
  node : Nat
  cost : ℚ
deriving DecidableEq

/-- The struct `mesh_node_t`.  `heap_value = none` is the NULL handle;
`num_neighbors` is the length of `neighbors`. -/
structure mesh_node where
  heap_value : Option Nat
  switch_enabled : Bool
  last_switch_enabled : Bool
  neighbors : List mesh_node_neighbor
  min_cost : WithTop ℚ
  weight : ℚ
  visited : Bool
  x : ℚ
  y : ℚ
  id : Nat

/-- The struct `mesh_graph_t`; `n_node` is the length of `nodes`. -/
structure mesh_graph where
  nodes : List mesh_node
  min_heap : List Nat

def mesh_graph.n_node (g : mesh_graph) : Nat := g.nodes.length

/-! ## The priority queue -/

/-- Result of `heap_add`: the node index is queued. -/
def heap_add (h : List Nat) (i : Nat) : List Nat := h ++ [i]

/-- Result of `heap_update`: the queue holds the same entries. -/
def heap_update (h : List Nat) (_handle : Nat) : List Nat := h

/-- The key of node `i` seen by the comparator `mesh_node_cost_compare`. -/
def heap_key (g : mesh_graph) (i : Nat) : WithTop ℚ :=
  match g.nodes[i]? with
  | some node => node.min_cost
  | none => ⊤

/-- What `heap_pop` must satisfy: nothing from an empty queue, and otherwise a
queued node whose key is smallest. -/
def heap_contract (pick : (Nat → WithTop ℚ) → List Nat → Option Nat) : Prop :=
  ∀ (key : Nat → WithTop ℚ) (q : List Nat),
    (q = [] → pick key q = none) ∧
    (q ≠ [] → ∃ m, pick key q = some m) ∧
    (∀ m, pick key q = some m → m ∈ q ∧ ∀ w ∈ q, key m ≤ key w)

/-- The call `heap_pop(graph->min_heap)`: the popped node and the graph with that entry removed. -/
def heap_pop (pick : (Nat → WithTop ℚ) → List Nat → Option Nat) (g : mesh_graph) :
    Option (Nat × mesh_graph) :=
  match pick (heap_key g) g.min_heap with
  | none => none
  | some m => some (m, { g with min_heap := g.min_heap.erase m })

/-- A queue that scans for the first entry of smallest key. -/
def pick_first_min (key : Nat → WithTop ℚ) : List Nat → Option Nat
  | [] => none
  | a :: rest =>
    match pick_first_min key rest with
    | none => some a
    | some b => if key b < key a then some b else some a

/-! ## Node operations -/

def mesh_node_init (id : Nat) (x y : ℚ) : mesh_node :=
  { heap_value := none
    switch_enabled := true
    last_switch_enabled := true
    neighbors := []
    min_cost := ⊤
    weight := INIT_WEIGHT
    visited := false
    x := x
    y := y
    id := id }

def mesh_node_reset (node : mesh_node) : mesh_node :=
  { node with heap_value := none, min_cost := ⊤, visited := false }

/-- The function `mesh_node_set_switch`; `sigmoid` stands for the C function of that
name and `u` is the value returned by `randf()`. -/
def mesh_node_set_switch (sigmoid : ℚ → ℚ) (node : mesh_node) (u : ℚ) : mesh_node :=
  { node with
    last_switch_enabled := node.switch_enabled
    switch_enabled := decide (sigmoid node.weight ≥ u) }

/-- One iteration of the loop of `mesh_node_visit_neighbors` run on node `i`. -/
def visit_neighbor (i : Nat) (g : mesh_graph) (neighbor : mesh_node_neighbor) : mesh_graph :=
  match g.nodes[i]?, g.nodes[neighbor.node]? with
  | some node, some t =>
    if !t.visited then
      let new_cost := node.min_cost + (neighbor.cost : WithTop ℚ)
      if new_cost < t.min_cost then
        match t.heap_value with
        | none =>
          { nodes := g.nodes.set neighbor.node
              { t with min_cost := new_cost, heap_value := some neighbor.node }
            min_heap := heap_add g.min_heap neighbor.node }
        | some handle =>
          { nodes := g.nodes.set neighbor.node { t with min_cost := new_cost }
            min_heap := heap_update g.min_heap handle }
      else g
    else g
  | _, _ => g

def mesh_node_visit_neighbors (g : mesh_graph) (i : Nat) : mesh_graph :=
  match g.nodes[i]? with
  | none => g
  | some node =>
    let g1 := if node.switch_enabled then node.neighbors.foldl (visit_neighbor i) g else g
    { g1 with nodes := g1.nodes.modify (fun nd => { nd with visited := true }) i }

def mesh_node_update_weight (node : mesh_node) (delta : ℚ) : mesh_node :=
  if node.switch_enabled != node.last_switch_enabled then
    { node with weight := node.weight + delta * (if node.switch_enabled then -1 else 1) }
  else node

/-- The function `mesh_node_get_dis`, returning the square of the distance. -/
def mesh_node_get_dis (A B : mesh_node) : ℚ :=
  (A.x - B.x) ^ 2 + (A.y - B.y) ^ 2

/-- Integer square root by halving, on a fuel argument. -/
def isqrt_fuel : Nat → Nat → Nat
  | 0, _ => 0
  | f + 1, n =>
    if n = 0 then 0
    else
      let r := 2 * isqrt_fuel f (n / 4)
      if (r + 1) * (r + 1) ≤ n then r + 1 else r

def isqrt (n : Nat) : Nat := isqrt_fuel n n

/-- The function `mesh_node_dis_to_cost` on a distance given by its square `dsq`:
`roundf(d*5+30)` is the floor of `(10 d + 61) / 2`. -/
def mesh_node_dis_to_cost (dsq : ℚ) : ℚ :=
  (((isqrt (⌊100 * dsq⌋.toNat) + 61) / 2 : Nat) : ℚ)

/-! ## Graph operations -/

/-- The body of the inner loop of `mesh_graph_new` for the pair `(i, j)`: the node `A`
after the iteration. -/
def add_neighbor (nodes : List mesh_node) (i : Nat) (A : mesh_node) (j : Nat) : mesh_node :=
  match nodes[j]? with
  | none => A
  | some B =>
    if i ≠ j then
      let d := mesh_node_get_dis A B
      if d < CUTOFF_DISTANCE ^ 2 then
        let cost := mesh_node_dis_to_cost d
        let cost := if !(i == 0 || j == 0) then cost + COST_SWITCH else cost
        { A with neighbors := A.neighbors ++ [{ node := j, cost := cost }] }
      else A
    else A

/-- The function `mesh_graph_new`; `pos i` is the position
`((randf()-0.5f)*x, (randf()-0.5f)*y)` drawn for node `i ≥ 1`. -/
def mesh_graph_new (n_node : Nat) (pos : Nat → ℚ × ℚ) : mesh_graph :=
  let nodes := (List.range n_node).map fun i =>
    if i = 0 then mesh_node_init 0 0 0 else mesh_node_init i (pos i).1 (pos i).2
  { nodes := nodes.mapIdx fun i A => (List.range n_node).foldl (add_neighbor nodes i) A
    min_heap := [] }

def mesh_graph_reset (g : mesh_graph) : mesh_graph :=
  { g with
    nodes := (g.nodes.map mesh_node_reset).modify (fun nd => { nd with min_cost := 0 }) 0 }

/-- The function `mesh_graph_set_switch`; `draws i` is the value of `randf()` in the call
for node `i`. -/
def mesh_graph_set_switch (sigmoid : ℚ → ℚ) (draws : Nat → ℚ) (g : mesh_graph)
    (force_enable : Bool) : mesh_graph :=
  let nodes :=
    if force_enable then g.nodes.map fun nd => { nd with switch_enabled := true }
    else g.nodes.mapIdx fun i nd => mesh_node_set_switch sigmoid nd (draws i)
  { g with nodes := nodes.modify (fun nd => { nd with switch_enabled := true }) 0 }

/-- The loop `for(;;)` of `mesh_graph_get_cost`, started on node `n`. -/
def relax_loop (pick : (Nat → WithTop ℚ) → List Nat → Option Nat) :
    Nat → mesh_graph → Nat → Option mesh_graph
  | 0, _, _ => none
  | fuel + 1, g, n =>
    let g1 := mesh_node_visit_neighbors g n
    match heap_pop pick g1 with
    | none => some g1
    | some (m, g2) => relax_loop pick fuel g2 m

/-- The per-node cost summed into `path_cost`. -/
def node_cost (node : mesh_node) : ℚ :=
  match node.min_cost with
  | none => COST_NOT_FOUND
  | some c => c

/-- The aggregation part of `mesh_graph_get_cost`. -/
def aggregate_cost (g : mesh_graph) : ℚ :=
  let path_cost := g.nodes.foldl (fun acc nd => acc + node_cost nd) (0 : ℚ)
  let path_cost := path_cost / (g.n_node : ℚ)
  let n_switch := g.nodes.foldl (fun acc nd => acc + (if nd.switch_enabled then 1 else 0)) (0 : Nat)
  let msg_cost := (n_switch : ℚ) * COST_MESSAGE
  path_cost + msg_cost

/-- The calls `heap_free` and `heap_create` that open `mesh_graph_get_cost`. -/
def with_fresh_heap (g : mesh_graph) : mesh_graph :=
  { nodes := g.nodes, min_heap := [] }

/-- The function `mesh_graph_get_cost`: the graph after the call and the returned total cost. -/
def mesh_graph_get_cost (pick : (Nat → WithTop ℚ) → List Nat → Option Nat) (fuel : Nat)
    (g : mesh_graph) : Option (mesh_graph × ℚ) :=
  match relax_loop pick fuel (with_fresh_heap g) 0 with
  | none => none
  | some g1 => some (g1, aggregate_cost g1)

def mesh_graph_update_weight (g : mesh_graph) (delta : ℚ) : mesh_graph :=
  { g with nodes := g.nodes.map fun nd => mesh_node_update_weight nd delta }

/-! ## Reading the state -/

/-- The flag `nodes[v].visited`; `false` outside the array. -/
def visited_at (g : mesh_graph) (v : Nat) : Bool :=
  match g.nodes[v]? with
  | some nd => nd.visited
  | none => false

/-- The flag `nodes[v].switch_enabled`; `false` outside the array. -/
def enabled_at (g : mesh_graph) (v : Nat) : Bool :=
  match g.nodes[v]? with
  | some nd => nd.switch_enabled
  | none => false

/-- The edge list `nodes[v].neighbors`; empty outside the array. -/
def neighbors_at (g : mesh_graph) (v : Nat) : List mesh_node_neighbor :=
  match g.nodes[v]? with
  | some nd => nd.neighbors
  | none => []

/-- The handle `nodes[v].heap_value`; `none` outside the array. -/
def handle_at (g : mesh_graph) (v : Nat) : Option Nat :=
  match g.nodes[v]? with
  | some nd => nd.heap_value
  | none => none

/-- The fields of a node that one relaxation pass never writes. -/
def frame (nd : mesh_node) : Bool × Bool × List mesh_node_neighbor × ℚ × ℚ × ℚ × Nat :=
  (nd.switch_enabled, nd.last_switch_enabled, nd.neighbors, nd.weight, nd.x, nd.y, nd.id)

/-- The enabled flag, saved flag and weight of node `i`. -/
def flags_and_weight (g : mesh_graph) (i : Nat) : Option (Bool × Bool × ℚ) :=
  (g.nodes[i]?).map fun nd => (nd.switch_enabled, nd.last_switch_enabled, nd.weight)

/-! ## The relaxation pass: auxiliary notions and invariants -/

/-- The neighbour loop of `mesh_node_visit_neighbors`, before the node is marked visited. -/
def relax_edges (g : mesh_graph) (i : Nat) : mesh_graph :=
  if enabled_at g i then (neighbors_at g i).foldl (visit_neighbor i) g else g

/-- Number of queued entries plus number of nodes that have no handle yet. -/
def queue_budget (g : mesh_graph) : Nat :=
  g.min_heap.length + g.nodes.countP (fun nd => nd.heap_value.isNone)

/-- A relay route from the root: `relay_path g v c` holds when some directed path
`0 = v0 → ... → vk = v`, all of whose nodes except possibly the last are enabled, has
edge costs summing to `c`. -/
inductive relay_path (g : mesh_graph) : Nat → ℚ → Prop
  | root : relay_path g 0 0
  | step (u : Nat) (c : ℚ) (e : mesh_node_neighbor) :
      relay_path g u c → enabled_at g u = true → e ∈ neighbors_at g u →
      relay_path g e.node (c + e.cost)

/-- Every edge cost of the graph is non-negative. -/
def nonneg_costs (g : mesh_graph) : Prop :=
  ∀ nd ∈ g.nodes, ∀ e ∈ nd.neighbors, 0 ≤ e.cost

instance nonneg_costs_decidable (g : mesh_graph) : Decidable (nonneg_costs g) := by
  unfold nonneg_costs
  infer_instance

/-- The loop invariant of the relaxation, stated when node `u` is about to be visited;
`g0` is the graph at the start of the pass. -/
structure dijkstra_inv (g0 g : mesh_graph) (u : Nat) : Prop where
  frame_eq : g.nodes.map frame = g0.nodes.map frame
  cur_unvisited : visited_at g u = false
  cur_finite : heap_key g u < ⊤
  cur_not_queued : u ∉ g.min_heap
  nodup : g.min_heap.Nodup
  queued : ∀ v, v ≠ u → (v ∈ g.min_heap ↔ visited_at g v = false ∧ heap_key g v < ⊤)
  handles : ∀ v, v ≠ u → visited_at g v = false → (handle_at g v = none ↔ heap_key g v = ⊤)
  sound : ∀ v (c : ℚ), heap_key g v = (c : WithTop ℚ) → relay_path g0 v c
  cur_min : ∀ v, visited_at g v = false → heap_key g u ≤ heap_key g v
  settled : ∀ w v, visited_at g w = true → visited_at g v = false →
    heap_key g w ≤ heap_key g v
  closed : ∀ w, visited_at g w = true → enabled_at g0 w = true →
    ∀ e ∈ neighbors_at g0 w, e.node < g0.nodes.length →
      heap_key g e.node ≤ heap_key g w + (e.cost : WithTop ℚ)
  root_key : heap_key g 0 = 0
  root_done : u = 0 ∨ visited_at g 0 = true

/-- What holds of the graph when the relaxation loop has ended. -/
structure dijkstra_done (g0 g : mesh_graph) : Prop where
  frame_eq : g.nodes.map frame = g0.nodes.map frame
  heap_empty : g.min_heap = []
  sound : ∀ v (c : ℚ), heap_key g v = (c : WithTop ℚ) → relay_path g0 v c
  reached_visited : ∀ v, heap_key g v < ⊤ → visited_at g v = true
  closed : ∀ w, visited_at g w = true → enabled_at g0 w = true →
    ∀ e ∈ neighbors_at g0 w, e.node < g0.nodes.length →
      heap_key g e.node ≤ heap_key g w + (e.cost : WithTop ℚ)
  root_key : heap_key g 0 = 0

/-- Facts kept by the relaxation loop on any edge costs, stated when node `u` is about to
be visited; `g0` is the graph at the start of the pass. -/
structure pass_inv (g0 g : mesh_graph) (u : Nat) : Prop where
  frame_eq : g.nodes.map frame = g0.nodes.map frame
  queued : ∀ v, v ≠ u → visited_at g v = false → heap_key g v < ⊤ → v ∈ g.min_heap
  handles : ∀ v, visited_at g v = false → heap_key g v = ⊤ → handle_at g v = none
  root_finite : heap_key g 0 < ⊤
  root_done : u ≠ 0 → visited_at g 0 = true
  root_edges : u ≠ 0 → enabled_at g0 0 = true → ∀ e ∈ neighbors_at g0 0,
    e.node < g0.nodes.length → visited_at g e.node = true ∨ heap_key g e.node < ⊤

/-- What the loop leaves behind on any edge costs: an empty queue, a visited root, and
every neighbour of an enabled root visited. -/
structure pass_done (g0 g : mesh_graph) : Prop where
  frame_eq : g.nodes.map frame = g0.nodes.map frame
  heap_empty : g.min_heap = []
  root_visited : visited_at g 0 = true
  root_edges_visited : enabled_at g0 0 = true → ∀ e ∈ neighbors_at g0 0,
    e.node < g0.nodes.length → visited_at g e.node = true

/-! ## The specification's formulas -/

/-- The per-node cost in the words of the specification: the penalty for an unreached
node, its `min_cost` otherwise. -/
def spec_node_cost (g : mesh_graph) (v : Nat) : ℚ :=
  if heap_key g v = ⊤ then COST_NOT_FOUND else (heap_key g v).untop' 0

/-- The average of the per-node costs over all nodes. -/
def spec_path_cost (g : mesh_graph) : ℚ :=
  (∑ v in Finset.range g.n_node, spec_node_cost g v) / (g.n_node : ℚ)

/-- The message cost: `COST_MESSAGE` times the number of enabled nodes. -/
def spec_message_cost (g : mesh_graph) : ℚ :=
  COST_MESSAGE * (((Finset.range g.n_node).filter fun v => enabled_at g v = true).card : ℚ)

/-- The total cost: path cost plus message cost. -/
def spec_total_cost (g : mesh_graph) : ℚ :=
  spec_path_cost g + spec_message_cost g

/-- The weight that `mesh_node_update_weight` leaves on a node, in the words of the
specification. -/
def spec_updated_weight (nd : mesh_node) (delta : ℚ) : ℚ :=
  if nd.switch_enabled = nd.last_switch_enabled then nd.weight
  else if nd.switch_enabled = true then nd.weight - delta
  else nd.weight + delta

/-- The position given to node `i` by `mesh_graph_new`: the origin for the root. -/
def node_pos (pos : Nat → ℚ × ℚ) (i : Nat) : ℚ × ℚ :=
  if i = 0 then (0, 0) else pos i

/-- The square of the distance between the positions of nodes `i` and `j`. -/
def dist_sq (pos : Nat → ℚ × ℚ) (i j : Nat) : ℚ :=
  ((node_pos pos i).1 - (node_pos pos j).1) ^ 2 + ((node_pos pos i).2 - (node_pos pos j).2) ^ 2

/-- The edge from `i` to `j` prescribed by the construction rule, if there is one. -/
def new_edge (pos : Nat → ℚ × ℚ) (i j : Nat) : Option mesh_node_neighbor :=
  if i ≠ j ∧ dist_sq pos i j < 100 then
    some { node := j
           cost := mesh_node_dis_to_cost (dist_sq pos i j) +
             (if i = 0 ∨ j = 0 then 0 else COST_SWITCH) }
  else none

/-- The nodes of `mesh_graph_new` after the calls of `mesh_node_init`. -/
def init_nodes (n_node : Nat) (pos : Nat → ℚ × ℚ) : List mesh_node :=
  (List.range n_node).map fun i =>
    if i = 0 then mesh_node_init 0 0 0 else mesh_node_init i (pos i).1 (pos i).2

/-! ## The learning loop -/

/-- The body of the learning loop of `main`: the graph and the `last_cost` it leaves for
the next round. -/
def learning_round (sigmoid : ℚ → ℚ) (pick : (Nat → WithTop ℚ) → List Nat → Option Nat)
    (fuel : Nat) (draws : Nat → ℚ) (g : mesh_graph) (last_cost : ℚ) :
    Option (mesh_graph × ℚ) :=
  let g1 := mesh_graph_reset g
  let g2 := mesh_graph_set_switch sigmoid draws g1 false
  match mesh_graph_get_cost pick fuel g2 with
  | none => none
  | some (g3, new_cost) =>
    let delta := (new_cost - last_cost) * LEARNING_RATE
    some (mesh_graph_update_weight g3 delta, new_cost)

/-! ## Example inputs -/

/-- A rational stand-in for the C function `sigmoid`, used to run examples: it is
monotone, takes the value `1/2` at `0` and stays strictly between `0` and `1`, so a draw
of `0` enables a node and a draw of `1` disables it, as with `1/(1+expf(-v))`. -/
def sigmoid_approx (v : ℚ) : ℚ := 1 / 2 + v / (2 * (1 + |v|))

/-- Three nodes: the root at the origin, node 1 at `(5, 0)` and node 2 at `(5, 5)`. -/
def three_node_graph : mesh_graph :=
  mesh_graph_new 3 fun i => if i = 1 then (5, 0) else (5, 5)

/-! ## Reachable states -/

/-- The graph states the program can reach from `mesh_graph_new n_node pos` by calls of
`mesh_graph_reset`, `mesh_graph_set_switch` (either mode, any draws), `mesh_graph_get_cost`
(whenever it returns) and `mesh_graph_update_weight` (any delta). -/
inductive reachable (sigmoid : ℚ → ℚ) (pick : (Nat → WithTop ℚ) → List Nat → Option Nat)
    (n_node : Nat) (pos : Nat → ℚ × ℚ) : mesh_graph → Prop
  | new : reachable sigmoid pick n_node pos (mesh_graph_new n_node pos)
  | reset (g : mesh_graph) :
      reachable sigmoid pick n_node pos g →
      reachable sigmoid pick n_node pos (mesh_graph_reset g)
  | set_switch (g : mesh_graph) (draws : Nat → ℚ) (force_enable : Bool) :
      reachable sigmoid pick n_node pos g →
      reachable sigmoid pick n_node pos (mesh_graph_set_switch sigmoid draws g force_enable)
  | get_cost (g g' : mesh_graph) (fuel : Nat) (total : ℚ) :
      reachable sigmoid pick n_node pos g →
      mesh_graph_get_cost pick fuel g = some (g', total) →
      reachable sigmoid pick n_node pos g'
  | update_weight (g : mesh_graph) (delta : ℚ) :
      reachable sigmoid pick n_node pos g →
      reachable sigmoid pick n_node pos (mesh_graph_update_weight g delta)

/-! ## Queue operations performed by a pass -/

/-- A call recorded during the relaxation: a visit of a node by
`mesh_node_visit_neighbors`, a `heap_add` of a node, or a `heap_update` on a handle. -/
inductive heap_event where
  | visit (v : Nat)
  | add (v : Nat)
  | update (handle : Nat)
  deriving DecidableEq

/-- The queue call made by one iteration of the neighbour loop (the branches of
`visit_neighbor`): `heap_add` when the improved neighbour has no handle, `heap_update`
on its handle otherwise, and nothing when no improvement is written. -/
def visit_neighbor_event (i : Nat) (g : mesh_graph) (neighbor : mesh_node_neighbor) :
    List heap_event :=
  match g.nodes[i]?, g.nodes[neighbor.node]? with
  | some node, some t =>
    if !t.visited then
      let new_cost := node.min_cost + (neighbor.cost : WithTop ℚ)
      if new_cost < t.min_cost then
        match t.heap_value with
        | none => [heap_event.add neighbor.node]
        | some handle => [heap_event.update handle]
      else []
    else []
  | _, _ => []

/-- The queue calls of the neighbour loop run on the edge list `l` from state `g`. -/
def visit_edges_log (i : Nat) : mesh_graph → List mesh_node_neighbor → List heap_event
  | _, [] => []
  | g, e :: rest => visit_neighbor_event i g e ++ visit_edges_log i (visit_neighbor i g e) rest

/-- The queue calls made by `mesh_node_visit_neighbors g i`. -/
def mesh_node_visit_neighbors_log (g : mesh_graph) (i : Nat) : List heap_event :=
  match g.nodes[i]? with
  | none => []
  | some node => if node.switch_enabled then visit_edges_log i g node.neighbors else []

/-- The visits and queue calls of the loop `relax_loop`, in order. -/
def relax_loop_log (pick : (Nat → WithTop ℚ) → List Nat → Option Nat) :
    Nat → mesh_graph → Nat → Option (List heap_event)
  | 0, _, _ => none
  | fuel + 1, g, n =>
    let g1 := mesh_node_visit_neighbors g n
    let here := heap_event.visit n :: mesh_node_visit_neighbors_log g n
    match heap_pop pick g1 with
    | none => some here
    | some (m, g2) => (relax_loop_log pick fuel g2 m).map fun rest => here ++ rest

/-- The nodes visited, in order. -/
def visits : List heap_event → List Nat
  | [] => []
  | heap_event.visit v :: rest => v :: visits rest
  | _ :: rest => visits rest

/-- The nodes inserted into the queue, in order. -/
def adds : List heap_event → List Nat
  | [] => []
  | heap_event.add v :: rest => v :: adds rest
  | _ :: rest => adds rest

/-- The handles passed to `heap_update`, in order. -/
def updates : List heap_event → List Nat
  | [] => []
  | heap_event.update h :: rest => h :: updates rest
  | _ :: rest => updates rest

/-! ## States passed through by a pass -/

/-- The states after each iteration of the neighbour loop run on the edge list `l` from
state `g`. -/
def visit_edges_states (i : Nat) : mesh_graph → List mesh_node_neighbor → List mesh_graph
  | _, [] => []
  | g, e :: rest => visit_neighbor i g e :: visit_edges_states i (visit_neighbor i g e) rest

/-- The states passed through by `mesh_node_visit_neighbors g i` after its entry state:
one per iteration of the neighbour loop, then the state with `visited` set. -/
def mesh_node_visit_neighbors_states (g : mesh_graph) (i : Nat) : List mesh_graph :=
  (match g.nodes[i]? with
    | none => []
    | some node => if node.switch_enabled then visit_edges_states i g node.neighbors else []) ++
  [mesh_node_visit_neighbors g i]

/-- The states passed through by the loop `relax_loop`, in order: each state at the head
of the loop (the start, then the state after each `heap_pop`) followed by the states of
the visit made there. -/
def relax_loop_states (pick : (Nat → WithTop ℚ) → List Nat → Option Nat) :
    Nat → mesh_graph → Nat → Option (List mesh_graph)
  | 0, _, _ => none
  | fuel + 1, g, n =>
    let g1 := mesh_node_visit_neighbors g n
    let here := g :: mesh_node_visit_neighbors_states g n
    match heap_pop pick g1 with
    | none => some here
    | some (m, g2) => (relax_loop_states pick fuel g2 m).map fun rest => here ++ rest

/-- From state `a` to state `b` no `min_cost` has grown, and every node visited in `a` is
still visited in `b` with the same `min_cost`. -/
def key_step (a b : mesh_graph) : Prop :=
  (∀ w, heap_key b w ≤ heap_key a w) ∧
  ∀ w, visited_at a w = true → visited_at b w = true ∧ heap_key b w = heap_key a w

/-- The bookkeeping of the queue against the log `L` of the pass so far: the nodes with
a handle are the inserted ones, each handle is its node's index, no node was inserted
twice, the root was not inserted, the visited nodes together with the queued ones are the
root and the inserted nodes, and every `heap_update` is on a handle inserted before it.
`g0` is the graph at the start of the pass. -/
structure queue_inv (g0 g : mesh_graph) (L : List heap_event) : Prop where
  frame_eq : g.nodes.map frame = g0.nodes.map frame
  handle_iff : ∀ v, v ∈ adds L ↔ handle_at g v ≠ none
  handle_self : ∀ v h, handle_at g v = some h → h = v
  adds_nodup : (adds L).Nodup
  adds_lt : ∀ v ∈ adds L, v < g0.nodes.length
  root_out : 0 ∉ adds L
  queued : (visits L ++ g.min_heap).Perm (0 :: adds L)
  update_after_add : ∀ l1 h l2, L = l1 ++ heap_event.update h :: l2 → h ∈ adds l1

/-! ## Further example inputs -/

/-- The three-node graph after a sampling call whose draw disables node 1 only. -/
def node1_disabled_graph : mesh_graph :=
  mesh_graph_set_switch sigmoid_approx (fun i => if i = 1 then 1 else 0) three_node_graph false

/-- Two nodes: the root at the origin and node 1 at `(5, 0)`. -/
def two_node_graph : mesh_graph :=
  mesh_graph_new 2 fun _ => (5, 0)

/-- Positions for three nodes: node 1 at `(5, 0)` and node 2 at `(b_x, b_y)`. -/
def relay_positions (b_x b_y : ℚ) (i : Nat) : ℚ × ℚ :=
  if i = 1 then (5, 0) else (b_x, b_y)

/-! ## Single-precision arithmetic -/

/-- The power `2^k` for an integer exponent `k`. -/
def pow2 (k : ℤ) : ℚ :=
  if 0 ≤ k then ((2 ^ k.toNat : Nat) : ℚ) else 1 / ((2 ^ (-k).toNat : Nat) : ℚ)

/-- Binary logarithm of a natural number by halving, on a fuel argument. -/
def log2_fuel : Nat → Nat → Nat
  | 0, _ => 0
  | f + 1, n => if n < 2 then 0 else log2_fuel f (n / 2) + 1

/-- The largest `k` with `2^k ≤ n`, for `n ≥ 1`. -/
def nat_log2 (n : Nat) : Nat := log2_fuel n n

/-- The binary exponent of a non-zero rational: the largest `e` with `2^e ≤ |q|`. -/
def floor_log2 (q : ℚ) : ℤ :=
  let k : ℤ := (nat_log2 q.num.natAbs : ℤ) - (nat_log2 q.den : ℤ)
  if pow2 k ≤ |q| then k else k - 1

/-- Rounding to the nearest integer, a tie going to the even one. -/
def round_half_even (q : ℚ) : ℤ :=
  if q - ⌊q⌋ < 1 / 2 then ⌊q⌋
  else if 1 / 2 < q - ⌊q⌋ then ⌊q⌋ + 1
  else if ⌊q⌋ % 2 = 0 then ⌊q⌋ else ⌊q⌋ + 1

/-- The spacing of the binary32 numbers around `q`: `2^(e-23)` for the exponent `e` of
`q`, and `2^(-149)` in the subnormal range. -/
def f32_ulp (q : ℚ) : ℚ := pow2 (max (floor_log2 q) (-126) - 23)

/-- The binary32 number nearest to `q`, a tie going to the even significand (the
rounding of every C `float` operation); the exponent is not bounded above. -/
def f32_round (q : ℚ) : ℚ :=
  if q = 0 then 0 else (round_half_even (q / f32_ulp q) : ℚ) * f32_ulp q

/-- The function `sqrtf` on a non-negative binary32 number: the binary32 number nearest
to the real square root. -/
def f32_sqrt (q : ℚ) : ℚ :=
  if q ≤ 0 then 0
  else
    let ulp := pow2 (floor_log2 q / 2 - 23)
    let x := q / (ulp * ulp)
    let f : ℤ := (isqrt ⌊x⌋.toNat : ℤ)
    let h := ((f : ℚ) + 1 / 2) ^ 2
    let r : ℤ := if x < h then f else if h < x then f + 1 else if f % 2 = 0 then f else f + 1
    (r : ℚ) * ulp

/-- The function `roundf`: the nearest integer, a tie going away from zero. -/
def f32_roundf (q : ℚ) : ℚ :=
  if 0 ≤ q then (⌊q + 1 / 2⌋ : ℚ) else -(⌊-q + 1 / 2⌋ : ℚ)

/-! ## The program in single precision

The definitions of this section repeat those of the sections above with every `float`
operation of the source rounded to binary32 (`f32_round` after each `+`, `-`, `*`, `/`,
`sqrtf`, `roundf`, literal and conversion from `int`), each operation on its own.  A
rounded magnitude of `2^128` or more (`INFINITY` in C) is modelled for `min_cost`, where
`+INFINITY` is a value of the program.  It is not modelled in the other operations:
positions are taken to be finite `float`s, the aggregation stays below `2^128` for fewer
than `2^31` nodes, and where a squared coordinate difference overflows the code finds the
distance `+INFINITY` and the model a finite distance above the cutoff, so neither adds
an edge. -/

/-- The `float` sum `a + b`. -/
def f32_add (a b : ℚ) : ℚ := f32_round (a + b)

/-- The `float` difference `a - b`. -/
def f32_sub (a b : ℚ) : ℚ := f32_round (a - b)

/-- The `float` product `a * b`. -/
def f32_mul (a b : ℚ) : ℚ := f32_round (a * b)

/-- The `float` quotient `a / b`. -/
def f32_div (a b : ℚ) : ℚ := f32_round (a / b)

/-- The literal `0.003f` of `LEARNING_RATE`. -/
def LEARNING_RATE_f32 : ℚ := f32_round (3 / 1000)

/-- The sum `node->min_cost + neighbor->cost`: `+INFINITY` plus a cost is `+INFINITY`,
and a rounded sum of `2^128` or more overflows to `+INFINITY`. -/
def f32_add_cost (m : WithTop ℚ) (c : ℚ) : WithTop ℚ :=
  match m with
  | none => ⊤
  | some x => if f32_round (x + c) < 2 ^ 128 then ((f32_round (x + c) : ℚ) : WithTop ℚ) else ⊤

/-- One iteration of the loop of `mesh_node_visit_neighbors` run on node `i`, in single
precision. -/
def visit_neighbor_f32 (i : Nat) (g : mesh_graph) (neighbor : mesh_node_neighbor) :
    mesh_graph :=
  match g.nodes[i]?, g.nodes[neighbor.node]? with
  | some node, some t =>
    if !t.visited then
      let new_cost := f32_add_cost node.min_cost neighbor.cost
      if new_cost < t.min_cost then
        match t.heap_value with
        | none =>
          { nodes := g.nodes.set neighbor.node
              { t with min_cost := new_cost, heap_value := some neighbor.node }
            min_heap := heap_add g.min_heap neighbor.node }
        | some handle =>
          { nodes := g.nodes.set neighbor.node { t with min_cost := new_cost }
            min_heap := heap_update g.min_heap handle }
      else g
    else g
  | _, _ => g

/-- The function `mesh_node_visit_neighbors` in single precision. -/
def mesh_node_visit_neighbors_f32 (g : mesh_graph) (i : Nat) : mesh_graph :=
  match g.nodes[i]? with
  | none => g
  | some node =>
    let g1 := if node.switch_enabled then node.neighbors.foldl (visit_neighbor_f32 i) g else g
    { g1 with nodes := g1.nodes.modify (fun nd => { nd with visited := true }) i }

/-- The loop `for(;;)` of `mesh_graph_get_cost` in single precision. -/
def relax_loop_f32 (pick : (Nat → WithTop ℚ) → List Nat → Option Nat) :
    Nat → mesh_graph → Nat → Option mesh_graph
  | 0, _, _ => none
  | fuel + 1, g, n =>
    let g1 := mesh_node_visit_neighbors_f32 g n
    match heap_pop pick g1 with
    | none => some g1
    | some (m, g2) => relax_loop_f32 pick fuel g2 m

/-- The aggregation part of `mesh_graph_get_cost` in single precision: `path_cost` is
accumulated in a `float`, divided by `n_node` converted to `float`, and added to the
product of `n_switch` converted to `float` and `COST_MESSAGE`. -/
def aggregate_cost_f32 (g : mesh_graph) : ℚ :=
  let path_cost := g.nodes.foldl (fun acc nd => f32_add acc (node_cost nd)) (0 : ℚ)
  let path_cost := f32_div path_cost (f32_round (g.n_node : ℚ))
  let n_switch := g.nodes.foldl (fun acc nd => acc + (if nd.switch_enabled then 1 else 0)) (0 : Nat)
  let msg_cost := f32_mul (f32_round (n_switch : ℚ)) COST_MESSAGE
  f32_add path_cost msg_cost

/-- The function `mesh_graph_get_cost` in single precision. -/
def mesh_graph_get_cost_f32 (pick : (Nat → WithTop ℚ) → List Nat → Option Nat) (fuel : Nat)
    (g : mesh_graph) : Option (mesh_graph × ℚ) :=
  match relax_loop_f32 pick fuel (with_fresh_heap g) 0 with
  | none => none
  | some g1 => some (g1, aggregate_cost_f32 g1)

/-- The function `mesh_node_update_weight` in single precision. -/
def mesh_node_update_weight_f32 (node : mesh_node) (delta : ℚ) : mesh_node :=
  if node.switch_enabled != node.last_switch_enabled then
    { node with
      weight := f32_add node.weight (f32_mul delta (if node.switch_enabled then -1 else 1)) }
  else node

/-- The function `mesh_graph_update_weight` in single precision. -/
def mesh_graph_update_weight_f32 (g : mesh_graph) (delta : ℚ) : mesh_graph :=
  { g with nodes := g.nodes.map fun nd => mesh_node_update_weight_f32 nd delta }

/-- The body of the learning loop of `main` in single precision. -/
def learning_round_f32 (sigmoid : ℚ → ℚ) (pick : (Nat → WithTop ℚ) → List Nat → Option Nat)
    (fuel : Nat) (draws : Nat → ℚ) (g : mesh_graph) (last_cost : ℚ) :
    Option (mesh_graph × ℚ) :=
  let g1 := mesh_graph_reset g
  let g2 := mesh_graph_set_switch sigmoid draws g1 false
  match mesh_graph_get_cost_f32 pick fuel g2 with
  | none => none
  | some (g3, new_cost) =>
    let delta := f32_mul (f32_sub new_cost last_cost) LEARNING_RATE_f32
    some (mesh_graph_update_weight_f32 g3 delta, new_cost)

/-- The function `mesh_node_get_dis`: `sqrtf(powf(A->x-B->x,2)+powf(A->y-B->y,2))`, the
square `powf(v,2)` being the rounded product `v*v`. -/
def mesh_node_get_dis_f32 (A B : mesh_node) : ℚ :=
  f32_sqrt (f32_add (f32_mul (f32_sub A.x B.x) (f32_sub A.x B.x))
    (f32_mul (f32_sub A.y B.y) (f32_sub A.y B.y)))

/-- The function `mesh_node_dis_to_cost`: `roundf(d*5.0f+30.0f)`. -/
def mesh_node_dis_to_cost_f32 (d : ℚ) : ℚ :=
  f32_roundf (f32_add (f32_mul d 5) 30)

/-- The body of the inner loop of `mesh_graph_new` for the pair `(i, j)`, in single
precision. -/
def add_neighbor_f32 (nodes : List mesh_node) (i : Nat) (A : mesh_node) (j : Nat) :
    mesh_node :=
  match nodes[j]? with
  | none => A
  | some B =>
    if i ≠ j then
      let d := mesh_node_get_dis_f32 A B
      if d < CUTOFF_DISTANCE then
        let cost := mesh_node_dis_to_cost_f32 d
        let cost := if !(i == 0 || j == 0) then f32_add cost COST_SWITCH else cost
        { A with neighbors := A.neighbors ++ [{ node := j, cost := cost }] }
      else A
    else A

/-- The function `mesh_graph_new` in single precision; `pos i` is the position drawn for
node `i ≥ 1`, stored in the `float` fields `x` and `y`. -/
def mesh_graph_new_f32 (n_node : Nat) (pos : Nat → ℚ × ℚ) : mesh_graph :=
  let nodes := (List.range n_node).map fun i =>
    if i = 0 then mesh_node_init 0 0 0
    else mesh_node_init i (f32_round (pos i).1) (f32_round (pos i).2)
  { nodes := nodes.mapIdx fun i A => (List.range n_node).foldl (add_neighbor_f32 nodes i) A
    min_heap := [] }

/-- The neighbour loop of `mesh_node_visit_neighbors` in single precision, before the node
is marked visited. -/
def relax_edges_f32 (g : mesh_graph) (i : Nat) : mesh_graph :=
  if enabled_at g i then (neighbors_at g i).foldl (visit_neighbor_f32 i) g else g

/-- The position stored for node `i` by `mesh_graph_new` in single precision: the origin
for the root. -/
def node_pos_f32 (pos : Nat → ℚ × ℚ) (i : Nat) : ℚ × ℚ :=
  if i = 0 then (0, 0) else (f32_round (pos i).1, f32_round (pos i).2)

/-- The distance between nodes `i` and `j` as `mesh_node_get_dis` computes it. -/
def dist_f32 (pos : Nat → ℚ × ℚ) (i j : Nat) : ℚ :=
  f32_sqrt (f32_add
    (f32_mul (f32_sub (node_pos_f32 pos i).1 (node_pos_f32 pos j).1)
      (f32_sub (node_pos_f32 pos i).1 (node_pos_f32 pos j).1))
    (f32_mul (f32_sub (node_pos_f32 pos i).2 (node_pos_f32 pos j).2)
      (f32_sub (node_pos_f32 pos i).2 (node_pos_f32 pos j).2)))

/-- The cost given to the edge between `i` and `j` in single precision. -/
def edge_cost_f32 (pos : Nat → ℚ × ℚ) (i j : Nat) : ℚ :=
  if i = 0 ∨ j = 0 then mesh_node_dis_to_cost_f32 (dist_f32 pos i j)
  else f32_add (mesh_node_dis_to_cost_f32 (dist_f32 pos i j)) COST_SWITCH

/-- The edge from `i` to `j` added by the construction in single precision, if there is
one. -/
def new_edge_f32 (pos : Nat → ℚ × ℚ) (i j : Nat) : Option mesh_node_neighbor :=
  if i ≠ j ∧ dist_f32 pos i j < 10 then some { node := j, cost := edge_cost_f32 pos i j }
  else none

/-- The nodes of `mesh_graph_new` in single precision after the calls of
`mesh_node_init`. -/
def init_nodes_f32 (n_node : Nat) (pos : Nat → ℚ × ℚ) : List mesh_node :=
  (List.range n_node).map fun i =>
    if i = 0 then mesh_node_init 0 0 0
    else mesh_node_init i (f32_round (pos i).1) (f32_round (pos i).2)

/-- Every edge cost of the graph is a natural number at most `C`. -/
def natural_costs (g : mesh_graph) (C : Nat) : Prop :=
  ∀ nd ∈ g.nodes, ∀ e ∈ nd.neighbors, e.cost.den = 1 ∧ 0 ≤ e.cost ∧ e.cost ≤ (C : ℚ)

instance natural_costs_decidable (g : mesh_graph) (C : Nat) : Decidable (natural_costs g C) := by
  unfold natural_costs
  infer_instance

/-- Every key of the graph is `+INFINITY` or a natural number at most `b`. -/
def natural_keys (g : mesh_graph) (b : Nat) : Prop :=
  ∀ v, heap_key g v = ⊤ ∨ ∃ m : ℕ, heap_key g v = ((m : ℚ) : WithTop ℚ) ∧ m ≤ b

/-- Every key of the graph is `+INFINITY` or a binary32 value. -/
def rounded_keys (g : mesh_graph) : Prop :=
  ∀ v, heap_key g v = ⊤ ∨ ∃ q : ℚ, heap_key g v = ((f32_round q : ℚ) : WithTop ℚ)

/-- Positions of nodes `s` apart on a line: node `i` at `(s i, 0)`. -/
def line_positions (s : Nat) (i : Nat) : ℚ × ℚ := (((s * i : ℕ) : ℚ), 0)

/-- Positions of a chain of nodes nine apart on a line: node `i` at `(9 i, 0)`. -/
def chain_positions : Nat → ℚ × ℚ := line_positions 9

/-- The least relay cost of node `v` of the chain with every node enabled: `75` for the
hop from the root and `155` for each later hop. -/
def chain_cost (v : Nat) : ℚ := if v = 0 then 0 else 75 + 155 * ((v : ℚ) - 1)

/-- The sum `f 0 + ... + f (k-1)` accumulated from left to right in a `float`, as the
loop over the nodes does. -/
def f32_sum (f : Nat → ℚ) : Nat → ℚ
  | 0 => 0
  | k + 1 => f32_add (f32_sum f k) (f k)

/-- The value of a `float` accumulator after `COST_NOT_FOUND` has been added `k` times
(used for `k` up to `99999`): the exact `5000 k` up to `k = 26844`, where the sum passes
`2^27`, and `4992` more for each later addition. -/
def penalty_sum (k : Nat) : ℚ :=
  if k ≤ 26844 then 5000 * (k : ℚ) else 134220000 + 4992 * ((k : ℚ) - 26844)

/-- Three nodes built in single precision: the root at the origin, node 1 at `(5, 0)`
and node 2 at `(-5, 0)`. -/
def mirror_graph : mesh_graph :=
  mesh_graph_new_f32 3 fun i => if i = 1 then (5, 0) else (-5, 0)

/-- On `mirror_graph`, in single precision: the baseline pass of `main` with every node
enabled, then a round whose draws disable node 2 only, then a round whose draws disable
node 1 only.  The result holds the state and total cost after the first and after the
second round. -/
def mirror_run : Option ((mesh_graph × ℚ) × (mesh_graph × ℚ)) :=
  (mesh_graph_get_cost_f32 pick_first_min 4
    (mesh_graph_set_switch sigmoid_approx (fun _ => 0)
      (mesh_graph_reset mirror_graph) true)).bind fun r0 =>
  (learning_round_f32 sigmoid_approx pick_first_min 4 (fun i => if i = 2 then 1 else 0)
    r0.1 r0.2).bind fun r1 =>
  (learning_round_f32 sigmoid_approx pick_first_min 4 (fun i => if i = 1 then 1 else 0)
    r1.1 r1.2).map fun r2 => (r1, r2)

/-! ## Accessor lemmas and the effect of one relaxation -/

theorem heap_key_lt_top_lt {g : mesh_graph} {v : Nat} (h : heap_key g v < ⊤) :
    v < g.nodes.length := by
  by_contra hv
  have : g.nodes[v]? = none := List.getElem?_eq_none (Nat.le_of_not_lt hv)
  simp [heap_key, this] at h

theorem visited_at_lt {g : mesh_graph} {v : Nat} (h : visited_at g v = true) :
    v < g.nodes.length := by
  by_contra hv
  have : g.nodes[v]? = none := List.getElem?_eq_none (Nat.le_of_not_lt hv)
  simp [visited_at, this] at h

/-- What one iteration of the neighbour loop does, case by case. -/
theorem visit_neighbor_cases (i : Nat) (g : mesh_graph) (e : mesh_node_neighbor) :
    (visit_neighbor i g e = g ∧
      (visited_at g e.node = true ∨ i ≥ g.nodes.length ∨ e.node ≥ g.nodes.length ∨
        heap_key g e.node ≤ heap_key g i + (e.cost : WithTop ℚ))) ∨
    (∃ t, g.nodes[e.node]? = some t ∧ i < g.nodes.length ∧ t.visited = false ∧
      heap_key g i + (e.cost : WithTop ℚ) < t.min_cost ∧
      ((t.heap_value = none ∧ visit_neighbor i g e =
          { nodes := g.nodes.set e.node
              { t with min_cost := heap_key g i + (e.cost : WithTop ℚ), heap_value := some e.node }
            min_heap := g.min_heap ++ [e.node] }) ∨
       (t.heap_value ≠ none ∧ visit_neighbor i g e =
          { nodes := g.nodes.set e.node { t with min_cost := heap_key g i + (e.cost : WithTop ℚ) }
            min_heap := g.min_heap }))) := by
  unfold visit_neighbor
  rcases hi : g.nodes[i]? with _ | nd
  · left
    refine ⟨by simp, Or.inr (Or.inl ?_)⟩
    exact List.getElem?_eq_none_iff.mp hi
  rcases he : g.nodes[e.node]? with _ | t
  · left
    refine ⟨by simp, Or.inr (Or.inr (Or.inl ?_))⟩
    exact List.getElem?_eq_none_iff.mp he
  have hki : heap_key g i = nd.min_cost := by simp [heap_key, hi]
  have hke : heap_key g e.node = t.min_cost := by simp [heap_key, he]
  have hil : i < g.nodes.length := by
    by_contra hc
    rw [List.getElem?_eq_none (Nat.le_of_not_lt hc)] at hi
    cases hi
  by_cases hv : t.visited = true
  · left
    refine ⟨by simp [hv], Or.inl ?_⟩
    simp [visited_at, he, hv]
  have hv' : t.visited = false := by simpa using hv
  by_cases hlt : nd.min_cost + (e.cost : WithTop ℚ) < t.min_cost
  · right
    refine ⟨t, rfl, hil, hv', by rw [hki]; exact hlt, ?_⟩
    rcases hh : t.heap_value with _ | h
    · left
      refine ⟨rfl, ?_⟩
      simp [hv', hlt, hh, hki, heap_add]
    · right
      refine ⟨by simp, ?_⟩
      simp [hv', hlt, hh, hki, heap_update]
  · left
    refine ⟨by simp [hv', hlt], Or.inr (Or.inr (Or.inr ?_))⟩
    rw [hki, hke]
    exact not_lt.mp hlt

theorem nodes_set_getElem? (g : mesh_graph) (j : Nat) (t' : mesh_node) (v : Nat)
    (hj : j < g.nodes.length) :
    (g.nodes.set j t')[v]? = if v = j then some t' else g.nodes[v]? := by
  rw [List.getElem?_set]
  by_cases h : j = v
  · subst h; simp [hj]
  · have h' : ¬ v = j := fun c => h c.symm
    simp [h, h']

/-- Key points of a firing relaxation, read through the accessors. -/
theorem visit_neighbor_spec (i : Nat) (g : mesh_graph) (e : mesh_node_neighbor) :
    (visit_neighbor i g e).nodes.map frame = g.nodes.map frame ∧
    (∀ v, visited_at (visit_neighbor i g e) v = visited_at g v) ∧
    ((visit_neighbor i g e = g ∧
        (visited_at g e.node = true ∨ i ≥ g.nodes.length ∨ e.node ≥ g.nodes.length ∨
          heap_key g e.node ≤ heap_key g i + (e.cost : WithTop ℚ))) ∨
     (i < g.nodes.length ∧ e.node < g.nodes.length ∧ visited_at g e.node = false ∧
        heap_key g i + (e.cost : WithTop ℚ) < heap_key g e.node ∧
        (∀ v, heap_key (visit_neighbor i g e) v =
          if v = e.node then heap_key g i + (e.cost : WithTop ℚ) else heap_key g v) ∧
        (∀ v, v ≠ e.node → handle_at (visit_neighbor i g e) v = handle_at g v) ∧
        handle_at (visit_neighbor i g e) e.node ≠ none ∧
        (visit_neighbor i g e).min_heap =
          if handle_at g e.node = none then g.min_heap ++ [e.node] else g.min_heap)) := by
  rcases visit_neighbor_cases i g e with ⟨heq, hc⟩ | ⟨t, ht, hi, hvis, hlt, hcase⟩
  · rw [heq]
    exact ⟨rfl, fun _ => rfl, Or.inl ⟨rfl, hc⟩⟩
  · have hj : e.node < g.nodes.length := by
      by_contra hc
      rw [List.getElem?_eq_none (Nat.le_of_not_lt hc)] at ht
      cases ht
    have hget : g.nodes[e.node] = t := by
      have := List.getElem?_eq_getElem hj
      rw [ht] at this
      exact (Option.some.inj this).symm
    rcases hcase with ⟨hh, heq⟩ | ⟨hh, heq⟩
    · rw [heq]
      refine ⟨?_, ?_, Or.inr ⟨hi, hj, ?_, ?_, ?_, ?_, ?_, ?_⟩⟩
      · simp only [List.map_set]
        apply List.ext_getElem? ; intro v
        rw [List.getElem?_set]
        by_cases h : e.node = v
        · subst h; simp [hj, frame, hget]
        · simp [h]
      · intro v
        simp only [visited_at, nodes_set_getElem? g e.node _ v hj]
        by_cases h : v = e.node
        · subst h; simp [ht]
        · simp [h]
      · simp [visited_at, ht, hvis]
      · simpa [heap_key, ht] using hlt
      · intro v
        simp only [heap_key, nodes_set_getElem? g e.node _ v hj]
        by_cases h : v = e.node
        · subst h; simp
        · simp [h]
      · intro v hv
        simp only [handle_at, nodes_set_getElem? g e.node _ v hj]
        simp [hv]
      · simp [handle_at, nodes_set_getElem? g e.node _ e.node hj]
      · simp [handle_at, ht, hh]
    · rw [heq]
      refine ⟨?_, ?_, Or.inr ⟨hi, hj, ?_, ?_, ?_, ?_, ?_, ?_⟩⟩
      · simp only [List.map_set]
        apply List.ext_getElem? ; intro v
        rw [List.getElem?_set]
        by_cases h : e.node = v
        · subst h; simp [hj, frame, hget]
        · simp [h]
      · intro v
        simp only [visited_at, nodes_set_getElem? g e.node _ v hj]
        by_cases h : v = e.node
        · subst h; simp [ht]
        · simp [h]
      · simp [visited_at, ht, hvis]
      · simpa [heap_key, ht] using hlt
      · intro v
        simp only [heap_key, nodes_set_getElem? g e.node _ v hj]
        by_cases h : v = e.node
        · subst h; simp
        · simp [h]
      · intro v hv
        simp only [handle_at, nodes_set_getElem? g e.node _ v hj]
        simp [hv]
      · simpa [handle_at, nodes_set_getElem? g e.node _ e.node hj] using hh
      · simp [handle_at, ht, hh]

/-! ## Termination of the relaxation loop -/

theorem modify_eq_set_getElem {α : Type} (f : α → α) (l : List α) (i : Nat) (h : i < l.length) :
    l.modify f i = l.set i (f l[i]) := by
  apply List.ext_getElem?
  intro v
  rw [List.getElem?_modify, List.getElem?_set]
  by_cases hv : i = v
  · subst hv
    simp [h, List.getElem?_eq_getElem h]
  · simp [hv]

theorem mesh_node_visit_neighbors_eq (g : mesh_graph) (i : Nat) (hi : i < g.nodes.length) :
    mesh_node_visit_neighbors g i =
      { relax_edges g i with
        nodes := (relax_edges g i).nodes.modify (fun nd => { nd with visited := true }) i } := by
  have h := List.getElem?_eq_getElem hi
  simp only [mesh_node_visit_neighbors, relax_edges, enabled_at, neighbors_at, h]

theorem mesh_node_visit_neighbors_out (g : mesh_graph) (i : Nat) (hi : g.nodes.length ≤ i) :
    mesh_node_visit_neighbors g i = g := by
  simp [mesh_node_visit_neighbors, List.getElem?_eq_none hi]

theorem foldl_visit_induct {P : mesh_graph → Prop} (i : Nat) (l : List mesh_node_neighbor) :
    ∀ g, P g → (∀ g' e, e ∈ l → P g' → P (visit_neighbor i g' e)) →
      P (l.foldl (visit_neighbor i) g) := by
  induction l with
  | nil => intro g h _; simpa using h
  | cons a l ih =>
    intro g h hstep
    simp only [List.foldl_cons]
    apply ih
    · exact hstep g a (List.mem_cons_self _ _) h
    · intro g' e he hg'
      exact hstep g' e (List.mem_cons_of_mem _ he) hg'

theorem relax_edges_induct {P : mesh_graph → Prop} (g : mesh_graph) (i : Nat) (h0 : P g)
    (hstep : ∀ g' e, e ∈ neighbors_at g i → enabled_at g i = true → P g' →
      P (visit_neighbor i g' e)) :
    P (relax_edges g i) := by
  unfold relax_edges
  by_cases hen : enabled_at g i = true
  · rw [if_pos hen]
    exact foldl_visit_induct i _ g h0 (fun g' e he hg' => hstep g' e he hen hg')
  · rw [if_neg hen]
    exact h0

theorem queue_budget_visit_neighbor (i : Nat) (g : mesh_graph) (e : mesh_node_neighbor) :
    queue_budget (visit_neighbor i g e) = queue_budget g := by
  rcases visit_neighbor_cases i g e with ⟨heq, _⟩ | ⟨t, ht, hi, hvis, hlt, hcase⟩
  · rw [heq]
  · have hj : e.node < g.nodes.length := by
      by_contra hc
      rw [List.getElem?_eq_none (Nat.le_of_not_lt hc)] at ht
      cases ht
    have hget : g.nodes[e.node] = t := by
      have := List.getElem?_eq_getElem hj
      rw [ht] at this
      exact (Option.some.inj this).symm
    have hle := List.boole_getElem_le_countP (fun nd : mesh_node => nd.heap_value.isNone)
      g.nodes e.node hj
    rcases hcase with ⟨hh, heq⟩ | ⟨hh, heq⟩
    · rw [heq]
      simp only [queue_budget, List.countP_set _ _ _ _ hj, hget, hh] at hle ⊢
      simp only [Option.isNone_none, Option.isNone_some, if_true, List.length_append,
        List.length_singleton] at hle ⊢
      simp only [Bool.false_eq_true, if_false]
      omega
    · rw [heq]
      have hh' : t.heap_value.isNone = false := by
        cases h : t.heap_value with
        | none => exact absurd h hh
        | some _ => rfl
      simp only [queue_budget, List.countP_set _ _ _ _ hj, hget, hh']
      simp

theorem queue_budget_visit (g : mesh_graph) (i : Nat) :
    queue_budget (mesh_node_visit_neighbors g i) = queue_budget g := by
  by_cases hi : i < g.nodes.length
  · rw [mesh_node_visit_neighbors_eq g i hi]
    have h1 : queue_budget (relax_edges g i) = queue_budget g ∧
        (relax_edges g i).nodes.length = g.nodes.length := by
      apply relax_edges_induct (P := fun g' => queue_budget g' = queue_budget g ∧
        g'.nodes.length = g.nodes.length) g i ⟨rfl, rfl⟩
      intro g' e _ _ hg'
      refine ⟨by rw [queue_budget_visit_neighbor]; exact hg'.1, ?_⟩
      have := congrArg List.length (visit_neighbor_spec i g' e).1
      simp only [List.length_map] at this
      rw [this]; exact hg'.2
    have hi' : i < (relax_edges g i).nodes.length := by rw [h1.2]; exact hi
    rw [← h1.1]
    have hle := List.boole_getElem_le_countP (fun nd : mesh_node => nd.heap_value.isNone)
      (relax_edges g i).nodes i hi'
    simp only [queue_budget, modify_eq_set_getElem _ _ _ hi', List.countP_set _ _ _ _ hi']
    split at hle <;> simp_all
  · rw [mesh_node_visit_neighbors_out g i (Nat.le_of_not_lt hi)]

/-- The relaxation loop returns once the fuel exceeds the queue budget. -/
theorem relax_loop_terminates (pick : (Nat → WithTop ℚ) → List Nat → Option Nat)
    (hp : heap_contract pick) :
    ∀ (fuel : Nat) (g : mesh_graph) (u : Nat), queue_budget g < fuel →
      ∃ g', relax_loop pick fuel g u = some g' := by
  intro fuel
  induction fuel with
  | zero => intro g u h; omega
  | succ fuel ih =>
    intro g u h
    simp only [relax_loop]
    rcases hpop : heap_pop pick (mesh_node_visit_neighbors g u) with _ | ⟨m, g2⟩
    · exact ⟨_, rfl⟩
    · simp only
      apply ih
      unfold heap_pop at hpop
      rcases hpk : pick (heap_key (mesh_node_visit_neighbors g u))
          (mesh_node_visit_neighbors g u).min_heap with _ | m'
      · rw [hpk] at hpop; cases hpop
      · rw [hpk] at hpop
        simp only [Option.some.injEq, Prod.mk.injEq] at hpop
        obtain ⟨rfl, rfl⟩ := hpop
        have hm := ((hp _ _).2.2 _ hpk).1
        have hb := queue_budget_visit g u
        simp only [queue_budget] at hb h ⊢
        rw [List.length_erase_of_mem hm]
        have : 0 < (mesh_node_visit_neighbors g u).min_heap.length := List.length_pos_of_mem hm
        omega

/-! ## Fields a pass never writes, and induction over the loop -/

theorem frame_getElem? {g g' : mesh_graph} (h : g'.nodes.map frame = g.nodes.map frame) (v : Nat) :
    (g'.nodes[v]?).map frame = (g.nodes[v]?).map frame := by
  rw [← List.getElem?_map, ← List.getElem?_map, h]

theorem frame_length {g g' : mesh_graph} (h : g'.nodes.map frame = g.nodes.map frame) :
    g'.nodes.length = g.nodes.length := by
  have := congrArg List.length h
  simpa using this

theorem frame_enabled_at {g g' : mesh_graph} (h : g'.nodes.map frame = g.nodes.map frame)
    (v : Nat) : enabled_at g' v = enabled_at g v := by
  have := frame_getElem? h v
  unfold enabled_at
  rcases h1 : g'.nodes[v]? with _ | a <;> rcases h2 : g.nodes[v]? with _ | b <;>
    simp [h1, h2, frame] at this ⊢
  exact this.1

theorem frame_neighbors_at {g g' : mesh_graph} (h : g'.nodes.map frame = g.nodes.map frame)
    (v : Nat) : neighbors_at g' v = neighbors_at g v := by
  have := frame_getElem? h v
  unfold neighbors_at
  rcases h1 : g'.nodes[v]? with _ | a <;> rcases h2 : g.nodes[v]? with _ | b <;>
    simp [h1, h2, frame] at this ⊢
  exact this.2.2.1

theorem enabled_at_lt {g : mesh_graph} {v : Nat} (h : enabled_at g v = true) :
    v < g.nodes.length := by
  by_contra hv
  have : g.nodes[v]? = none := List.getElem?_eq_none (Nat.le_of_not_lt hv)
  simp [enabled_at, this] at h

theorem heap_key_out {g : mesh_graph} {v : Nat} (h : g.nodes.length ≤ v) : heap_key g v = ⊤ := by
  simp [heap_key, List.getElem?_eq_none h]

/-- Effect of the whole neighbour loop on the fields it never writes. -/
theorem relax_edges_frame (g : mesh_graph) (i : Nat) :
    (relax_edges g i).nodes.map frame = g.nodes.map frame ∧
      ∀ v, visited_at (relax_edges g i) v = visited_at g v := by
  apply relax_edges_induct (P := fun g' => g'.nodes.map frame = g.nodes.map frame ∧
      ∀ v, visited_at g' v = visited_at g v) g i ⟨rfl, fun _ => rfl⟩
  intro g' e _ _ hg'
  have hs := visit_neighbor_spec i g' e
  exact ⟨hs.1.trans hg'.1, fun v => (hs.2.1 v).trans (hg'.2 v)⟩

/-- Effect of `mesh_node_visit_neighbors` relative to the state after its neighbour loop. -/
theorem visit_mark (g : mesh_graph) (i : Nat) (hi : i < g.nodes.length) :
    (mesh_node_visit_neighbors g i).min_heap = (relax_edges g i).min_heap ∧
    (mesh_node_visit_neighbors g i).nodes.map frame = g.nodes.map frame ∧
    (∀ v, heap_key (mesh_node_visit_neighbors g i) v = heap_key (relax_edges g i) v) ∧
    (∀ v, handle_at (mesh_node_visit_neighbors g i) v = handle_at (relax_edges g i) v) ∧
    (∀ v, visited_at (mesh_node_visit_neighbors g i) v =
      if v = i then true else visited_at g v) := by
  have hf := relax_edges_frame g i
  have hl : i < (relax_edges g i).nodes.length := by rw [frame_length hf.1]; exact hi
  rw [mesh_node_visit_neighbors_eq g i hi]
  refine ⟨rfl, ?_, ?_, ?_, ?_⟩
  · rw [← hf.1]
    apply List.ext_getElem?
    intro v
    simp only [List.getElem?_map, List.getElem?_modify]
    rcases h : (relax_edges g i).nodes[v]? with _ | a
    · simp
    · by_cases hv : i = v <;> simp [hv, frame]
  · intro v
    simp only [heap_key, List.getElem?_modify]
    rcases h : (relax_edges g i).nodes[v]? with _ | a
    · simp
    · by_cases hv : i = v <;> simp [hv]
  · intro v
    simp only [handle_at, List.getElem?_modify]
    rcases h : (relax_edges g i).nodes[v]? with _ | a
    · simp
    · by_cases hv : i = v <;> simp [hv]
  · intro v
    rw [← hf.2 v]
    simp only [visited_at, List.getElem?_modify]
    by_cases hv : v = i
    · subst hv
      simp [List.getElem?_eq_getElem hl]
    · have hv' : ¬ i = v := fun c => hv c.symm
      rcases h : (relax_edges g i).nodes[v]? with _ | a <;> simp [hv, hv']

theorem heap_pop_some {pick : (Nat → WithTop ℚ) → List Nat → Option Nat} {g g2 : mesh_graph}
    {m : Nat} (h : heap_pop pick g = some (m, g2)) :
    pick (heap_key g) g.min_heap = some m ∧ g2 = { g with min_heap := g.min_heap.erase m } := by
  unfold heap_pop at h
  rcases hpk : pick (heap_key g) g.min_heap with _ | m'
  · rw [hpk] at h; cases h
  · rw [hpk] at h
    simp only [Option.some.injEq, Prod.mk.injEq] at h
    obtain ⟨rfl, rfl⟩ := h
    exact ⟨rfl, rfl⟩

theorem heap_pop_none {pick : (Nat → WithTop ℚ) → List Nat → Option Nat}
    (hp : heap_contract pick) {g : mesh_graph} (h : heap_pop pick g = none) :
    g.min_heap = [] := by
  unfold heap_pop at h
  by_contra hne
  obtain ⟨m, hm⟩ := (hp (heap_key g) g.min_heap).2.1 hne
  rw [hm] at h
  cases h

/-- Induction over the iterations of the relaxation loop. -/
theorem relax_loop_induct (pick : (Nat → WithTop ℚ) → List Nat → Option Nat)
    (I : mesh_graph → Nat → Prop) (F : mesh_graph → Prop)
    (hstep : ∀ g u m g2, I g u →
      heap_pop pick (mesh_node_visit_neighbors g u) = some (m, g2) → I g2 m)
    (hfin : ∀ g u, I g u → heap_pop pick (mesh_node_visit_neighbors g u) = none →
      F (mesh_node_visit_neighbors g u)) :
    ∀ (fuel : Nat) (g : mesh_graph) (u : Nat) (g' : mesh_graph), I g u →
      relax_loop pick fuel g u = some g' → F g' := by
  intro fuel
  induction fuel with
  | zero => intro g u g' _ h; simp [relax_loop] at h
  | succ fuel ih =>
    intro g u g' hI h
    simp only [relax_loop] at h
    rcases hpop : heap_pop pick (mesh_node_visit_neighbors g u) with _ | ⟨m, g2⟩
    · rw [hpop] at h
      simp only [Option.some.injEq] at h
      rw [← h]
      exact hfin g u hI hpop
    · rw [hpop] at h
      exact ih g2 m g' (hstep g u m g2 hI hpop) h

/-! ## The loop invariant on non-negative costs -/

theorem neighbors_at_mem {g : mesh_graph} {v : Nat} {e : mesh_node_neighbor}
    (h : e ∈ neighbors_at g v) : ∃ nd, nd ∈ g.nodes ∧ e ∈ nd.neighbors := by
  unfold neighbors_at at h
  rcases hv : g.nodes[v]? with _ | nd
  · simp [hv] at h
  · rw [hv] at h
    exact ⟨nd, List.getElem?_mem hv, h⟩

theorem nonneg_costs_at {g : mesh_graph} (h : nonneg_costs g) {v : Nat}
    {e : mesh_node_neighbor} (he : e ∈ neighbors_at g v) : 0 ≤ e.cost := by
  obtain ⟨nd, hnd, hmem⟩ := neighbors_at_mem he
  exact h nd hnd e hmem

theorem key_le_add_cost (a : WithTop ℚ) {c : ℚ} (hc : 0 ≤ c) : a ≤ a + (c : WithTop ℚ) := by
  apply le_add_of_nonneg_right
  exact_mod_cast hc

/-- One iteration of the neighbour loop keeps the invariant, never raises a key, keeps the
key of the visiting node and leaves the relaxed edge satisfied. -/
theorem dijkstra_inv_visit_neighbor {g0 g : mesh_graph} {u : Nat} {e : mesh_node_neighbor}
    (hn : nonneg_costs g0) (inv : dijkstra_inv g0 g u) (hen : enabled_at g0 u = true)
    (he : e ∈ neighbors_at g0 u) :
    dijkstra_inv g0 (visit_neighbor u g e) u ∧
    (∀ v, heap_key (visit_neighbor u g e) v ≤ heap_key g v) ∧
    heap_key (visit_neighbor u g e) u = heap_key g u ∧
    (e.node < g0.nodes.length →
      heap_key (visit_neighbor u g e) e.node ≤ heap_key (visit_neighbor u g e) u + (e.cost : WithTop ℚ)) := by
  have hc : 0 ≤ e.cost := nonneg_costs_at hn he
  have hlen : g.nodes.length = g0.nodes.length := frame_length inv.frame_eq
  have hu : u < g.nodes.length := heap_key_lt_top_lt inv.cur_finite
  obtain ⟨hfr, hvis, hcase⟩ := visit_neighbor_spec u g e
  rcases hcase with ⟨heq, hwhy⟩ | ⟨_, hj, hunv, hlt, hkey, hhand, hhn, hq⟩
  · rw [heq]
    refine ⟨inv, fun _ => le_rfl, rfl, ?_⟩
    intro hj
    rcases hwhy with h | h | h | h
    · exact (inv.settled _ _ h inv.cur_unvisited).trans (key_le_add_cost _ hc)
    · omega
    · omega
    · exact h
  · have hne : e.node ≠ u := by
      intro h
      rw [h] at hlt
      exact absurd (key_le_add_cost (heap_key g u) hc) (not_le.mpr hlt)
    have hku : heap_key (visit_neighbor u g e) u = heap_key g u := by
      rw [hkey]; simp [hne.symm]
    have hmono : ∀ v, heap_key (visit_neighbor u g e) v ≤ heap_key g v := by
      intro v
      rw [hkey]
      by_cases hv : v = e.node
      · subst hv; simpa using le_of_lt hlt
      · simp [hv]
    have hfin : heap_key g u + (e.cost : WithTop ℚ) < ⊤ := lt_of_lt_of_le hlt le_top
    refine ⟨?_, hmono, hku, ?_⟩
    · refine
        { frame_eq := hfr.trans inv.frame_eq
          cur_unvisited := by rw [hvis]; exact inv.cur_unvisited
          cur_finite := by rw [hku]; exact inv.cur_finite
          cur_not_queued := ?_
          nodup := ?_
          queued := ?_
          handles := ?_
          sound := ?_
          cur_min := ?_
          settled := ?_
          closed := ?_
          root_key := ?_
          root_done := by
            rcases inv.root_done with h | h
            · exact Or.inl h
            · exact Or.inr (by rw [hvis]; exact h) }
      · rw [hq]
        split
        · simp only [List.mem_append, List.mem_singleton, not_or]
          exact ⟨inv.cur_not_queued, hne.symm⟩
        · exact inv.cur_not_queued
      · rw [hq]
        split
        · rename_i hnone
          have htop : heap_key g e.node = ⊤ := (inv.handles _ hne hunv).mp hnone
          have hnq : e.node ∉ g.min_heap := by
            intro hmem
            have := ((inv.queued _ hne).mp hmem).2
            rw [htop] at this
            exact lt_irrefl _ this
          rw [List.nodup_append]
          refine ⟨inv.nodup, List.nodup_singleton _, ?_⟩
          intro a ha hb
          rw [List.mem_singleton] at hb
          subst hb
          exact hnq ha
        · exact inv.nodup
      · intro v hv
        rw [hvis, hkey]
        by_cases hve : v = e.node
        · subst hve
          simp only [if_true]
          constructor
          · intro _
            exact ⟨hunv, hfin⟩
          · intro _
            rw [hq]
            split
            · simp
            · rename_i hsome
              have hft : heap_key g e.node < ⊤ := by
                rw [lt_top_iff_ne_top]
                intro htop
                exact hsome ((inv.handles _ hne hunv).mpr htop)
              exact (inv.queued _ hne).mpr ⟨hunv, hft⟩
        · simp only [hve, if_false]
          rw [← inv.queued v hv, hq]
          split
          · simp [hve]
          · rfl
      · intro v hv hvu
        rw [hvis] at hvu
        by_cases hve : v = e.node
        · subst hve
          rw [hkey]
          simp only [if_true]
          constructor
          · intro h; exact absurd h hhn
          · intro h; rw [h] at hfin; exact absurd hfin (lt_irrefl _)
        · rw [hhand v hve, hkey]
          simp only [hve, if_false]
          exact inv.handles v hv hvu
      · intro v c hvc
        rw [hkey] at hvc
        by_cases hve : v = e.node
        · subst hve
          simp only [if_true] at hvc
          obtain ⟨cu, hcu⟩ := WithTop.ne_top_iff_exists.mp (ne_of_lt inv.cur_finite)
          rw [← hcu, ← WithTop.coe_add] at hvc
          have hceq : cu + e.cost = c := by exact_mod_cast hvc
          rw [← hceq]
          exact relay_path.step u cu e (inv.sound u cu hcu.symm) hen he
        · simp only [hve, if_false] at hvc
          exact inv.sound v c hvc
      · intro v hv
        rw [hvis] at hv
        rw [hku, hkey]
        by_cases hve : v = e.node
        · simp only [hve, if_true]
          exact key_le_add_cost _ hc
        · simp only [hve, if_false]
          exact inv.cur_min v hv
      · intro w v hw hv
        rw [hvis] at hw hv
        have hwe : w ≠ e.node := by
          intro h; rw [h, hunv] at hw; cases hw
        rw [hkey w, hkey v]
        simp only [hwe, if_false]
        by_cases hve : v = e.node
        · simp only [hve, if_true]
          exact (inv.settled w u hw inv.cur_unvisited).trans (key_le_add_cost _ hc)
        · simp only [hve, if_false]
          exact inv.settled w v hw hv
      · intro w hw hwen e' he' hin
        rw [hvis] at hw
        have hwe : w ≠ e.node := by
          intro h; rw [h, hunv] at hw; cases hw
        have h1 := inv.closed w hw hwen e' he' hin
        have h2 := hmono e'.node
        have h3 : heap_key (visit_neighbor u g e) w = heap_key g w := by
          rw [hkey]; simp [hwe]
        rw [h3]
        exact h2.trans h1
      · rw [hkey]
        have h0 : (0 : Nat) ≠ e.node := by
          intro h
          rcases inv.root_done with h' | h'
          · exact hne (h.symm.trans h'.symm)
          · rw [h, hunv] at h'; cases h'
        simp only [h0, if_false]
        exact inv.root_key
    · intro _
      rw [hku, hkey]
      simp

theorem dijkstra_inv_fold {g0 : mesh_graph} {u : Nat} (hn : nonneg_costs g0)
    (hen : enabled_at g0 u = true) :
    ∀ (l : List mesh_node_neighbor) (gk : mesh_graph), (∀ e ∈ l, e ∈ neighbors_at g0 u) →
      dijkstra_inv g0 gk u →
      dijkstra_inv g0 (l.foldl (visit_neighbor u) gk) u ∧
      (∀ v, heap_key (l.foldl (visit_neighbor u) gk) v ≤ heap_key gk v) ∧
      heap_key (l.foldl (visit_neighbor u) gk) u = heap_key gk u ∧
      (∀ e ∈ l, e.node < g0.nodes.length →
        heap_key (l.foldl (visit_neighbor u) gk) e.node ≤
          heap_key (l.foldl (visit_neighbor u) gk) u + (e.cost : WithTop ℚ)) := by
  intro l
  induction l with
  | nil =>
    intro gk _ inv
    exact ⟨inv, fun _ => le_rfl, rfl, fun e he => by cases he⟩
  | cons a l ih =>
    intro gk hl inv
    simp only [List.foldl_cons]
    obtain ⟨inv1, hmono1, hku1, hedge1⟩ :=
      dijkstra_inv_visit_neighbor hn inv hen (hl a (List.mem_cons_self _ _))
    obtain ⟨inv2, hmono2, hku2, hedge2⟩ :=
      ih (visit_neighbor u gk a) (fun e he => hl e (List.mem_cons_of_mem _ he)) inv1
    refine ⟨inv2, fun v => (hmono2 v).trans (hmono1 v), hku2.trans hku1, ?_⟩
    intro e he hin
    rcases List.mem_cons.mp he with h | h
    · subst h
      rw [hku2]
      exact (hmono2 _).trans (hedge1 hin)
    · exact hedge2 e h hin

theorem dijkstra_inv_relax_edges {g0 g : mesh_graph} {u : Nat} (hn : nonneg_costs g0)
    (inv : dijkstra_inv g0 g u) :
    dijkstra_inv g0 (relax_edges g u) u ∧
    (enabled_at g0 u = true → ∀ e ∈ neighbors_at g0 u, e.node < g0.nodes.length →
      heap_key (relax_edges g u) e.node ≤ heap_key (relax_edges g u) u + (e.cost : WithTop ℚ)) := by
  unfold relax_edges
  rw [frame_enabled_at inv.frame_eq, frame_neighbors_at inv.frame_eq]
  by_cases hen : enabled_at g0 u = true
  · rw [if_pos hen]
    obtain ⟨inv1, _, _, hedge⟩ := dijkstra_inv_fold hn hen (neighbors_at g0 u) g (fun _ h => h) inv
    exact ⟨inv1, fun _ => hedge⟩
  · rw [if_neg hen]
    exact ⟨inv, fun h => absurd h hen⟩

/-- Visiting the current node and popping the next one re-establishes the invariant. -/
theorem dijkstra_inv_step {pick : (Nat → WithTop ℚ) → List Nat → Option Nat}
    (hp : heap_contract pick) {g0 g g2 : mesh_graph} {u m : Nat} (hn : nonneg_costs g0)
    (inv : dijkstra_inv g0 g u)
    (hpop : heap_pop pick (mesh_node_visit_neighbors g u) = some (m, g2)) :
    dijkstra_inv g0 g2 m := by
  have hu : u < g.nodes.length := heap_key_lt_top_lt inv.cur_finite
  obtain ⟨inv1, hedge⟩ := dijkstra_inv_relax_edges hn inv
  obtain ⟨hq, hfr, hkey, hhand, hvis⟩ := visit_mark g u hu
  have hvis1 := (relax_edges_frame g u).2
  obtain ⟨hpk, hg2⟩ := heap_pop_some hpop
  obtain ⟨hmem, hmin⟩ := (hp _ _).2.2 m hpk
  rw [hq] at hmem hmin
  have hmu : m ≠ u := fun h => inv1.cur_not_queued (h ▸ hmem)
  have hm := (inv1.queued m hmu).mp hmem
  have hk2 : ∀ v, heap_key g2 v = heap_key (relax_edges g u) v := by
    intro v; rw [hg2, ← hkey]; rfl
  have hh2 : ∀ v, handle_at g2 v = handle_at (relax_edges g u) v := by
    intro v; rw [hg2, ← hhand]; rfl
  have hvu : visited_at g2 u = true := by
    have : visited_at g2 u = visited_at (mesh_node_visit_neighbors g u) u := by rw [hg2]; rfl
    rw [this, hvis]; simp
  have hv2 : ∀ v, v ≠ u → visited_at g2 v = visited_at (relax_edges g u) v := by
    intro v hv
    have : visited_at g2 v = visited_at (mesh_node_visit_neighbors g u) v := by rw [hg2]; rfl
    rw [this, hvis, hvis1]; simp [hv]
  have hq2 : g2.min_heap = (relax_edges g u).min_heap.erase m := by rw [hg2, ← hq]
  have hf2 : g2.nodes.map frame = g0.nodes.map frame := by
    rw [hg2]; exact hfr.trans inv.frame_eq
  have hmin' : ∀ w ∈ (relax_edges g u).min_heap,
      heap_key (relax_edges g u) m ≤ heap_key (relax_edges g u) w := by
    intro w hw
    have := hmin w hw
    rwa [hkey, hkey] at this
  have hne_of_unv : ∀ v, visited_at g2 v = false → v ≠ u := by
    intro v hunv h
    rw [h, hvu] at hunv; cases hunv
  refine
    { frame_eq := hf2
      cur_unvisited := ?_
      cur_finite := ?_
      cur_not_queued := ?_
      nodup := ?_
      queued := ?_
      handles := ?_
      sound := ?_
      cur_min := ?_
      settled := ?_
      closed := ?_
      root_key := ?_
      root_done := ?_ }
  · rw [hv2 m hmu]; exact hm.1
  · rw [hk2]; exact hm.2
  · rw [hq2]
    exact inv1.nodup.not_mem_erase
  · rw [hq2]
    exact inv1.nodup.erase m
  · intro v hv
    rw [hq2, List.mem_erase_of_ne hv, hk2]
    by_cases hvu' : v = u
    · subst hvu'
      rw [hvu]
      constructor
      · intro h; exact absurd h inv1.cur_not_queued
      · intro h; cases h.1
    · rw [hv2 v hvu']
      exact inv1.queued v hvu'
  · intro v hv hunv
    have hvu' := hne_of_unv v hunv
    rw [hh2, hk2]
    rw [hv2 v hvu'] at hunv
    exact inv1.handles v hvu' hunv
  · intro v c hvc
    rw [hk2] at hvc
    exact inv1.sound v c hvc
  · intro v hunv
    have hvu' := hne_of_unv v hunv
    rw [hv2 v hvu'] at hunv
    rw [hk2, hk2]
    by_cases hfin : heap_key (relax_edges g u) v < ⊤
    · exact hmin' v ((inv1.queued v hvu').mpr ⟨hunv, hfin⟩)
    · rw [not_lt_top_iff] at hfin
      rw [hfin]
      exact le_top
  · intro w v hw hunv
    have hvu' := hne_of_unv v hunv
    rw [hv2 v hvu'] at hunv
    rw [hk2, hk2]
    by_cases hwu : w = u
    · subst hwu
      exact inv1.cur_min v hunv
    · rw [hv2 w hwu] at hw
      exact inv1.settled w v hw hunv
  · intro w hw hwen e he hin
    rw [hk2, hk2]
    by_cases hwu : w = u
    · subst hwu
      exact hedge hwen e he hin
    · rw [hv2 w hwu] at hw
      exact inv1.closed w hw hwen e he hin
  · rw [hk2]
    exact inv1.root_key
  · right
    rcases inv.root_done with h | h
    · rw [← h]; exact hvu
    · by_cases h0 : 0 = u
      · rw [h0]; exact hvu
      · rw [hv2 0 h0, hvis1]; exact h

/-- When the queue is found empty after a visit, the final properties hold. -/
theorem dijkstra_inv_finish {pick : (Nat → WithTop ℚ) → List Nat → Option Nat}
    (hp : heap_contract pick) {g0 g : mesh_graph} {u : Nat} (hn : nonneg_costs g0)
    (inv : dijkstra_inv g0 g u)
    (hpop : heap_pop pick (mesh_node_visit_neighbors g u) = none) :
    dijkstra_done g0 (mesh_node_visit_neighbors g u) := by
  have hu : u < g.nodes.length := heap_key_lt_top_lt inv.cur_finite
  obtain ⟨inv1, hedge⟩ := dijkstra_inv_relax_edges hn inv
  obtain ⟨hq, hfr, hkey, hhand, hvis⟩ := visit_mark g u hu
  have hvis1 := (relax_edges_frame g u).2
  have hempty := heap_pop_none hp hpop
  have hv' : ∀ v, v ≠ u → visited_at (mesh_node_visit_neighbors g u) v =
      visited_at (relax_edges g u) v := by
    intro v hv
    rw [hvis, hvis1]; simp [hv]
  have hvu : visited_at (mesh_node_visit_neighbors g u) u = true := by rw [hvis]; simp
  refine
    { frame_eq := hfr.trans inv.frame_eq
      heap_empty := hempty
      sound := ?_
      reached_visited := ?_
      closed := ?_
      root_key := ?_ }
  · intro v c hvc
    rw [hkey] at hvc
    exact inv1.sound v c hvc
  · intro v hfin
    by_cases hvu' : v = u
    · rw [hvu']; exact hvu
    · rw [hv' v hvu']
      by_contra hunv
      have hunv' : visited_at (relax_edges g u) v = false := by simpa using hunv
      rw [hkey] at hfin
      have := (inv1.queued v hvu').mpr ⟨hunv', hfin⟩
      rw [← hq, hempty] at this
      cases this
  · intro w hw hwen e he hin
    rw [hkey, hkey]
    by_cases hwu : w = u
    · subst hwu
      exact hedge hwen e he hin
    · rw [hv' w hwu] at hw
      exact inv1.closed w hw hwen e he hin
  · rw [hkey]
    exact inv1.root_key

theorem relay_path_congr {g g' : mesh_graph} (h : g'.nodes.map frame = g.nodes.map frame)
    {v : Nat} {c : ℚ} (hp : relay_path g v c) : relay_path g' v c := by
  induction hp with
  | root => exact relay_path.root
  | step u c e _ hen he ih =>
    exact relay_path.step u c e ih (by rw [frame_enabled_at h]; exact hen)
      (by rw [frame_neighbors_at h]; exact he)

theorem nonneg_costs_congr {g g' : mesh_graph} (h : g'.nodes.map frame = g.nodes.map frame)
    (hn : nonneg_costs g) : nonneg_costs g' := by
  intro nd hnd e he
  obtain ⟨v, hv⟩ := List.mem_iff_getElem?.mp hnd
  have h1 := frame_neighbors_at h v
  have h2 : e ∈ neighbors_at g' v := by simp [neighbors_at, hv, he]
  rw [h1] at h2
  exact nonneg_costs_at hn h2

theorem mesh_graph_reset_getElem? (g : mesh_graph) (v : Nat) :
    (mesh_graph_reset g).nodes[v]? =
      (g.nodes[v]?).map fun nd =>
        if v = 0 then { mesh_node_reset nd with min_cost := 0 } else mesh_node_reset nd := by
  simp only [mesh_graph_reset, List.getElem?_modify, List.getElem?_map]
  rcases g.nodes[v]? with _ | nd
  · simp
  · by_cases hv : v = 0
    · subst hv; simp
    · have : ¬ 0 = v := fun c => hv c.symm
      simp [hv, this]

theorem mesh_graph_reset_frame (g : mesh_graph) :
    (mesh_graph_reset g).nodes.map frame = g.nodes.map frame := by
  apply List.ext_getElem?
  intro v
  simp only [List.getElem?_map, mesh_graph_reset_getElem?]
  rcases g.nodes[v]? with _ | nd
  · simp
  · by_cases hv : v = 0 <;> simp [hv, frame, mesh_node_reset]

theorem mesh_graph_reset_heap_key (g : mesh_graph) (v : Nat) :
    heap_key (mesh_graph_reset g) v = if v = 0 ∧ 0 < g.nodes.length then 0 else ⊤ := by
  simp only [heap_key, mesh_graph_reset_getElem?]
  by_cases hl : v < g.nodes.length
  · rw [List.getElem?_eq_getElem hl]
    by_cases hv : v = 0
    · subst hv; simp [hl]
    · simp [hv, mesh_node_reset]
  · rw [List.getElem?_eq_none (Nat.le_of_not_lt hl)]
    have : ¬ (v = 0 ∧ 0 < g.nodes.length) := by
      rintro ⟨h1, h2⟩; omega
    simp [this]

theorem mesh_graph_reset_visited_at (g : mesh_graph) (v : Nat) :
    visited_at (mesh_graph_reset g) v = false := by
  simp only [visited_at, mesh_graph_reset_getElem?]
  rcases g.nodes[v]? with _ | nd
  · simp
  · by_cases hv : v = 0 <;> simp [hv, mesh_node_reset]

theorem mesh_graph_reset_handle_at (g : mesh_graph) (v : Nat) :
    handle_at (mesh_graph_reset g) v = none := by
  simp only [handle_at, mesh_graph_reset_getElem?]
  rcases g.nodes[v]? with _ | nd
  · simp
  · by_cases hv : v = 0 <;> simp [hv, mesh_node_reset]

@[simp] theorem with_fresh_heap_nodes (g : mesh_graph) : (with_fresh_heap g).nodes = g.nodes := rfl

@[simp] theorem with_fresh_heap_min_heap (g : mesh_graph) : (with_fresh_heap g).min_heap = [] := rfl

/-- The invariant holds when the loop is entered on the root of a freshly reset graph. -/
theorem dijkstra_inv_init (g : mesh_graph) (hpos : 0 < g.nodes.length) :
    dijkstra_inv (with_fresh_heap (mesh_graph_reset g))
      (with_fresh_heap (mesh_graph_reset g)) 0 := by
  have hk : ∀ v, heap_key (with_fresh_heap (mesh_graph_reset g)) v =
      if v = 0 then 0 else ⊤ := by
    intro v
    have : heap_key (with_fresh_heap (mesh_graph_reset g)) v =
        heap_key (mesh_graph_reset g) v := rfl
    rw [this, mesh_graph_reset_heap_key]
    simp [hpos]
  have hv : ∀ v, visited_at (with_fresh_heap (mesh_graph_reset g)) v = false :=
    fun v => mesh_graph_reset_visited_at g v
  have hh : ∀ v, handle_at (with_fresh_heap (mesh_graph_reset g)) v = none :=
    fun v => mesh_graph_reset_handle_at g v
  refine
    { frame_eq := rfl
      cur_unvisited := hv 0
      cur_finite := by rw [hk]; simp
      cur_not_queued := by simp
      nodup := by simp
      queued := ?_
      handles := ?_
      sound := ?_
      cur_min := ?_
      settled := ?_
      closed := ?_
      root_key := by rw [hk]; simp
      root_done := Or.inl rfl }
  · intro v hv0
    rw [hk]
    simp [hv0]
  · intro v hv0 _
    rw [hk, hh]
    simp [hv0]
  · intro v c hvc
    rw [hk] at hvc
    by_cases hv0 : v = 0
    · subst hv0
      simp only [if_true] at hvc
      have : c = 0 := by exact_mod_cast hvc.symm
      rw [this]
      exact relay_path.root
    · simp [hv0] at hvc
  · intro v _
    rw [hk, hk]
    by_cases hv0 : v = 0 <;> simp [hv0]
  · intro w v hw _
    rw [hv] at hw; cases hw
  · intro w hw
    rw [hv] at hw; cases hw

/-- At the end of the loop no relay route is cheaper than the recorded key. -/
theorem dijkstra_done_lower {g0 g : mesh_graph} (hd : dijkstra_done g0 g) {v : Nat} {c : ℚ}
    (hp : relay_path g0 v c) : v < g0.nodes.length → heap_key g v ≤ (c : WithTop ℚ) := by
  induction hp with
  | root =>
    intro _
    rw [hd.root_key]
    exact le_of_eq rfl
  | step u c e _ hen he ih =>
    intro hin
    have hu : u < g0.nodes.length := enabled_at_lt hen
    have h1 := ih hu
    have hfin : heap_key g u < ⊤ := lt_of_le_of_lt h1 (WithTop.coe_lt_top c)
    have hvis := hd.reached_visited u hfin
    have h2 := hd.closed u hvis hen e he hin
    rw [WithTop.coe_add]
    exact h2.trans (add_le_add_right h1 _)

theorem queue_budget_start (g : mesh_graph) :
    queue_budget (with_fresh_heap g) ≤ g.nodes.length := by
  simp only [queue_budget, with_fresh_heap_min_heap, with_fresh_heap_nodes, List.length_nil,
    Nat.zero_add]
  exact List.countP_le_length _

/-! ## Least relay costs with exact sums -/

theorem pick_first_min_none (key : Nat → WithTop ℚ) (q : List Nat) :
    pick_first_min key q = none ↔ q = [] := by
  cases q with
  | nil => simp [pick_first_min]
  | cons a rest =>
    simp only [pick_first_min]
    rcases pick_first_min key rest with _ | b
    · simp
    · by_cases h : key b < key a <;> simp [h]

theorem pick_first_min_spec (key : Nat → WithTop ℚ) :
    ∀ (q : List Nat) (m : Nat), pick_first_min key q = some m →
      m ∈ q ∧ ∀ w ∈ q, key m ≤ key w := by
  intro q
  induction q with
  | nil => intro m h; simp [pick_first_min] at h
  | cons a rest ih =>
    intro m h
    simp only [pick_first_min] at h
    rcases hr : pick_first_min key rest with _ | b
    · rw [hr] at h
      simp only [Option.some.injEq] at h
      subst h
      have : rest = [] := (pick_first_min_none key rest).mp hr
      subst this
      simp
    · rw [hr] at h
      obtain ⟨hb, hmin⟩ := ih b hr
      by_cases hlt : key b < key a
      · simp only [hlt, if_true, Option.some.injEq] at h
        subst h
        refine ⟨List.mem_cons_of_mem _ hb, ?_⟩
        intro w hw
        rcases List.mem_cons.mp hw with h | h
        · rw [h]; exact le_of_lt hlt
        · exact hmin w h
      · simp only [hlt, if_false, Option.some.injEq] at h
        subst h
        refine ⟨List.mem_cons_self _ _, ?_⟩
        intro w hw
        rcases List.mem_cons.mp hw with h | h
        · rw [h]
        · exact (not_lt.mp hlt).trans (hmin w h)

theorem pick_first_min_contract : heap_contract pick_first_min := by
  intro key q
  refine ⟨fun h => (pick_first_min_none key q).mpr h, ?_, pick_first_min_spec key q⟩
  intro hne
  rcases h : pick_first_min key q with _ | m
  · exact absurd ((pick_first_min_none key q).mp h) hne
  · exact ⟨m, rfl⟩

/-- From a fresh pass on non-negative costs, the loop ends with the final properties. -/
theorem relax_loop_dijkstra {pick : (Nat → WithTop ℚ) → List Nat → Option Nat}
    (hp : heap_contract pick) (g : mesh_graph) (hn : nonneg_costs g)
    (hpos : 0 < g.nodes.length) (fuel : Nat) (hfuel : g.nodes.length < fuel) :
    ∃ g', relax_loop pick fuel (with_fresh_heap (mesh_graph_reset g)) 0 = some g' ∧
      dijkstra_done (with_fresh_heap (mesh_graph_reset g)) g' := by
  have hfr : (mesh_graph_reset g).nodes.map frame = g.nodes.map frame :=
    mesh_graph_reset_frame g
  have hfr0 : (with_fresh_heap (mesh_graph_reset g)).nodes.map frame = g.nodes.map frame := hfr
  have hn0 : nonneg_costs (with_fresh_heap (mesh_graph_reset g)) :=
    nonneg_costs_congr hfr0 hn
  have hlen : (mesh_graph_reset g).nodes.length = g.nodes.length := frame_length hfr
  have hb : queue_budget (with_fresh_heap (mesh_graph_reset g)) < fuel := by
    have := queue_budget_start (mesh_graph_reset g)
    omega
  obtain ⟨g', hg'⟩ := relax_loop_terminates pick hp fuel _ 0 hb
  refine ⟨g', hg', ?_⟩
  exact relax_loop_induct pick (dijkstra_inv (with_fresh_heap (mesh_graph_reset g)))
    (dijkstra_done (with_fresh_heap (mesh_graph_reset g)))
    (fun _ _ _ _ inv hpop => dijkstra_inv_step hp hn0 inv hpop)
    (fun _ _ inv hpop => dijkstra_inv_finish hp hn0 inv hpop)
    fuel _ 0 g' (dijkstra_inv_init g hpos) hg'

/-- With exact sums: on a graph with non-negative edge costs, after `mesh_graph_reset` the
relaxation of `mesh_graph_get_cost` (with any queue meeting the contract, given enough fuel)
returns, and each node's `min_cost` is the least cost of a relay route from the root
through enabled nodes; it is `+infinity` exactly when there is no such route. -/
theorem least_relay_cost_exact
    (pick : (Nat → WithTop ℚ) → List Nat → Option Nat) (hp : heap_contract pick)
    (g : mesh_graph) (hn : nonneg_costs g) (hpos : 0 < g.n_node)
    (fuel : Nat) (hfuel : g.n_node < fuel) :
    ∃ g' total, mesh_graph_get_cost pick fuel (mesh_graph_reset g) = some (g', total) ∧
      ∀ v, v < g.n_node →
        (∀ c : ℚ, heap_key g' v = (c : WithTop ℚ) ↔ IsLeast {c' | relay_path g v c'} c) ∧
        (heap_key g' v = ⊤ ↔ ∀ c, ¬ relay_path g v c) := by
  obtain ⟨g', hloop, hd⟩ := relax_loop_dijkstra hp g hn hpos fuel hfuel
  have hfr : (mesh_graph_reset g).nodes.map frame = g.nodes.map frame :=
    mesh_graph_reset_frame g
  have hlen : (mesh_graph_reset g).nodes.length = g.nodes.length := frame_length hfr
  have hfr0 : (with_fresh_heap (mesh_graph_reset g)).nodes.map frame = g.nodes.map frame := hfr
  have hto : ∀ {v c}, relay_path (with_fresh_heap (mesh_graph_reset g)) v c →
      relay_path g v c := fun h => relay_path_congr hfr0.symm h
  have hfrom : ∀ {v c}, relay_path g v c →
      relay_path (with_fresh_heap (mesh_graph_reset g)) v c :=
    fun h => relay_path_congr hfr0 h
  refine ⟨g', aggregate_cost g', ?_, ?_⟩
  · simp only [mesh_graph_get_cost, hloop]
  · intro v hv
    have hv0 : v < (mesh_graph_reset g).nodes.length := by rw [hlen]; exact hv
    have hlow : ∀ c, relay_path g v c → heap_key g' v ≤ (c : WithTop ℚ) :=
      fun c hc => dijkstra_done_lower hd (hfrom hc) hv0
    constructor
    · intro c
      constructor
      · intro hkc
        refine ⟨hto (hd.sound v c hkc), ?_⟩
        intro c' hc'
        have := hlow c' hc'
        rw [hkc] at this
        exact_mod_cast this
      · rintro ⟨hmem, hleast⟩
        have hle := hlow c hmem
        obtain ⟨c0, hc0⟩ := WithTop.ne_top_iff_exists.mp
          (ne_of_lt (lt_of_le_of_lt hle (WithTop.coe_lt_top c)))
        have h1 : c ≤ c0 := hleast (hto (hd.sound v c0 hc0.symm))
        have h2 : c0 ≤ c := by
          rw [← hc0] at hle
          exact_mod_cast hle
        rw [← hc0, le_antisymm h2 h1]
    · constructor
      · intro htop c hc
        have := hlow c hc
        rw [htop] at this
        exact absurd this (not_le.mpr (WithTop.coe_lt_top c))
      · intro hno
        by_contra hne
        obtain ⟨c0, hc0⟩ := WithTop.ne_top_iff_exists.mp hne
        exact hno c0 (hto (hd.sound v c0 hc0.symm))

/-! ## The root keeps key zero -/

/-- Termination and loop induction combined. -/
theorem relax_loop_total {pick : (Nat → WithTop ℚ) → List Nat → Option Nat}
    (hp : heap_contract pick) (I : mesh_graph → Nat → Prop) (F : mesh_graph → Prop)
    (hstep : ∀ g u m g2, I g u →
      heap_pop pick (mesh_node_visit_neighbors g u) = some (m, g2) → I g2 m)
    (hfin : ∀ g u, I g u → heap_pop pick (mesh_node_visit_neighbors g u) = none →
      F (mesh_node_visit_neighbors g u))
    (g : mesh_graph) (u : Nat) (fuel : Nat) (hb : queue_budget g < fuel) (hI : I g u) :
    ∃ g', relax_loop pick fuel g u = some g' ∧ F g' := by
  obtain ⟨g', hg'⟩ := relax_loop_terminates pick hp fuel g u hb
  exact ⟨g', hg', relax_loop_induct pick I F hstep hfin fuel g u g' hI hg'⟩

/-- A visit leaves the root's key at `0` when the root is the visiting node or is
already visited, provided the root has no self-edge of negative cost. -/
theorem root_key_visit {g0 g : mesh_graph} {u : Nat}
    (hself : ∀ e ∈ neighbors_at g0 0, e.node = 0 → 0 ≤ e.cost)
    (hfr : g.nodes.map frame = g0.nodes.map frame) (hk : heap_key g 0 = 0)
    (hroot : u = 0 ∨ visited_at g 0 = true) :
    (mesh_node_visit_neighbors g u).nodes.map frame = g0.nodes.map frame ∧
    heap_key (mesh_node_visit_neighbors g u) 0 = 0 ∧
    visited_at (mesh_node_visit_neighbors g u) 0 = true := by
  have hpos : 0 < g.nodes.length := by
    apply heap_key_lt_top_lt
    rw [hk]
    exact WithTop.coe_lt_top 0
  have hrel : heap_key (relax_edges g u) 0 = 0 ∧
      ∀ v, visited_at (relax_edges g u) v = visited_at g v := by
    apply relax_edges_induct (P := fun gk => heap_key gk 0 = 0 ∧
      ∀ v, visited_at gk v = visited_at g v) g u ⟨hk, fun _ => rfl⟩
    intro gk e he _ hgk
    obtain ⟨_, hvis, hcase⟩ := visit_neighbor_spec u gk e
    refine ⟨?_, fun v => (hvis v).trans (hgk.2 v)⟩
    rcases hcase with ⟨heq, _⟩ | ⟨_, _, hunv, hlt, hkey, _⟩
    · rw [heq]; exact hgk.1
    · rw [hkey]
      have hne : (0 : Nat) ≠ e.node := by
        intro h0
        rw [← h0, hgk.2 0] at hunv
        rcases hroot with hu | hv
        · subst hu
          rw [frame_neighbors_at hfr] at he
          have hc := hself e he h0.symm
          rw [← h0] at hlt
          exact absurd (key_le_add_cost (heap_key gk 0) hc) (not_le.mpr hlt)
        · rw [hv] at hunv; cases hunv
      simp only [hne, if_false]
      exact hgk.1
  by_cases hu : u < g.nodes.length
  · obtain ⟨_, hfr', hkey, _, hvis⟩ := visit_mark g u hu
    refine ⟨hfr'.trans hfr, by rw [hkey]; exact hrel.1, ?_⟩
    rw [hvis]
    rcases hroot with h | h
    · simp [h]
    · by_cases h0 : 0 = u <;> simp [h0, h]
  · rw [mesh_node_visit_neighbors_out g u (Nat.le_of_not_lt hu)]
    refine ⟨hfr, hk, ?_⟩
    rcases hroot with h | h
    · omega
    · exact h

/-- For every graph with at least one node whose root has no self-edge of negative cost,
after `mesh_graph_reset` the call of `mesh_graph_get_cost` returns and leaves the root's
`min_cost` at exactly `0`. -/
theorem root_key_zero_of_no_neg_self_edge
    (pick : (Nat → WithTop ℚ) → List Nat → Option Nat) (hp : heap_contract pick)
    (g : mesh_graph) (hpos : 0 < g.n_node)
    (hself : ∀ e ∈ neighbors_at g 0, e.node = 0 → 0 ≤ e.cost)
    (fuel : Nat) (hfuel : g.n_node < fuel) :
    ∃ g' total, mesh_graph_get_cost pick fuel (mesh_graph_reset g) = some (g', total) ∧
      heap_key g' 0 = 0 := by
  have hfr : (with_fresh_heap (mesh_graph_reset g)).nodes.map frame = g.nodes.map frame :=
    mesh_graph_reset_frame g
  have hlen : (mesh_graph_reset g).nodes.length = g.nodes.length :=
    frame_length (mesh_graph_reset_frame g)
  have hb : queue_budget (with_fresh_heap (mesh_graph_reset g)) < fuel := by
    have := queue_budget_start (mesh_graph_reset g)
    have h2 : g.nodes.length < fuel := hfuel
    omega
  have hk0 : heap_key (with_fresh_heap (mesh_graph_reset g)) 0 = 0 := by
    have : heap_key (with_fresh_heap (mesh_graph_reset g)) 0 =
        heap_key (mesh_graph_reset g) 0 := rfl
    rw [this, mesh_graph_reset_heap_key]
    have h2 : 0 < g.nodes.length := hpos
    simp [h2]
  obtain ⟨g', hloop, hF⟩ := relax_loop_total hp
    (fun gk u => gk.nodes.map frame = g.nodes.map frame ∧ heap_key gk 0 = 0 ∧
      (u = 0 ∨ visited_at gk 0 = true))
    (fun gk => heap_key gk 0 = 0)
    (by
      intro gk u m g2 hI hpop
      obtain ⟨h1, h2, h3⟩ := root_key_visit hself hI.1 hI.2.1 hI.2.2
      obtain ⟨_, hg2⟩ := heap_pop_some hpop
      rw [hg2]
      exact ⟨h1, h2, Or.inr h3⟩)
    (by
      intro gk u hI _
      exact (root_key_visit hself hI.1 hI.2.1 hI.2.2).2.1)
    (with_fresh_heap (mesh_graph_reset g)) 0 fuel hb ⟨hfr, hk0, Or.inl rfl⟩
  refine ⟨g', aggregate_cost g', ?_, hF⟩
  simp only [mesh_graph_get_cost, hloop]

/-! ## Cost aggregation with exact sums -/

theorem foldl_add_eq_sum_range {α : Type} (f : α → ℚ) (d : ℚ) (l : List α) :
    l.foldl (fun acc x => acc + f x) 0 =
      ∑ i in Finset.range l.length, ((l[i]?).map f).getD d := by
  induction l using List.reverseRecOn with
  | nil => simp
  | append_singleton l a ih =>
    rw [List.foldl_append, List.length_append, List.length_singleton, Finset.sum_range_succ]
    simp only [List.foldl_cons, List.foldl_nil]
    rw [ih]
    congr 1
    · apply Finset.sum_congr rfl
      intro i hi
      rw [Finset.mem_range] at hi
      rw [List.getElem?_append_left hi]
    · simp

theorem foldl_count_eq_card {α : Type} (p : α → Bool) (l : List α) :
    l.foldl (fun acc x => acc + (if p x then 1 else 0)) 0 =
      ((Finset.range l.length).filter fun i => ((l[i]?).map p).getD false = true).card := by
  induction l using List.reverseRecOn with
  | nil => simp
  | append_singleton l a ih =>
    rw [List.foldl_append, List.length_append, List.length_singleton, Finset.range_succ,
      Finset.filter_insert]
    simp only [List.foldl_cons, List.foldl_nil]
    rw [ih]
    have hcongr : ((Finset.range l.length).filter
          fun i => (((l ++ [a])[i]?).map p).getD false = true) =
        ((Finset.range l.length).filter fun i => ((l[i]?).map p).getD false = true) := by
      apply Finset.filter_congr
      intro i hi
      rw [Finset.mem_range] at hi
      rw [List.getElem?_append_left hi]
    have hlast : (((l ++ [a])[l.length]?).map p).getD false = p a := by simp
    rw [hlast, hcongr]
    by_cases hp : p a = true
    · rw [if_pos hp, if_pos hp, Finset.card_insert_of_not_mem]
      simp
    · rw [if_neg hp, if_neg hp]
      simp

theorem node_cost_eq_spec (g : mesh_graph) (i : Nat) (hi : i < g.nodes.length) :
    ((g.nodes[i]?).map node_cost).getD 0 = spec_node_cost g i := by
  simp only [List.getElem?_eq_getElem hi, Option.map_some', Option.getD_some, spec_node_cost,
    heap_key, node_cost]
  generalize (g.nodes[i]).min_cost = k
  induction k using WithTop.recTopCoe with
  | top => simp
  | coe c =>
    rw [if_neg WithTop.coe_ne_top]
    rfl

/-- The loops of the aggregation compute the sum and the count named in the specification. -/
theorem aggregate_cost_eq_spec (g : mesh_graph) : aggregate_cost g = spec_total_cost g := by
  simp only [aggregate_cost, spec_total_cost, spec_path_cost, spec_message_cost,
    mesh_graph.n_node]
  rw [foldl_add_eq_sum_range node_cost 0 g.nodes,
    foldl_count_eq_card (fun nd => nd.switch_enabled) g.nodes]
  have h1 : ∑ i in Finset.range g.nodes.length, ((g.nodes[i]?).map node_cost).getD 0 =
      ∑ v in Finset.range g.nodes.length, spec_node_cost g v := by
    apply Finset.sum_congr rfl
    intro i hi
    exact node_cost_eq_spec g i (Finset.mem_range.mp hi)
  have h2 : ((Finset.range g.nodes.length).filter
        fun i => ((g.nodes[i]?).map fun nd => nd.switch_enabled).getD false = true) =
      ((Finset.range g.nodes.length).filter fun v => enabled_at g v = true) := by
    apply Finset.filter_congr
    intro i _
    simp only [enabled_at]
    rcases g.nodes[i]? with _ | nd <;> simp
  rw [h1, h2, mul_comm]

/-- A visit writes none of the fields collected by `frame`. -/
theorem visit_frame (g : mesh_graph) (u : Nat) :
    (mesh_node_visit_neighbors g u).nodes.map frame = g.nodes.map frame := by
  by_cases hu : u < g.nodes.length
  · exact (visit_mark g u hu).2.1
  · rw [mesh_node_visit_neighbors_out g u (Nat.le_of_not_lt hu)]

/-- With enough fuel `mesh_graph_get_cost` returns; the total is the aggregate named in
the specification, and the fields collected by `frame` are those of the input. -/
theorem mesh_graph_get_cost_total
    {pick : (Nat → WithTop ℚ) → List Nat → Option Nat} (hp : heap_contract pick)
    (g : mesh_graph) (fuel : Nat) (hfuel : g.n_node < fuel) :
    ∃ g' total, mesh_graph_get_cost pick fuel g = some (g', total) ∧
      total = spec_total_cost g' ∧ g'.nodes.map frame = g.nodes.map frame := by
  have hb : queue_budget (with_fresh_heap g) < fuel := by
    have := queue_budget_start g
    have h2 : g.nodes.length < fuel := hfuel
    omega
  obtain ⟨g', hloop, hF⟩ := relax_loop_total hp
    (fun gk _ => gk.nodes.map frame = g.nodes.map frame)
    (fun gk => gk.nodes.map frame = g.nodes.map frame)
    (by
      intro gk u m g2 hI hpop
      obtain ⟨_, hg2⟩ := heap_pop_some hpop
      rw [hg2]
      exact (visit_frame gk u).trans hI)
    (by
      intro gk u hI _
      exact (visit_frame gk u).trans hI)
    (with_fresh_heap g) 0 fuel hb rfl
  refine ⟨g', aggregate_cost g', ?_, aggregate_cost_eq_spec g', hF⟩
  simp only [mesh_graph_get_cost, hloop]

theorem spec_node_cost_le (g : mesh_graph) (v : Nat)
    (h : heap_key g v = ⊤ ∨ heap_key g v ≤ (COST_NOT_FOUND : ℚ)) :
    spec_node_cost g v ≤ COST_NOT_FOUND := by
  unfold spec_node_cost
  by_cases htop : heap_key g v = ⊤
  · rw [if_pos htop]
  · rw [if_neg htop]
    rcases h with h | h
    · exact absurd h htop
    · obtain ⟨c, hc⟩ := WithTop.ne_top_iff_exists.mp htop
      rw [← hc] at h ⊢
      simp only [WithTop.untop'_coe]
      exact_mod_cast h

theorem enabled_card_le (g : mesh_graph) :
    ((Finset.range g.n_node).filter fun v => enabled_at g v = true).card ≤ g.n_node := by
  have := Finset.card_filter_le (Finset.range g.n_node) (fun v => enabled_at g v = true)
  simpa using this

/-! ## Distance to cost -/

theorem isqrt_fuel_spec : ∀ (f n : Nat), n ≤ f →
    isqrt_fuel f n * isqrt_fuel f n ≤ n ∧ n < (isqrt_fuel f n + 1) * (isqrt_fuel f n + 1) := by
  intro f
  induction f with
  | zero =>
    intro n hn
    have : n = 0 := by omega
    subst this
    simp [isqrt_fuel]
  | succ f ih =>
    intro n hn
    simp only [isqrt_fuel]
    by_cases h0 : n = 0
    · subst h0; simp
    · rw [if_neg h0]
      have hm : n / 4 ≤ f := by omega
      obtain ⟨h1, h2⟩ := ih (n / 4) hm
      have hdiv : 4 * (n / 4) ≤ n ∧ n < 4 * (n / 4) + 4 := by omega
      generalize isqrt_fuel f (n / 4) = r0 at h1 h2 ⊢
      generalize n / 4 = m at h1 h2 hdiv
      show (if (2 * r0 + 1) * (2 * r0 + 1) ≤ n then 2 * r0 + 1 else 2 * r0) *
          (if (2 * r0 + 1) * (2 * r0 + 1) ≤ n then 2 * r0 + 1 else 2 * r0) ≤ n ∧
        n < ((if (2 * r0 + 1) * (2 * r0 + 1) ≤ n then 2 * r0 + 1 else 2 * r0) + 1) *
          ((if (2 * r0 + 1) * (2 * r0 + 1) ≤ n then 2 * r0 + 1 else 2 * r0) + 1)
      by_cases hc : (2 * r0 + 1) * (2 * r0 + 1) ≤ n
      · rw [if_pos hc]
        refine ⟨hc, ?_⟩
        nlinarith
      · rw [if_neg hc]
        refine ⟨by nlinarith, ?_⟩
        omega

theorem isqrt_eq_sqrt (n : Nat) : isqrt n = Nat.sqrt n := by
  have h := isqrt_fuel_spec n n le_rfl
  exact Nat.eq_sqrt.mpr h

/-- The cost computed from the squared distance is `round(5 d + 30)` for the real
distance `d`. -/
theorem mesh_node_dis_to_cost_real (s : ℚ) (hs : 0 ≤ s) :
    ((mesh_node_dis_to_cost s : ℚ) : ℝ) = ((round (5 * Real.sqrt (s : ℝ) + 30) : ℤ) : ℝ) := by
  unfold mesh_node_dis_to_cost
  rw [isqrt_eq_sqrt]
  set N := ⌊100 * s⌋.toNat with hN
  set r := Nat.sqrt N with hr
  have hfl0 : (0 : ℤ) ≤ ⌊100 * s⌋ := Int.floor_nonneg.mpr (by positivity)
  have hNz : (N : ℤ) = ⌊100 * s⌋ := Int.toNat_of_nonneg hfl0
  have hNle : (N : ℚ) ≤ 100 * s := by
    have : ((N : ℤ) : ℚ) ≤ 100 * s := by rw [hNz]; exact Int.floor_le _
    exact_mod_cast this
  have hNlt : 100 * s < (N : ℚ) + 1 := by
    have : 100 * s < ((N : ℤ) : ℚ) + 1 := by rw [hNz]; exact Int.lt_floor_add_one _
    exact_mod_cast this
  have hr1 : r * r ≤ N := Nat.sqrt_le N
  have hr2 : N + 1 ≤ (r + 1) * (r + 1) := Nat.lt_succ_sqrt N
  have hsR : (0 : ℝ) ≤ (s : ℝ) := by exact_mod_cast hs
  have hlo : (r : ℝ) ≤ 10 * Real.sqrt (s : ℝ) := by
    have h1 : ((r : ℝ) / 10) ^ 2 ≤ (s : ℝ) := by
      have h2 : ((r * r : ℕ) : ℚ) ≤ 100 * s := le_trans (by exact_mod_cast hr1) hNle
      have h3 : ((r : ℝ) * (r : ℝ)) ≤ 100 * (s : ℝ) := by exact_mod_cast h2
      nlinarith
    have := (Real.le_sqrt (by positivity) hsR).mpr h1
    linarith
  have hhi : 10 * Real.sqrt (s : ℝ) < (r : ℝ) + 1 := by
    have h1 : (s : ℝ) < (((r : ℝ) + 1) / 10) ^ 2 := by
      have h2 : 100 * s < (((r + 1) * (r + 1) : ℕ) : ℚ) :=
        lt_of_lt_of_le hNlt (by exact_mod_cast hr2)
      have h3 : 100 * (s : ℝ) < ((r : ℝ) + 1) * ((r : ℝ) + 1) := by exact_mod_cast h2
      nlinarith
    have := (Real.sqrt_lt' (by positivity)).mpr h1
    linarith
  have hq : 2 * ((r + 61) / 2) ≤ r + 61 ∧ r + 61 ≤ 2 * ((r + 61) / 2) + 1 := by omega
  generalize (r + 61) / 2 = q at hq
  have hq1 : (2 : ℝ) * (q : ℝ) ≤ (r : ℝ) + 61 := by exact_mod_cast hq.1
  have hq2 : (r : ℝ) + 61 ≤ 2 * (q : ℝ) + 1 := by exact_mod_cast hq.2
  have hfloor : round (5 * Real.sqrt (s : ℝ) + 30) = (q : ℤ) := by
    rw [round_eq, Int.floor_eq_iff]
    constructor
    · push_cast; linarith
    · push_cast; linarith
  rw [hfloor]
  push_cast
  rfl

/-! ## The graph built by `mesh_graph_new` -/

theorem init_nodes_getElem? (n : Nat) (pos : Nat → ℚ × ℚ) (j : Nat) (hj : j < n) :
    (init_nodes n pos)[j]? =
      some (mesh_node_init j (node_pos pos j).1 (node_pos pos j).2) := by
  simp only [init_nodes, List.getElem?_map, List.getElem?_range hj, Option.map_some',
    node_pos]
  by_cases h : j = 0
  · subst h; simp
  · simp [h]

theorem add_neighbor_eq (n : Nat) (pos : Nat → ℚ × ℚ) (i j : Nat) (hj : j < n)
    (A : mesh_node) (hx : A.x = (node_pos pos i).1) (hy : A.y = (node_pos pos i).2) :
    add_neighbor (init_nodes n pos) i A j =
      { A with neighbors := A.neighbors ++ (new_edge pos i j).toList } := by
  have hd : mesh_node_get_dis A (mesh_node_init j (node_pos pos j).1 (node_pos pos j).2) =
      dist_sq pos i j := by
    simp [mesh_node_get_dis, dist_sq, hx, hy, mesh_node_init]
  have hcut : CUTOFF_DISTANCE ^ 2 = 100 := by norm_num [CUTOFF_DISTANCE]
  simp only [add_neighbor, init_nodes_getElem? n pos j hj, hd, new_edge, hcut]
  by_cases hij : i = j
  · simp [hij]
  · by_cases hlt : dist_sq pos i j < 100
    · by_cases hi0 : i = 0
      · subst hi0; simp [hij, hlt]
      · by_cases hj0 : j = 0
        · subst hj0; simp [hlt, hi0]
        · simp [hij, hlt, hi0, hj0]
    · simp [hij, hlt]

theorem foldl_add_neighbor (n : Nat) (pos : Nat → ℚ × ℚ) (i : Nat) :
    ∀ (k : Nat), k ≤ n → ∀ (A : mesh_node), A.x = (node_pos pos i).1 →
      A.y = (node_pos pos i).2 →
      (List.range k).foldl (add_neighbor (init_nodes n pos) i) A =
        { A with neighbors := A.neighbors ++ (List.range k).filterMap (new_edge pos i) } := by
  intro k
  induction k with
  | zero => intro _ A _ _; simp
  | succ k ih =>
    intro hk A hx hy
    rw [List.range_succ, List.foldl_append, ih (by omega) A hx hy]
    simp only [List.foldl_cons, List.foldl_nil]
    have h := add_neighbor_eq n pos i k (by omega)
      { A with neighbors := A.neighbors ++ (List.range k).filterMap (new_edge pos i) } hx hy
    rw [h]
    simp only [List.filterMap_append, List.append_assoc]
    congr 2

/-- The nodes built by `mesh_graph_new`: each carries its position and the edges prescribed
by the construction rule, in increasing order of the neighbour index. -/
theorem mesh_graph_new_getElem? (n : Nat) (pos : Nat → ℚ × ℚ) (i : Nat) (hi : i < n) :
    (mesh_graph_new n pos).nodes[i]? =
      some { mesh_node_init i (node_pos pos i).1 (node_pos pos i).2 with
        neighbors := (List.range n).filterMap (new_edge pos i) } := by
  have h0 : (mesh_graph_new n pos).nodes =
      (init_nodes n pos).mapIdx fun i A =>
        (List.range n).foldl (add_neighbor (init_nodes n pos) i) A := rfl
  rw [h0, List.getElem?_mapIdx, init_nodes_getElem? n pos i hi]
  simp only [Option.map_some']
  rw [foldl_add_neighbor n pos i n le_rfl _ rfl rfl]
  simp [mesh_node_init]

theorem mesh_graph_new_length (n : Nat) (pos : Nat → ℚ × ℚ) :
    (mesh_graph_new n pos).nodes.length = n := by
  have h0 : (mesh_graph_new n pos).nodes =
      (init_nodes n pos).mapIdx fun i A =>
        (List.range n).foldl (add_neighbor (init_nodes n pos) i) A := rfl
  rw [h0, List.length_mapIdx]
  simp [init_nodes]

theorem mesh_graph_new_neighbors_at (n : Nat) (pos : Nat → ℚ × ℚ) (i : Nat) (hi : i < n) :
    neighbors_at (mesh_graph_new n pos) i = (List.range n).filterMap (new_edge pos i) := by
  simp [neighbors_at, mesh_graph_new_getElem? n pos i hi]

theorem mem_new_edges (n : Nat) (pos : Nat → ℚ × ℚ) (i : Nat) (e : mesh_node_neighbor) :
    e ∈ (List.range n).filterMap (new_edge pos i) ↔
      e.node < n ∧ i ≠ e.node ∧ dist_sq pos i e.node < 100 ∧
        e.cost = mesh_node_dis_to_cost (dist_sq pos i e.node) +
          (if i = 0 ∨ e.node = 0 then 0 else COST_SWITCH) := by
  simp only [List.mem_filterMap, List.mem_range, new_edge]
  constructor
  · rintro ⟨j, hj, h⟩
    by_cases hc : i ≠ j ∧ dist_sq pos i j < 100
    · rw [if_pos hc] at h
      simp only [Option.some.injEq] at h
      subst h
      exact ⟨hj, hc.1, hc.2, rfl⟩
    · rw [if_neg hc] at h
      cases h
  · rintro ⟨hj, hne, hlt, hcost⟩
    refine ⟨e.node, hj, ?_⟩
    rw [if_pos ⟨hne, hlt⟩, ← hcost]

theorem new_edges_sorted (n : Nat) (pos : Nat → ℚ × ℚ) (i : Nat) :
    (((List.range n).filterMap (new_edge pos i)).map fun e => e.node).Pairwise (· < ·) := by
  rw [List.pairwise_map]
  refine List.Pairwise.filterMap (new_edge pos i) (R := (· < ·)) ?_ (List.pairwise_lt_range n)
  intro a a' hlt b hb b' hb'
  simp only [new_edge] at hb hb'
  by_cases hc : i ≠ a ∧ dist_sq pos i a < 100
  · rw [if_pos hc] at hb
    by_cases hc' : i ≠ a' ∧ dist_sq pos i a' < 100
    · rw [if_pos hc'] at hb'
      simp only [Option.mem_def, Option.some.injEq] at hb hb'
      subst hb; subst hb'
      exact hlt
    · rw [if_neg hc'] at hb'; cases hb'
  · rw [if_neg hc] at hb; cases hb

theorem dist_sq_comm (pos : Nat → ℚ × ℚ) (i j : Nat) : dist_sq pos i j = dist_sq pos j i := by
  simp only [dist_sq]
  ring

theorem dist_sq_nonneg (pos : Nat → ℚ × ℚ) (i j : Nat) : 0 ≤ dist_sq pos i j := by
  simp only [dist_sq]
  positivity

theorem neighbors_at_out {g : mesh_graph} {v : Nat} (h : g.nodes.length ≤ v) :
    neighbors_at g v = [] := by
  simp [neighbors_at, List.getElem?_eq_none h]

theorem mem_neighbors_new (n : Nat) (pos : Nat → ℚ × ℚ) (i : Nat) (e : mesh_node_neighbor) :
    e ∈ neighbors_at (mesh_graph_new n pos) i ↔
      i < n ∧ e.node < n ∧ i ≠ e.node ∧ dist_sq pos i e.node < 100 ∧
        e.cost = mesh_node_dis_to_cost (dist_sq pos i e.node) +
          (if i = 0 ∨ e.node = 0 then 0 else COST_SWITCH) := by
  by_cases hi : i < n
  · rw [mesh_graph_new_neighbors_at n pos i hi, mem_new_edges]
    simp [hi]
  · rw [neighbors_at_out (by rw [mesh_graph_new_length]; omega)]
    simp [hi]

/-! ## Sampling step and claim C5 -/

/-- The node stored at index `v` after `mesh_graph_set_switch`. -/
theorem mesh_graph_set_switch_getElem? (sigmoid : ℚ → ℚ) (draws : Nat → ℚ) (g : mesh_graph)
    (force_enable : Bool) (v : Nat) :
    (mesh_graph_set_switch sigmoid draws g force_enable).nodes[v]? =
      (g.nodes[v]?).map fun nd =>
        if v = 0 then
          { (if force_enable then { nd with switch_enabled := true }
              else mesh_node_set_switch sigmoid nd (draws v)) with switch_enabled := true }
        else if force_enable then { nd with switch_enabled := true }
        else mesh_node_set_switch sigmoid nd (draws v) := by
  simp only [mesh_graph_set_switch, List.getElem?_modify]
  cases force_enable
  · simp only [Bool.false_eq_true, if_false, List.getElem?_mapIdx]
    rcases g.nodes[v]? with _ | nd
    · simp
    · by_cases hv : v = 0
      · subst hv; simp
      · have : ¬ 0 = v := fun c => hv c.symm
        simp [hv, this]
  · simp only [if_true, List.getElem?_map]
    rcases g.nodes[v]? with _ | nd
    · simp
    · by_cases hv : v = 0
      · subst hv; simp
      · have : ¬ 0 = v := fun c => hv c.symm
        simp [hv, this]

theorem mesh_graph_set_switch_length (sigmoid : ℚ → ℚ) (draws : Nat → ℚ) (g : mesh_graph)
    (force_enable : Bool) :
    (mesh_graph_set_switch sigmoid draws g force_enable).nodes.length = g.nodes.length := by
  simp only [mesh_graph_set_switch, List.length_modify]
  cases force_enable <;> simp

theorem mesh_graph_set_switch_heap_key (sigmoid : ℚ → ℚ) (draws : Nat → ℚ) (g : mesh_graph)
    (force_enable : Bool) (v : Nat) :
    heap_key (mesh_graph_set_switch sigmoid draws g force_enable) v = heap_key g v := by
  simp only [heap_key, mesh_graph_set_switch_getElem?]
  rcases g.nodes[v]? with _ | nd
  · simp
  · by_cases hv : v = 0 <;> cases force_enable <;> simp [hv, mesh_node_set_switch]

theorem mesh_graph_set_switch_neighbors_at (sigmoid : ℚ → ℚ) (draws : Nat → ℚ)
    (g : mesh_graph) (force_enable : Bool) (v : Nat) :
    neighbors_at (mesh_graph_set_switch sigmoid draws g force_enable) v = neighbors_at g v := by
  simp only [neighbors_at, mesh_graph_set_switch_getElem?]
  rcases g.nodes[v]? with _ | nd
  · simp
  · by_cases hv : v = 0 <;> cases force_enable <;> simp [hv, mesh_node_set_switch]

theorem mesh_graph_set_switch_root (sigmoid : ℚ → ℚ) (draws : Nat → ℚ) (g : mesh_graph)
    (force_enable : Bool) (hpos : 0 < g.nodes.length) :
    enabled_at (mesh_graph_set_switch sigmoid draws g force_enable) 0 = true := by
  simp only [enabled_at, mesh_graph_set_switch_getElem?, List.getElem?_eq_getElem hpos]
  simp

theorem mesh_graph_reset_neighbors_at (g : mesh_graph) (v : Nat) :
    neighbors_at (mesh_graph_reset g) v = neighbors_at g v :=
  frame_neighbors_at (mesh_graph_reset_frame g) v

theorem neighbors_at_of_map_eq {g g' : mesh_graph}
    (h : g.nodes.map (fun nd => nd.neighbors) = g'.nodes.map (fun nd => nd.neighbors))
    (v : Nat) : neighbors_at g v = neighbors_at g' v := by
  have h1 : ((g.nodes.map fun nd => nd.neighbors)[v]?) =
      ((g'.nodes.map fun nd => nd.neighbors)[v]?) := by rw [h]
  simp only [List.getElem?_map] at h1
  unfold neighbors_at
  rcases hg : g.nodes[v]? with _ | a <;> rcases hg' : g'.nodes[v]? with _ | b <;>
    simp [hg, hg'] at h1 ⊢
  exact h1

theorem mesh_node_dis_to_cost_nonneg (s : ℚ) : 0 ≤ mesh_node_dis_to_cost s := by
  unfold mesh_node_dis_to_cost
  exact Nat.cast_nonneg _

theorem new_graph_costs_nonneg (n : Nat) (pos : Nat → ℚ × ℚ) (v : Nat) (e : mesh_node_neighbor)
    (he : e ∈ neighbors_at (mesh_graph_new n pos) v) : 0 ≤ e.cost := by
  obtain ⟨_, _, _, _, hc⟩ := (mem_neighbors_new n pos v e).mp he
  rw [hc]
  have h1 := mesh_node_dis_to_cost_nonneg (dist_sq pos v e.node)
  have h2 : (0 : ℚ) ≤ (if v = 0 ∨ e.node = 0 then 0 else COST_SWITCH) := by
    split
    · exact le_rfl
    · norm_num [COST_SWITCH]
  exact add_nonneg h1 h2

/-- On non-negative edge costs a visit keeps every key non-negative. -/
theorem keys_nonneg_visit {g0 g : mesh_graph} (u : Nat)
    (hn : ∀ v, ∀ e ∈ neighbors_at g0 v, 0 ≤ e.cost)
    (hfr : g.nodes.map frame = g0.nodes.map frame) (hk : ∀ v, 0 ≤ heap_key g v) :
    (mesh_node_visit_neighbors g u).nodes.map frame = g0.nodes.map frame ∧
    ∀ v, 0 ≤ heap_key (mesh_node_visit_neighbors g u) v := by
  have hrel : ∀ v, 0 ≤ heap_key (relax_edges g u) v := by
    apply relax_edges_induct (P := fun gk => ∀ v, 0 ≤ heap_key gk v) g u hk
    intro gk e he _ hgk v
    obtain ⟨_, _, hcase⟩ := visit_neighbor_spec u gk e
    rcases hcase with ⟨heq, _⟩ | ⟨_, _, _, _, hkey, _⟩
    · rw [heq]; exact hgk v
    · rw [hkey]
      by_cases hv : v = e.node
      · simp only [hv, if_true]
        rw [frame_neighbors_at hfr] at he
        have hc : (0 : WithTop ℚ) ≤ (e.cost : WithTop ℚ) := by exact_mod_cast hn u e he
        exact add_nonneg (hgk u) hc
      · simp only [hv, if_false]
        exact hgk v
  by_cases hu : u < g.nodes.length
  · obtain ⟨_, hfr', hkey, _, _⟩ := visit_mark g u hu
    exact ⟨hfr'.trans hfr, fun v => by rw [hkey]; exact hrel v⟩
  · rw [mesh_node_visit_neighbors_out g u (Nat.le_of_not_lt hu)]
    exact ⟨hfr, hk⟩

theorem spec_node_cost_nonneg (g : mesh_graph) (v : Nat) (h : 0 ≤ heap_key g v) :
    0 ≤ spec_node_cost g v := by
  unfold spec_node_cost
  by_cases htop : heap_key g v = ⊤
  · rw [if_pos htop]; norm_num [COST_NOT_FOUND]
  · rw [if_neg htop]
    obtain ⟨c, hc⟩ := WithTop.ne_top_iff_exists.mp htop
    rw [← hc] at h ⊢
    simp only [WithTop.untop'_coe]
    exact_mod_cast h

/-- The aggregate is at least `COST_MESSAGE` when every key is non-negative and the root
is an enabled node of the graph. -/
theorem spec_total_cost_ge (g : mesh_graph) (hk : ∀ v, 0 ≤ heap_key g v)
    (hroot : enabled_at g 0 = true) : COST_MESSAGE ≤ spec_total_cost g := by
  have hpos : 0 < g.n_node := enabled_at_lt hroot
  have h1 : 0 ≤ spec_path_cost g := by
    unfold spec_path_cost
    apply div_nonneg
    · exact Finset.sum_nonneg fun v _ => spec_node_cost_nonneg g v (hk v)
    · exact Nat.cast_nonneg _
  have h2 : 1 ≤ ((Finset.range g.n_node).filter fun v => enabled_at g v = true).card := by
    apply Finset.card_pos.mpr
    exact ⟨0, Finset.mem_filter.mpr ⟨Finset.mem_range.mpr hpos, hroot⟩⟩
  have h3 : (1 : ℚ) ≤
      (((Finset.range g.n_node).filter fun v => enabled_at g v = true).card : ℚ) := by
    exact_mod_cast h2
  unfold spec_total_cost spec_message_cost
  have h4 : COST_MESSAGE * 1 ≤ COST_MESSAGE *
      (((Finset.range g.n_node).filter fun v => enabled_at g v = true).card : ℚ) := by
    apply mul_le_mul_of_nonneg_left h3
    norm_num [COST_MESSAGE]
  linarith

/-- C5: for a graph with the edges built by `mesh_graph_new` (at least one node) and an
enable snapshot produced by `mesh_graph_set_switch` in either mode, `mesh_graph_get_cost`
after a reset returns a total cost of at least `COST_MESSAGE`. -/
theorem C5_total_cost_lower_bound
    (pick : (Nat → WithTop ℚ) → List Nat → Option Nat) (hp : heap_contract pick)
    (n : Nat) (pos : Nat → ℚ × ℚ) (hn : 0 < n) (g : mesh_graph)
    (hg : g.nodes.map (fun nd => nd.neighbors) =
      (mesh_graph_new n pos).nodes.map (fun nd => nd.neighbors))
    (sigmoid : ℚ → ℚ) (draws : Nat → ℚ) (force_enable : Bool)
    (fuel : Nat) (hfuel : n < fuel) :
    ∃ g' total,
      mesh_graph_get_cost pick fuel
        (mesh_graph_set_switch sigmoid draws (mesh_graph_reset g) force_enable) =
          some (g', total) ∧
      COST_MESSAGE ≤ total := by
  have hlen : g.nodes.length = n := by
    have := congrArg List.length hg
    simpa [mesh_graph_new_length] using this
  have hlenr : (mesh_graph_reset g).nodes.length = n := by
    rw [frame_length (mesh_graph_reset_frame g), hlen]
  set g1 := mesh_graph_set_switch sigmoid draws (mesh_graph_reset g) force_enable with hg1
  have hlen1 : g1.nodes.length = n := by
    rw [hg1, mesh_graph_set_switch_length, hlenr]
  have hnn : ∀ v, ∀ e ∈ neighbors_at (with_fresh_heap g1) v, 0 ≤ e.cost := by
    intro v e he
    have h1 : neighbors_at (with_fresh_heap g1) v = neighbors_at g1 v := rfl
    rw [h1, hg1, mesh_graph_set_switch_neighbors_at, mesh_graph_reset_neighbors_at,
      neighbors_at_of_map_eq hg] at he
    exact new_graph_costs_nonneg n pos v e he
  have hk0 : ∀ v, 0 ≤ heap_key (with_fresh_heap g1) v := by
    intro v
    have h1 : heap_key (with_fresh_heap g1) v = heap_key g1 v := rfl
    rw [h1, hg1, mesh_graph_set_switch_heap_key, mesh_graph_reset_heap_key]
    split
    · exact le_rfl
    · exact le_top
  have hroot : enabled_at (with_fresh_heap g1) 0 = true := by
    have h1 : enabled_at (with_fresh_heap g1) 0 = enabled_at g1 0 := rfl
    rw [h1, hg1]
    exact mesh_graph_set_switch_root sigmoid draws _ force_enable (by rw [hlenr]; exact hn)
  have hb : queue_budget (with_fresh_heap g1) < fuel := by
    have := queue_budget_start g1
    omega
  obtain ⟨g', hloop, hfr, hk⟩ := relax_loop_total hp
    (fun gk _ => gk.nodes.map frame = (with_fresh_heap g1).nodes.map frame ∧
      ∀ v, 0 ≤ heap_key gk v)
    (fun gk => gk.nodes.map frame = (with_fresh_heap g1).nodes.map frame ∧
      ∀ v, 0 ≤ heap_key gk v)
    (by
      intro gk u m g2 hI hpop
      obtain ⟨_, hg2⟩ := heap_pop_some hpop
      rw [hg2]
      exact keys_nonneg_visit u hnn hI.1 hI.2)
    (by
      intro gk u hI _
      exact keys_nonneg_visit u hnn hI.1 hI.2)
    (with_fresh_heap g1) 0 fuel hb ⟨rfl, hk0⟩
  refine ⟨g', aggregate_cost g', ?_, ?_⟩
  · simp only [mesh_graph_get_cost, hloop]
  · rw [aggregate_cost_eq_spec]
    apply spec_total_cost_ge g' hk
    rw [frame_enabled_at hfr]
    exact hroot

/-- Witness for C5 on the three-node graph with sampled enable flags. -/
theorem C5_total_cost_lower_bound_witness :
    heap_contract pick_first_min ∧ 0 < 3 ∧
    three_node_graph.nodes.map (fun nd => nd.neighbors) =
      (mesh_graph_new 3 fun i => if i = 1 then (5, 0) else (5, 5)).nodes.map
        (fun nd => nd.neighbors) ∧
    3 < 4 ∧
    ∃ g' total,
      mesh_graph_get_cost pick_first_min 4
        (mesh_graph_set_switch sigmoid_approx (fun i => if i = 1 then 1 else 0)
          (mesh_graph_reset three_node_graph) false) = some (g', total) ∧
      COST_MESSAGE ≤ total :=
  ⟨pick_first_min_contract, by decide, rfl, by decide,
    C5_total_cost_lower_bound pick_first_min pick_first_min_contract 3
      (fun i => if i = 1 then (5, 0) else (5, 5)) (by decide) three_node_graph rfl
      sigmoid_approx (fun i => if i = 1 then 1 else 0) false 4 (by decide)⟩

/-! ## The learning round: claim C7 -/

theorem mesh_node_update_weight_eq (nd : mesh_node) (delta : ℚ) :
    mesh_node_update_weight nd delta = { nd with weight := spec_updated_weight nd delta } := by
  unfold mesh_node_update_weight spec_updated_weight
  cases nd with
  | mk hv en last nb mc w vis x y id =>
    cases en <;> cases last <;> simp
    ring

/-- The node at index `i` after the sampling step of a round, given the node before. -/
theorem round_sampled_node (sigmoid : ℚ → ℚ) (draws : Nat → ℚ) (g : mesh_graph) (i : Nat)
    (nd : mesh_node) (h : g.nodes[i]? = some nd) :
    ∃ nd2, (mesh_graph_set_switch sigmoid draws (mesh_graph_reset g) false).nodes[i]? =
        some nd2 ∧
      nd2.weight = nd.weight ∧ nd2.last_switch_enabled = nd.switch_enabled ∧
      nd2.switch_enabled = (if i = 0 then true else decide (sigmoid nd.weight ≥ draws i)) := by
  rw [mesh_graph_set_switch_getElem?, mesh_graph_reset_getElem?, h]
  by_cases hi : i = 0
  · subst hi
    exact ⟨_, rfl, by simp [mesh_node_set_switch, mesh_node_reset],
      by simp [mesh_node_set_switch, mesh_node_reset], by simp⟩
  · refine ⟨_, rfl, ?_, ?_, ?_⟩ <;> simp [hi, mesh_node_set_switch, mesh_node_reset]

theorem frame_fields {g g' : mesh_graph} (hfr : g'.nodes.map frame = g.nodes.map frame)
    (i : Nat) (nd : mesh_node) (h : g.nodes[i]? = some nd) :
    ∃ nd', g'.nodes[i]? = some nd' ∧ nd'.switch_enabled = nd.switch_enabled ∧
      nd'.last_switch_enabled = nd.last_switch_enabled ∧ nd'.weight = nd.weight ∧
      nd'.neighbors = nd.neighbors := by
  have h1 := frame_getElem? hfr i
  rw [h] at h1
  rcases hg : g'.nodes[i]? with _ | nd'
  · rw [hg] at h1; simp at h1
  · rw [hg] at h1
    simp only [Option.map_some', Option.some.injEq, frame, Prod.mk.injEq] at h1
    exact ⟨nd', rfl, h1.1, h1.2.1, h1.2.2.2.1, h1.2.2.1⟩

/-- C7: `mesh_graph_update_weight` replaces the weight of each node whose `enabled` flag
differs from its `was_enabled_last_round` flag by `weight - delta` when the node is now
enabled and by `weight + delta` when it is now disabled; a node whose two flags agree
keeps its weight, and no other field of any node, nor the node count or the queue,
changes. -/
theorem C7_update_weight (g : mesh_graph) (delta : ℚ) :
    (mesh_graph_update_weight g delta).n_node = g.n_node ∧
    (mesh_graph_update_weight g delta).min_heap = g.min_heap ∧
    ∀ i : Nat, (mesh_graph_update_weight g delta).nodes[i]? =
      (g.nodes[i]?).map fun (nd : mesh_node) =>
        { nd with
          weight :=
            if nd.switch_enabled = nd.last_switch_enabled then nd.weight
            else if nd.switch_enabled = true then nd.weight - delta
            else nd.weight + delta } := by
  refine ⟨by simp [mesh_graph_update_weight, mesh_graph.n_node], rfl, ?_⟩
  intro i
  simp only [mesh_graph_update_weight, List.getElem?_map]
  rcases g.nodes[i]? with _ | nd
  · rfl
  · simp only [Option.map_some', Option.some.injEq]
    exact mesh_node_update_weight_eq nd delta

/-! ## A pass on arbitrary costs and claim C8 -/

/-- Fold induction that also records a property of each processed edge. -/
theorem foldl_visit_processed (i : Nat) (P : mesh_graph → Prop)
    (Q : mesh_graph → mesh_node_neighbor → Prop)
    (hstep : ∀ gx e, P gx → P (visit_neighbor i gx e) ∧ Q (visit_neighbor i gx e) e)
    (hkeep : ∀ gx e e', P gx → Q gx e → Q (visit_neighbor i gx e') e) :
    ∀ (l : List mesh_node_neighbor) (gx : mesh_graph), P gx →
      P (l.foldl (visit_neighbor i) gx) ∧ ∀ e ∈ l, Q (l.foldl (visit_neighbor i) gx) e := by
  have hpres : ∀ (l : List mesh_node_neighbor) (gx : mesh_graph) (e : mesh_node_neighbor),
      P gx → Q gx e → Q (l.foldl (visit_neighbor i) gx) e := by
    intro l
    induction l with
    | nil => intro gx e _ hq; simpa using hq
    | cons a l ih =>
      intro gx e hP hq
      simp only [List.foldl_cons]
      exact ih _ e (hstep gx a hP).1 (hkeep gx e a hP hq)
  intro l
  induction l with
  | nil => intro gx hP; exact ⟨by simpa using hP, fun e he => by cases he⟩
  | cons a l ih =>
    intro gx hP
    simp only [List.foldl_cons]
    obtain ⟨hP1, hQ1⟩ := hstep gx a hP
    obtain ⟨hP2, hQ2⟩ := ih (visit_neighbor i gx a) hP1
    refine ⟨hP2, ?_⟩
    intro e he
    rcases List.mem_cons.mp he with h | h
    · rw [h]; exact hpres l _ a hP1 hQ1
    · exact hQ2 e h

/-- A relaxation never turns a finite key into `+infinity`. -/
theorem visit_neighbor_finite (i : Nat) (g : mesh_graph) (e : mesh_node_neighbor) (v : Nat)
    (h : heap_key g v < ⊤) : heap_key (visit_neighbor i g e) v < ⊤ := by
  obtain ⟨_, _, hcase⟩ := visit_neighbor_spec i g e
  rcases hcase with ⟨heq, _⟩ | ⟨_, _, _, hlt, hkey, _⟩
  · rw [heq]; exact h
  · rw [hkey]
    by_cases hv : v = e.node
    · simp only [hv, if_true]
      exact lt_of_lt_of_le hlt le_top
    · simp only [hv, if_false]
      exact h

/-- One iteration of the neighbour loop keeps `pass_inv`; when the visiting node is the
root, the processed edge leads to a node that is visited or has a finite key. -/
theorem pass_inv_visit_neighbor {g0 g : mesh_graph} {u : Nat} (e : mesh_node_neighbor)
    (inv : pass_inv g0 g u) :
    pass_inv g0 (visit_neighbor u g e) u ∧
    (u = 0 → e.node < g0.nodes.length →
      visited_at (visit_neighbor u g e) e.node = true ∨
        heap_key (visit_neighbor u g e) e.node < ⊤) := by
  have hlen : g.nodes.length = g0.nodes.length := frame_length inv.frame_eq
  obtain ⟨hfr, hvis, hcase⟩ := visit_neighbor_spec u g e
  have hfinite := fun v h => visit_neighbor_finite u g e v h
  rcases hcase with ⟨heq, hwhy⟩ | ⟨_, hj, hunv, hlt, hkey, hhand, hhn, hq⟩
  · rw [heq]
    refine ⟨inv, ?_⟩
    intro hu hin
    subst hu
    have h0 : 0 < g.nodes.length := heap_key_lt_top_lt inv.root_finite
    rcases hwhy with h | h | h | h
    · exact Or.inl h
    · omega
    · omega
    · right
      refine lt_of_le_of_lt h ?_
      exact WithTop.add_lt_top.mpr ⟨inv.root_finite, WithTop.coe_lt_top _⟩
  · have hnew : heap_key (visit_neighbor u g e) e.node < ⊤ := by
      rw [hkey]; simp only [if_true]
      exact lt_of_lt_of_le hlt le_top
    refine ⟨?_, fun _ _ => Or.inr hnew⟩
    refine
      { frame_eq := hfr.trans inv.frame_eq
        queued := ?_
        handles := ?_
        root_finite := hfinite 0 inv.root_finite
        root_done := fun h => by rw [hvis]; exact inv.root_done h
        root_edges := ?_ }
    · intro v hv hunv' hfin
      rw [hvis] at hunv'
      rw [hq]
      by_cases hve : v = e.node
      · subst hve
        split
        · simp
        · rename_i hsome
          have hft : heap_key g e.node < ⊤ := by
            rw [lt_top_iff_ne_top]
            intro htop
            exact hsome (inv.handles _ hunv htop)
          exact inv.queued _ hv hunv hft
      · rw [hkey] at hfin
        simp only [hve, if_false] at hfin
        have := inv.queued v hv hunv' hfin
        split
        · exact List.mem_append_left _ this
        · exact this
    · intro v hunv' htop
      rw [hvis] at hunv'
      by_cases hve : v = e.node
      · subst hve
        rw [htop] at hnew
        exact absurd hnew (lt_irrefl _)
      · rw [hhand v hve]
        rw [hkey] at htop
        simp only [hve, if_false] at htop
        exact inv.handles v hunv' htop
    · intro hu hen e' he' hin
      rcases inv.root_edges hu hen e' he' hin with h | h
      · left; rw [hvis]; exact h
      · right; exact hfinite _ h

/-- A whole visit under `pass_inv`. -/
theorem pass_inv_visit {g0 g : mesh_graph} {u : Nat} (inv : pass_inv g0 g u) :
    (mesh_node_visit_neighbors g u).nodes.map frame = g0.nodes.map frame ∧
    (∀ v, visited_at (mesh_node_visit_neighbors g u) v = false →
      heap_key (mesh_node_visit_neighbors g u) v < ⊤ →
      v ∈ (mesh_node_visit_neighbors g u).min_heap) ∧
    (∀ v, visited_at (mesh_node_visit_neighbors g u) v = false →
      heap_key (mesh_node_visit_neighbors g u) v = ⊤ →
      handle_at (mesh_node_visit_neighbors g u) v = none) ∧
    heap_key (mesh_node_visit_neighbors g u) 0 < ⊤ ∧
    visited_at (mesh_node_visit_neighbors g u) 0 = true ∧
    (enabled_at g0 0 = true → ∀ e ∈ neighbors_at g0 0, e.node < g0.nodes.length →
      visited_at (mesh_node_visit_neighbors g u) e.node = true ∨
        heap_key (mesh_node_visit_neighbors g u) e.node < ⊤) := by
  have h0 : 0 < g.nodes.length := heap_key_lt_top_lt inv.root_finite
  have hrel : pass_inv g0 (relax_edges g u) u ∧
      (u = 0 → enabled_at g0 0 = true → ∀ e ∈ neighbors_at g0 0, e.node < g0.nodes.length →
        visited_at (relax_edges g u) e.node = true ∨ heap_key (relax_edges g u) e.node < ⊤) := by
    unfold relax_edges
    rw [frame_enabled_at inv.frame_eq, frame_neighbors_at inv.frame_eq]
    by_cases hen : enabled_at g0 u = true
    · rw [if_pos hen]
      obtain ⟨hP, hQ⟩ := foldl_visit_processed u (fun gx => pass_inv g0 gx u)
        (fun gx e => u = 0 → e.node < g0.nodes.length →
          visited_at gx e.node = true ∨ heap_key gx e.node < ⊤)
        (fun gx e hP => pass_inv_visit_neighbor e hP)
        (by
          intro gx e e' _ hq hu hin
          rcases hq hu hin with h | h
          · left; rw [(visit_neighbor_spec u gx e').2.1]; exact h
          · right; exact visit_neighbor_finite u gx e' _ h)
        (neighbors_at g0 u) g inv
      refine ⟨hP, ?_⟩
      intro hu _ e he hin
      subst hu
      exact hQ e he rfl hin
    · rw [if_neg hen]
      refine ⟨inv, ?_⟩
      intro hu hen0
      subst hu
      exact absurd hen0 hen
  obtain ⟨inv1, hroot⟩ := hrel
  have hvis1 := (relax_edges_frame g u).2
  by_cases hu : u < g.nodes.length
  · obtain ⟨hq, hfr, hkey, hhand, hvis⟩ := visit_mark g u hu
    have hvu : ∀ v, visited_at (mesh_node_visit_neighbors g u) v = false →
        v ≠ u ∧ visited_at (relax_edges g u) v = false := by
      intro v hv
      rw [hvis] at hv
      by_cases hvu : v = u
      · simp [hvu] at hv
      · simp only [hvu, if_false] at hv
        exact ⟨hvu, by rw [hvis1]; exact hv⟩
    refine ⟨hfr.trans inv.frame_eq, ?_, ?_, ?_, ?_, ?_⟩
    · intro v hv hfin
      obtain ⟨hne, hv1⟩ := hvu v hv
      rw [hq]
      rw [hkey] at hfin
      exact inv1.queued v hne hv1 hfin
    · intro v hv htop
      obtain ⟨_, hv1⟩ := hvu v hv
      rw [hhand]
      rw [hkey] at htop
      exact inv1.handles v hv1 htop
    · rw [hkey]; exact inv1.root_finite
    · rw [hvis]
      by_cases h : (0 : Nat) = u
      · simp [h]
      · simp only [h, if_false]
        exact inv.root_done (fun c => h c.symm)
    · intro hen e he hin
      have hbase : visited_at (relax_edges g u) e.node = true ∨
          heap_key (relax_edges g u) e.node < ⊤ := by
        by_cases hu0 : u = 0
        · exact hroot hu0 hen e he hin
        · exact inv1.root_edges hu0 hen e he hin
      rcases hbase with h | h
      · left
        rw [hvis]
        by_cases hc : e.node = u
        · simp [hc]
        · simp only [hc, if_false]
          rw [← hvis1]; exact h
      · right; rw [hkey]; exact h
  · have hout := mesh_node_visit_neighbors_out g u (Nat.le_of_not_lt hu)
    have hu0 : u ≠ 0 := by omega
    have hre : relax_edges g u = g := by
      unfold relax_edges
      have : enabled_at g u = false := by
        simp [enabled_at, List.getElem?_eq_none (Nat.le_of_not_lt hu)]
      simp [this]
    rw [hout]
    refine ⟨inv.frame_eq, ?_, inv.handles, inv.root_finite, inv.root_done hu0,
      inv.root_edges hu0⟩
    intro v hv hfin
    have hvu : v ≠ u := by
      intro h
      rw [h, heap_key_out (Nat.le_of_not_lt hu)] at hfin
      exact absurd hfin (lt_irrefl _)
    exact inv.queued v hvu hv hfin

theorem pass_inv_step {pick : (Nat → WithTop ℚ) → List Nat → Option Nat}
    {g0 g g2 : mesh_graph} {u m : Nat} (inv : pass_inv g0 g u)
    (hpop : heap_pop pick (mesh_node_visit_neighbors g u) = some (m, g2)) :
    pass_inv g0 g2 m := by
  obtain ⟨hfr, hqd, hhd, hrf, hrv, hre⟩ := pass_inv_visit inv
  obtain ⟨_, hg2⟩ := heap_pop_some hpop
  have hk2 : ∀ v, heap_key g2 v = heap_key (mesh_node_visit_neighbors g u) v := by
    intro v; rw [hg2]; rfl
  have hv2 : ∀ v, visited_at g2 v = visited_at (mesh_node_visit_neighbors g u) v := by
    intro v; rw [hg2]; rfl
  have hh2 : ∀ v, handle_at g2 v = handle_at (mesh_node_visit_neighbors g u) v := by
    intro v; rw [hg2]; rfl
  have hq2 : g2.min_heap = (mesh_node_visit_neighbors g u).min_heap.erase m := by rw [hg2]
  refine
    { frame_eq := by rw [hg2]; exact hfr
      queued := ?_
      handles := ?_
      root_finite := by rw [hk2]; exact hrf
      root_done := fun _ => by rw [hv2]; exact hrv
      root_edges := ?_ }
  · intro v hv hunv hfin
    rw [hv2] at hunv
    rw [hk2] at hfin
    rw [hq2, List.mem_erase_of_ne hv]
    exact hqd v hunv hfin
  · intro v hunv htop
    rw [hv2] at hunv
    rw [hk2] at htop
    rw [hh2]
    exact hhd v hunv htop
  · intro _ hen e he hin
    rw [hv2, hk2]
    exact hre hen e he hin

theorem pass_inv_finish {pick : (Nat → WithTop ℚ) → List Nat → Option Nat}
    (hp : heap_contract pick) {g0 g : mesh_graph} {u : Nat} (inv : pass_inv g0 g u)
    (hpop : heap_pop pick (mesh_node_visit_neighbors g u) = none) :
    pass_done g0 (mesh_node_visit_neighbors g u) := by
  obtain ⟨hfr, hqd, _, _, hrv, hre⟩ := pass_inv_visit inv
  have hempty := heap_pop_none hp hpop
  refine
    { frame_eq := hfr
      heap_empty := hempty
      root_visited := hrv
      root_edges_visited := ?_ }
  intro hen e he hin
  rcases hre hen e he hin with h | h
  · exact h
  · by_contra hunv
    have hunv' : visited_at (mesh_node_visit_neighbors g u) e.node = false := by
      simpa using hunv
    have := hqd e.node hunv' h
    rw [hempty] at this
    cases this

theorem pass_inv_init (g : mesh_graph) (hpos : 0 < g.nodes.length) :
    pass_inv (with_fresh_heap (mesh_graph_reset g)) (with_fresh_heap (mesh_graph_reset g)) 0 := by
  have hk : ∀ v, heap_key (with_fresh_heap (mesh_graph_reset g)) v =
      if v = 0 then 0 else ⊤ := by
    intro v
    have : heap_key (with_fresh_heap (mesh_graph_reset g)) v =
        heap_key (mesh_graph_reset g) v := rfl
    rw [this, mesh_graph_reset_heap_key]
    simp [hpos]
  refine
    { frame_eq := rfl
      queued := ?_
      handles := fun v _ _ => mesh_graph_reset_handle_at g v
      root_finite := by rw [hk]; simp
      root_done := fun h => absurd rfl h
      root_edges := fun h => absurd rfl h }
  intro v hv _ hfin
  rw [hk] at hfin
  simp [hv] at hfin

theorem visit_neighbor_noop (i : Nat) (g : mesh_graph) (e : mesh_node_neighbor)
    (h : visited_at g e.node = true ∨ g.nodes.length ≤ e.node) :
    visit_neighbor i g e = g := by
  rcases visit_neighbor_cases i g e with ⟨heq, _⟩ | ⟨t, ht, _, hvis, _⟩
  · exact heq
  · exfalso
    rcases h with h | h
    · simp [visited_at, ht, hvis] at h
    · rw [List.getElem?_eq_none h] at ht
      cases ht

theorem modify_visited_noop (g : mesh_graph) (i : Nat) (h : visited_at g i = true) :
    g.nodes.modify (fun nd => { nd with visited := true }) i = g.nodes := by
  apply List.ext_getElem?
  intro v
  rw [List.getElem?_modify]
  rcases hv : g.nodes[v]? with _ | nd
  · simp
  · by_cases hiv : i = v
    · subst hiv
      have : nd.visited = true := by simpa [visited_at, hv] using h
      simp only [if_true, Option.map_eq_map, Option.map_some', Option.some.injEq]
      cases nd
      simp_all
    · simp [hiv]

/-- After a finished pass, a further pass changes nothing: the root's visit finds every
neighbour visited and the queue stays empty. -/
theorem second_pass_same {pick : (Nat → WithTop ℚ) → List Nat → Option Nat}
    (hp : heap_contract pick) {g0 g1 : mesh_graph} (hd : pass_done g0 g1) (fuel : Nat)
    (hfuel : 0 < fuel) : relax_loop pick fuel (with_fresh_heap g1) 0 = some g1 := by
  have hfresh : with_fresh_heap g1 = g1 := by
    cases g1 with
    | mk nodes heap =>
      have : heap = [] := hd.heap_empty
      subst this
      rfl
  rw [hfresh]
  have h0 : 0 < g1.nodes.length := visited_at_lt hd.root_visited
  have hlen : g1.nodes.length = g0.nodes.length := frame_length hd.frame_eq
  have hrel : relax_edges g1 0 = g1 := by
    apply relax_edges_induct (P := fun gx => gx = g1) g1 0 rfl
    intro gx e he hen hgx
    rw [hgx]
    apply visit_neighbor_noop
    rw [frame_neighbors_at hd.frame_eq] at he
    rw [frame_enabled_at hd.frame_eq] at hen
    by_cases hin : e.node < g0.nodes.length
    · exact Or.inl (hd.root_edges_visited hen e he hin)
    · right; omega
  have hvisit : mesh_node_visit_neighbors g1 0 = g1 := by
    rw [mesh_node_visit_neighbors_eq g1 0 h0, hrel, modify_visited_noop g1 0 hd.root_visited]
  obtain ⟨f, rfl⟩ : ∃ f, fuel = f + 1 := ⟨fuel - 1, by omega⟩
  simp only [relax_loop, hvisit]
  have hnone : heap_pop pick g1 = none := by
    unfold heap_pop
    rw [hd.heap_empty, (hp (heap_key g1) []).1 rfl]
  rw [hnone]

/-- On a graph without nodes the relaxation loop returns its input. -/
theorem relax_loop_empty {pick : (Nat → WithTop ℚ) → List Nat → Option Nat}
    (hp : heap_contract pick) (g : mesh_graph) (hn : g.nodes.length = 0) (fuel : Nat)
    (hfuel : 0 < fuel) : relax_loop pick fuel (with_fresh_heap g) 0 = some (with_fresh_heap g) := by
  obtain ⟨f, rfl⟩ : ∃ f, fuel = f + 1 := ⟨fuel - 1, by omega⟩
  have hvisit : mesh_node_visit_neighbors (with_fresh_heap g) 0 = with_fresh_heap g :=
    mesh_node_visit_neighbors_out _ 0 (by simp [hn])
  simp only [relax_loop, hvisit]
  have hnone : heap_pop pick (with_fresh_heap g) = none := by
    unfold heap_pop
    rw [with_fresh_heap_min_heap, (hp (heap_key (with_fresh_heap g)) []).1 rfl]
  rw [hnone]

/-- C8: after one reset, `mesh_graph_get_cost` returns, and a second call directly after
it (no reset, enable flags untouched) returns the very same graph state, so every node's
`min_cost` is as after the first run, and the same total cost. -/
theorem C8_second_pass_idempotent
    (pick : (Nat → WithTop ℚ) → List Nat → Option Nat) (hp : heap_contract pick)
    (g : mesh_graph) (fuel fuel' : Nat) (hfuel : g.n_node < fuel) (hfuel' : 0 < fuel') :
    ∃ g1 total, mesh_graph_get_cost pick fuel (mesh_graph_reset g) = some (g1, total) ∧
      mesh_graph_get_cost pick fuel' g1 = some (g1, total) := by
  have hlen : (mesh_graph_reset g).nodes.length = g.nodes.length :=
    frame_length (mesh_graph_reset_frame g)
  have hfuel0 : g.nodes.length < fuel := hfuel
  by_cases hpos : 0 < g.nodes.length
  · have hb : queue_budget (with_fresh_heap (mesh_graph_reset g)) < fuel := by
      have := queue_budget_start (mesh_graph_reset g)
      omega
    obtain ⟨g1, hloop, hd⟩ := relax_loop_total hp
      (pass_inv (with_fresh_heap (mesh_graph_reset g)))
      (pass_done (with_fresh_heap (mesh_graph_reset g)))
      (fun _ _ _ _ inv hpop => pass_inv_step inv hpop)
      (fun _ _ inv hpop => pass_inv_finish hp inv hpop)
      (with_fresh_heap (mesh_graph_reset g)) 0 fuel hb (pass_inv_init g hpos)
    refine ⟨g1, aggregate_cost g1, ?_, ?_⟩
    · simp only [mesh_graph_get_cost, hloop]
    · simp only [mesh_graph_get_cost, second_pass_same hp hd fuel' hfuel']
  · have hn : (mesh_graph_reset g).nodes.length = 0 := by omega
    have h1 := relax_loop_empty hp (mesh_graph_reset g) hn fuel (by omega)
    have hn' : (with_fresh_heap (mesh_graph_reset g)).nodes.length = 0 := hn
    have h2 := relax_loop_empty hp (with_fresh_heap (mesh_graph_reset g)) hn' fuel' hfuel'
    have hidem : with_fresh_heap (with_fresh_heap (mesh_graph_reset g)) =
        with_fresh_heap (mesh_graph_reset g) := rfl
    rw [hidem] at h2
    refine ⟨with_fresh_heap (mesh_graph_reset g),
      aggregate_cost (with_fresh_heap (mesh_graph_reset g)), ?_, ?_⟩
    · simp only [mesh_graph_get_cost, h1]
    · simp only [mesh_graph_get_cost, hidem, h2]

/-- Witness for C8 on the three-node graph. -/
theorem C8_second_pass_idempotent_witness :
    heap_contract pick_first_min ∧ three_node_graph.n_node < 4 ∧ 0 < 4 ∧
    ∃ g1 total,
      mesh_graph_get_cost pick_first_min 4 (mesh_graph_reset three_node_graph) =
        some (g1, total) ∧
      mesh_graph_get_cost pick_first_min 4 g1 = some (g1, total) :=
  ⟨pick_first_min_contract, by decide!, by decide,
    C8_second_pass_idempotent pick_first_min pick_first_min_contract three_node_graph 4 4
      (by decide!) (by decide)⟩

/-! ## Graph construction: claim C10 -/

/-- C10: in the graph built by `mesh_graph_new`, node `i` has an edge to `j` of cost `c`
exactly when node `j` has an edge to `i` of cost `c`. -/
theorem C10_edges_symmetric (n : Nat) (pos : Nat → ℚ × ℚ) (i j : Nat) (c : ℚ) :
    ({ node := j, cost := c } : mesh_node_neighbor) ∈ neighbors_at (mesh_graph_new n pos) i ↔
      ({ node := i, cost := c } : mesh_node_neighbor) ∈
        neighbors_at (mesh_graph_new n pos) j := by
  rw [mem_neighbors_new, mem_neighbors_new]
  simp only
  have hite : (if j = 0 ∨ i = 0 then (0 : ℚ) else COST_SWITCH) =
      (if i = 0 ∨ j = 0 then 0 else COST_SWITCH) := by
    by_cases hi : i = 0 <;> by_cases hj : j = 0 <;> simp [hi, hj]
  rw [dist_sq_comm pos j i, hite]
  constructor
  · rintro ⟨h1, h2, h3, h4, h5⟩
    exact ⟨h2, h1, fun h => h3 h.symm, h4, h5⟩
  · rintro ⟨h1, h2, h3, h4, h5⟩
    exact ⟨h2, h1, fun h => h3 h.symm, h4, h5⟩

/-! ## Reset and frame of a pass: claims C11 and C17 -/

/-- C11: on a graph with at least one node, `mesh_graph_reset` leaves the root with
`min_cost = 0` and every other node with `min_cost = +infinity`, sets `visited = false`
and a null `queue_handle` on every node, and changes no other field of any node (weight,
enabled flag, saved flag, id, position, edge list), nor the number of nodes. -/
theorem C11_reset_effect (g : mesh_graph) (hpos : 0 < g.n_node) :
    (mesh_graph_reset g).n_node = g.n_node ∧
    (∃ root, (mesh_graph_reset g).nodes[0]? = some root ∧ root.min_cost = 0) ∧
    ∀ i : Nat, (mesh_graph_reset g).nodes[i]? =
      (g.nodes[i]?).map fun (nd : mesh_node) =>
        { nd with
          heap_value := none
          min_cost := if i = 0 then 0 else ⊤
          visited := false } := by
  have hall : ∀ i : Nat, (mesh_graph_reset g).nodes[i]? =
      (g.nodes[i]?).map fun (nd : mesh_node) =>
        { nd with
          heap_value := none
          min_cost := if i = 0 then 0 else ⊤
          visited := false } := by
    intro i
    rw [mesh_graph_reset_getElem?]
    rcases g.nodes[i]? with _ | nd
    · rfl
    · by_cases hi : i = 0 <;> simp [hi, mesh_node_reset]
  refine ⟨frame_length (mesh_graph_reset_frame g), ?_, hall⟩
  have h0 : 0 < g.nodes.length := hpos
  rw [hall 0, List.getElem?_eq_getElem h0]
  exact ⟨_, rfl, by simp⟩

/-- Witness for C11 on the three-node graph. -/
theorem C11_reset_effect_witness :
    0 < three_node_graph.n_node ∧
    (mesh_graph_reset three_node_graph).n_node = three_node_graph.n_node ∧
    (∃ root, (mesh_graph_reset three_node_graph).nodes[0]? = some root ∧ root.min_cost = 0) ∧
    ∀ i : Nat, (mesh_graph_reset three_node_graph).nodes[i]? =
      (three_node_graph.nodes[i]?).map fun (nd : mesh_node) =>
        { nd with
          heap_value := none
          min_cost := if i = 0 then 0 else ⊤
          visited := false } :=
  ⟨by decide!, C11_reset_effect three_node_graph (by decide!)⟩

theorem frame_all_fields {g g' : mesh_graph} (hfr : g'.nodes.map frame = g.nodes.map frame)
    (i : Nat) (nd : mesh_node) (h : g.nodes[i]? = some nd) :
    ∃ nd', g'.nodes[i]? = some nd' ∧ nd'.weight = nd.weight ∧
      nd'.switch_enabled = nd.switch_enabled ∧
      nd'.last_switch_enabled = nd.last_switch_enabled ∧ nd'.id = nd.id ∧
      nd'.x = nd.x ∧ nd'.y = nd.y ∧ nd'.neighbors = nd.neighbors := by
  have h1 := frame_getElem? hfr i
  rw [h] at h1
  rcases hg : g'.nodes[i]? with _ | nd'
  · rw [hg] at h1; simp at h1
  · rw [hg] at h1
    simp only [Option.map_some', Option.some.injEq, frame, Prod.mk.injEq] at h1
    obtain ⟨a, b, c, d, e, f, k⟩ := h1
    exact ⟨nd', rfl, d, a, b, k, e, f, c⟩

/-- C17: `mesh_graph_get_cost` returns and leaves every node's weight, enabled flag, saved
flag, id, position and edge list (targets and costs) as they were, and keeps the number of
nodes; only `min_cost`, `visited`, `queue_handle` and the queue may differ. -/
theorem C17_get_cost_frame
    (pick : (Nat → WithTop ℚ) → List Nat → Option Nat) (hp : heap_contract pick)
    (g : mesh_graph) (fuel : Nat) (hfuel : g.n_node < fuel) :
    ∃ g' total, mesh_graph_get_cost pick fuel g = some (g', total) ∧
      g'.n_node = g.n_node ∧
      ∀ (i : Nat) (nd : mesh_node), g.nodes[i]? = some nd →
        ∃ nd', g'.nodes[i]? = some nd' ∧ nd'.weight = nd.weight ∧
          nd'.switch_enabled = nd.switch_enabled ∧
          nd'.last_switch_enabled = nd.last_switch_enabled ∧ nd'.id = nd.id ∧
          nd'.x = nd.x ∧ nd'.y = nd.y ∧ nd'.neighbors = nd.neighbors := by
  obtain ⟨g', total, hget, _, hfr⟩ := mesh_graph_get_cost_total hp g fuel hfuel
  exact ⟨g', total, hget, frame_length hfr, fun i nd h => frame_all_fields hfr i nd h⟩

/-- Witness for C17 on the three-node graph. -/
theorem C17_get_cost_frame_witness :
    heap_contract pick_first_min ∧ three_node_graph.n_node < 4 ∧
    ∃ g' total, mesh_graph_get_cost pick_first_min 4 three_node_graph = some (g', total) ∧
      g'.n_node = three_node_graph.n_node ∧
      ∀ (i : Nat) (nd : mesh_node), three_node_graph.nodes[i]? = some nd →
        ∃ nd', g'.nodes[i]? = some nd' ∧ nd'.weight = nd.weight ∧
          nd'.switch_enabled = nd.switch_enabled ∧
          nd'.last_switch_enabled = nd.last_switch_enabled ∧ nd'.id = nd.id ∧
          nd'.x = nd.x ∧ nd'.y = nd.y ∧ nd'.neighbors = nd.neighbors :=
  ⟨pick_first_min_contract, by decide!,
    C17_get_cost_frame pick_first_min pick_first_min_contract three_node_graph 4
      (by decide!)⟩

/-! ## The root's flags and weight: claims C12, C18 and C19 -/

/-- A returning call of `mesh_graph_get_cost` writes none of the fields collected by
`frame`, whatever the queue does. -/
theorem mesh_graph_get_cost_frame_of_some
    {pick : (Nat → WithTop ℚ) → List Nat → Option Nat} {g g' : mesh_graph} {fuel : Nat}
    {total : ℚ} (h : mesh_graph_get_cost pick fuel g = some (g', total)) :
    g'.nodes.map frame = g.nodes.map frame := by
  unfold mesh_graph_get_cost at h
  rcases hloop : relax_loop pick fuel (with_fresh_heap g) 0 with _ | g1
  · rw [hloop] at h; cases h
  · rw [hloop] at h
    simp only [Option.some.injEq, Prod.mk.injEq] at h
    obtain ⟨rfl, _⟩ := h
    exact relax_loop_induct pick
      (fun gk _ => gk.nodes.map frame = g.nodes.map frame)
      (fun gk => gk.nodes.map frame = g.nodes.map frame)
      (by
        intro gk u m g2 hI hpop
        obtain ⟨_, hg2⟩ := heap_pop_some hpop
        rw [hg2]
        exact (visit_frame gk u).trans hI)
      (by
        intro gk u hI _
        exact (visit_frame gk u).trans hI)
      fuel (with_fresh_heap g) 0 g1 rfl hloop

/-- The root's flags and weight, and the node count, in every reachable state. -/
theorem reachable_root {sigmoid : ℚ → ℚ} {pick : (Nat → WithTop ℚ) → List Nat → Option Nat}
    {n : Nat} {pos : Nat → ℚ × ℚ} {g : mesh_graph} (h : reachable sigmoid pick n pos g) :
    g.nodes.length = n ∧
    ∀ nd, g.nodes[0]? = some nd →
      nd.switch_enabled = true ∧ nd.last_switch_enabled = true ∧ nd.weight = INIT_WEIGHT := by
  induction h with
  | new =>
    refine ⟨mesh_graph_new_length n pos, ?_⟩
    intro nd hnd
    have hn : 0 < n := by
      by_contra hc
      rw [List.getElem?_eq_none (by rw [mesh_graph_new_length]; omega)] at hnd
      cases hnd
    rw [mesh_graph_new_getElem? n pos 0 hn] at hnd
    simp only [Option.some.injEq] at hnd
    subst hnd
    simp [mesh_node_init]
  | reset g _ ih =>
    refine ⟨(frame_length (mesh_graph_reset_frame g)).trans ih.1, ?_⟩
    intro nd hnd
    rw [mesh_graph_reset_getElem?] at hnd
    rcases hg : g.nodes[0]? with _ | nd0
    · rw [hg] at hnd; cases hnd
    · rw [hg] at hnd
      simp only [Option.map_some', if_true, Option.some.injEq] at hnd
      subst hnd
      simpa [mesh_node_reset] using ih.2 nd0 hg
  | set_switch g draws force _ ih =>
    refine ⟨(mesh_graph_set_switch_length sigmoid draws g force).trans ih.1, ?_⟩
    intro nd hnd
    rw [mesh_graph_set_switch_getElem?] at hnd
    rcases hg : g.nodes[0]? with _ | nd0
    · rw [hg] at hnd; cases hnd
    · rw [hg] at hnd
      simp only [Option.map_some', if_true, Option.some.injEq] at hnd
      subst hnd
      obtain ⟨h1, h2, h3⟩ := ih.2 nd0 hg
      cases force <;> simp [mesh_node_set_switch, h1, h2, h3]
  | get_cost g g' fuel total _ hget ih =>
    have hfr := mesh_graph_get_cost_frame_of_some hget
    refine ⟨(frame_length hfr).trans ih.1, ?_⟩
    intro nd hnd
    rcases hg : g.nodes[0]? with _ | nd0
    · have := frame_getElem? hfr 0
      rw [hg, hnd] at this
      simp at this
    · obtain ⟨nd', hnd', hw, he, hl, _⟩ := frame_all_fields hfr 0 nd0 hg
      rw [hnd] at hnd'
      simp only [Option.some.injEq] at hnd'
      subst hnd'
      obtain ⟨h1, h2, h3⟩ := ih.2 nd0 hg
      exact ⟨he.trans h1, hl.trans h2, hw.trans h3⟩
  | update_weight g delta _ ih =>
    refine ⟨by simpa [mesh_graph_update_weight] using ih.1, ?_⟩
    intro nd hnd
    simp only [mesh_graph_update_weight, List.getElem?_map] at hnd
    rcases hg : g.nodes[0]? with _ | nd0
    · rw [hg] at hnd; cases hnd
    · rw [hg] at hnd
      simp only [Option.map_some', Option.some.injEq] at hnd
      subst hnd
      obtain ⟨h1, h2, h3⟩ := ih.2 nd0 hg
      rw [mesh_node_update_weight_eq]
      simp [spec_updated_weight, h1, h2, h3]

/-- C12: after `mesh_graph_set_switch`, for either value of `force_enable` and any draws,
the root is enabled; with `force_enable = true` every node is enabled; hence the root is
enabled in every state reachable from `mesh_graph_new` by `mesh_graph_reset`,
`mesh_graph_set_switch`, `mesh_graph_get_cost` and `mesh_graph_update_weight`, and such a
state has the node count it was built with. -/
theorem C12_root_always_enabled (sigmoid : ℚ → ℚ)
    (pick : (Nat → WithTop ℚ) → List Nat → Option Nat) :
    (∀ (draws : Nat → ℚ) (g : mesh_graph) (force_enable : Bool) (nd : mesh_node),
      (mesh_graph_set_switch sigmoid draws g force_enable).nodes[0]? = some nd →
        nd.switch_enabled = true) ∧
    (∀ (draws : Nat → ℚ) (g : mesh_graph) (force_enable : Bool), 0 < g.n_node →
      enabled_at (mesh_graph_set_switch sigmoid draws g force_enable) 0 = true) ∧
    (∀ (draws : Nat → ℚ) (g : mesh_graph) (i : Nat) (nd : mesh_node),
      (mesh_graph_set_switch sigmoid draws g true).nodes[i]? = some nd →
        nd.switch_enabled = true) ∧
    (∀ (n : Nat) (pos : Nat → ℚ × ℚ) (g : mesh_graph), reachable sigmoid pick n pos g →
      g.n_node = n ∧ (0 < n → enabled_at g 0 = true) ∧
        ∀ nd, g.nodes[0]? = some nd → nd.switch_enabled = true) := by
  refine ⟨?_, ?_, ?_, ?_⟩
  · intro draws g force nd hnd
    rw [mesh_graph_set_switch_getElem?] at hnd
    rcases hg : g.nodes[0]? with _ | nd0
    · rw [hg] at hnd; cases hnd
    · rw [hg] at hnd
      simp only [Option.map_some', if_true, Option.some.injEq] at hnd
      subst hnd
      rfl
  · intro draws g force hpos
    exact mesh_graph_set_switch_root sigmoid draws g force hpos
  · intro draws g i nd hnd
    rw [mesh_graph_set_switch_getElem?] at hnd
    rcases hg : g.nodes[i]? with _ | nd0
    · rw [hg] at hnd; cases hnd
    · rw [hg] at hnd
      simp only [Option.map_some', if_true, Option.some.injEq] at hnd
      subst hnd
      by_cases hi : i = 0 <;> simp [hi]
  · intro n pos g hr
    obtain ⟨hlen, hroot⟩ := reachable_root hr
    refine ⟨hlen, ?_, fun nd hnd => (hroot nd hnd).1⟩
    intro hn
    have h0 : 0 < g.nodes.length := by rw [hlen]; exact hn
    simp only [enabled_at, List.getElem?_eq_getElem h0]
    exact (hroot _ (List.getElem?_eq_getElem h0)).1

/-- C18 (amended): in sampled mode `mesh_graph_set_switch` stores in each non-root node's
saved flag the value its enabled flag had before the call, and its new enabled flag is
true exactly when `sigmoid(weight) >= u` for the value `u` drawn for that node; in force
mode the enabled flag becomes true and the saved flag is left as it was.  No other field
of the node changes in either mode. -/
theorem C18_set_switch_effect (sigmoid : ℚ → ℚ) (draws : Nat → ℚ) (g : mesh_graph) :
    (∀ (i : Nat) (nd : mesh_node), g.nodes[i]? = some nd → i ≠ 0 →
      (mesh_graph_set_switch sigmoid draws g false).nodes[i]? =
        some { nd with
          last_switch_enabled := nd.switch_enabled
          switch_enabled := decide (sigmoid nd.weight ≥ draws i) }) ∧
    (∀ (i : Nat) (nd : mesh_node), g.nodes[i]? = some nd → i ≠ 0 →
      (mesh_graph_set_switch sigmoid draws g true).nodes[i]? =
        some { nd with switch_enabled := true }) := by
  constructor
  · intro i nd hnd hi
    rw [mesh_graph_set_switch_getElem?, hnd]
    simp [hi, mesh_node_set_switch]
  · intro i nd hnd hi
    rw [mesh_graph_set_switch_getElem?, hnd]
    simp [hi]

/-- Counterexample to C18 as stated: node 1 of `node1_disabled_graph` is disabled with
saved flag `true`; a call of `mesh_graph_set_switch` in force mode enables it and leaves
the saved flag `true`, not the value `false` its enabled flag had before the call. -/
theorem C18_set_switch_effect_counterexample :
    flags_and_weight node1_disabled_graph 1 = some (false, true, (3 / 2 : ℚ)) ∧
    flags_and_weight
      (mesh_graph_set_switch sigmoid_approx (fun _ => 0) node1_disabled_graph true) 1 =
        some (true, true, (3 / 2 : ℚ)) := by
  refine ⟨by decide!, by decide!⟩

/-- C19: in every state reachable from `mesh_graph_new` by `mesh_graph_reset`,
`mesh_graph_set_switch` (either mode, any draws), `mesh_graph_get_cost` and
`mesh_graph_update_weight` (any delta), the root is enabled, its saved flag is true and its
weight is `INIT_WEIGHT`. -/
theorem C19_root_weight_constant (sigmoid : ℚ → ℚ)
    (pick : (Nat → WithTop ℚ) → List Nat → Option Nat) (n : Nat) (pos : Nat → ℚ × ℚ)
    (g : mesh_graph) (h : reachable sigmoid pick n pos g) :
    g.n_node = n ∧
    ∀ nd, g.nodes[0]? = some nd →
      nd.switch_enabled = true ∧ nd.last_switch_enabled = true ∧ nd.weight = INIT_WEIGHT :=
  reachable_root h

/-- Witness for C19: the three-node graph after a reset, a sampling call that disables
node 1 and a weight update by `1/10`. -/
theorem C19_root_weight_constant_witness :
    reachable sigmoid_approx pick_first_min 3 (fun i => if i = 1 then (5, 0) else (5, 5))
      (mesh_graph_update_weight
        (mesh_graph_set_switch sigmoid_approx (fun i => if i = 1 then 1 else 0)
          (mesh_graph_reset three_node_graph) false) (1 / 10)) ∧
    (mesh_graph_update_weight
        (mesh_graph_set_switch sigmoid_approx (fun i => if i = 1 then 1 else 0)
          (mesh_graph_reset three_node_graph) false) (1 / 10)).n_node = 3 ∧
    ∀ nd, (mesh_graph_update_weight
        (mesh_graph_set_switch sigmoid_approx (fun i => if i = 1 then 1 else 0)
          (mesh_graph_reset three_node_graph) false) (1 / 10)).nodes[0]? = some nd →
      nd.switch_enabled = true ∧ nd.last_switch_enabled = true ∧ nd.weight = INIT_WEIGHT :=
  ⟨reachable.update_weight _ _ (reachable.set_switch _ _ _ (reachable.reset _ reachable.new)),
    C19_root_weight_constant sigmoid_approx pick_first_min 3
      (fun i => if i = 1 then (5, 0) else (5, 5)) _
      (reachable.update_weight _ _
        (reachable.set_switch _ _ _ (reachable.reset _ reachable.new)))⟩

/-! ## The two worked examples: claims C13 and C14 -/

/-- C13: in the two-node graph built from the root at `(0,0)` and node A at `(5,0)`, both
nodes are enabled and the only edge of the root leads to A at cost `55 = round(5*5+30)`,
without relay overhead; after a reset, `mesh_graph_get_cost` (any queue meeting the
contract, fuel above 2) returns with `min_cost[A] = 55`. -/
theorem C13_two_node_cost
    (pick : (Nat → WithTop ℚ) → List Nat → Option Nat) (hp : heap_contract pick)
    (fuel : Nat) (hfuel : 2 < fuel) :
    neighbors_at two_node_graph 0 = [{ node := 1, cost := 55 }] ∧
    enabled_at two_node_graph 0 = true ∧ enabled_at two_node_graph 1 = true ∧
    ∃ g' total,
      mesh_graph_get_cost pick fuel (mesh_graph_reset two_node_graph) = some (g', total) ∧
      heap_key g' 1 = 55 := by
  refine ⟨by decide!, by decide!, by decide!, ?_⟩
  obtain ⟨f, rfl⟩ : ∃ f, fuel = f + 2 := ⟨fuel - 2, by omega⟩
  have hq1 : (mesh_node_visit_neighbors
      (with_fresh_heap (mesh_graph_reset two_node_graph)) 0).min_heap = [1] := by decide!
  have hpop1 : heap_pop pick (mesh_node_visit_neighbors
      (with_fresh_heap (mesh_graph_reset two_node_graph)) 0) =
      some (1, with_fresh_heap (mesh_node_visit_neighbors
        (with_fresh_heap (mesh_graph_reset two_node_graph)) 0)) := by
    unfold heap_pop
    rw [hq1]
    obtain ⟨m, hm⟩ := (hp (heap_key (mesh_node_visit_neighbors
      (with_fresh_heap (mesh_graph_reset two_node_graph)) 0)) [1]).2.1 (by simp)
    have hmem := ((hp _ _).2.2 m hm).1
    simp only [List.mem_singleton] at hmem
    subst hmem
    rw [hm]
    rfl
  have hq2 : (mesh_node_visit_neighbors (with_fresh_heap (mesh_node_visit_neighbors
      (with_fresh_heap (mesh_graph_reset two_node_graph)) 0)) 1).min_heap = [] := by decide!
  have hpop2 : heap_pop pick (mesh_node_visit_neighbors (with_fresh_heap
      (mesh_node_visit_neighbors
        (with_fresh_heap (mesh_graph_reset two_node_graph)) 0)) 1) = none := by
    unfold heap_pop
    rw [hq2, (hp _ []).1 rfl]
  have hkey : heap_key (mesh_node_visit_neighbors (with_fresh_heap
      (mesh_node_visit_neighbors
        (with_fresh_heap (mesh_graph_reset two_node_graph)) 0)) 1) 1 = 55 := by decide!
  obtain ⟨f', rfl⟩ : ∃ f', f = f' + 1 := ⟨f - 1, by omega⟩
  refine ⟨_, aggregate_cost (mesh_node_visit_neighbors (with_fresh_heap
    (mesh_node_visit_neighbors
      (with_fresh_heap (mesh_graph_reset two_node_graph)) 0)) 1), ?_, hkey⟩
  simp only [mesh_graph_get_cost, relax_loop, hpop1, hpop2]

/-- Witness for C13 with the scanning queue and fuel 3. -/
theorem C13_two_node_cost_witness :
    heap_contract pick_first_min ∧ 2 < 3 ∧
    neighbors_at two_node_graph 0 = [{ node := 1, cost := 55 }] ∧
    enabled_at two_node_graph 0 = true ∧ enabled_at two_node_graph 1 = true ∧
    ∃ g' total,
      mesh_graph_get_cost pick_first_min 3 (mesh_graph_reset two_node_graph) =
        some (g', total) ∧
      heap_key g' 1 = 55 :=
  ⟨pick_first_min_contract, by decide,
    C13_two_node_cost pick_first_min pick_first_min_contract 3 (by decide)⟩

/-- A visit leaves the key of `t` at `+infinity` when no enabled node has an edge to `t`. -/
theorem unreached_visit {g0 g : mesh_graph} (u t : Nat)
    (hno : ∀ w e, enabled_at g0 w = true → e ∈ neighbors_at g0 w → e.node ≠ t)
    (hfr : g.nodes.map frame = g0.nodes.map frame) (hk : heap_key g t = ⊤) :
    (mesh_node_visit_neighbors g u).nodes.map frame = g0.nodes.map frame ∧
    heap_key (mesh_node_visit_neighbors g u) t = ⊤ := by
  have hrel : heap_key (relax_edges g u) t = ⊤ := by
    apply relax_edges_induct (P := fun gk => heap_key gk t = ⊤) g u hk
    intro gk e he hen hgk
    rw [frame_neighbors_at hfr] at he
    rw [frame_enabled_at hfr] at hen
    have hne : t ≠ e.node := fun h => hno u e hen he h.symm
    obtain ⟨_, _, hcase⟩ := visit_neighbor_spec u gk e
    rcases hcase with ⟨heq, _⟩ | ⟨_, _, _, _, hkey, _⟩
    · rw [heq]; exact hgk
    · rw [hkey]
      simp only [hne, if_false]
      exact hgk
  refine ⟨(visit_frame g u).trans hfr, ?_⟩
  by_cases hu : u < g.nodes.length
  · rw [(visit_mark g u hu).2.2.1]; exact hrel
  · rw [mesh_node_visit_neighbors_out g u (Nat.le_of_not_lt hu)]; exact hk

/-- A pass leaves the key of `t` at `+infinity` when it starts from there and no enabled
node has an edge to `t`. -/
theorem unreached_stays_top {pick : (Nat → WithTop ℚ) → List Nat → Option Nat}
    (hp : heap_contract pick) (g : mesh_graph) (t : Nat)
    (hno : ∀ w e, enabled_at g w = true → e ∈ neighbors_at g w → e.node ≠ t)
    (hk : heap_key g t = ⊤) (fuel : Nat) (hfuel : g.n_node < fuel) :
    ∃ g' total, mesh_graph_get_cost pick fuel g = some (g', total) ∧
      g'.nodes.map frame = g.nodes.map frame ∧ heap_key g' t = ⊤ := by
  have hb : queue_budget (with_fresh_heap g) < fuel := by
    have := queue_budget_start g
    have h2 : g.nodes.length < fuel := hfuel
    omega
  obtain ⟨g', hloop, hfr, hkey⟩ := relax_loop_total hp
    (fun gk _ => gk.nodes.map frame = g.nodes.map frame ∧ heap_key gk t = ⊤)
    (fun gk => gk.nodes.map frame = g.nodes.map frame ∧ heap_key gk t = ⊤)
    (by
      intro gk u m g2 hI hpop
      obtain ⟨_, hg2⟩ := heap_pop_some hpop
      rw [hg2]
      exact unreached_visit u t hno hI.1 hI.2)
    (by
      intro gk u hI _
      exact unreached_visit u t hno hI.1 hI.2)
    (with_fresh_heap g) 0 fuel hb ⟨rfl, hk⟩
  refine ⟨g', aggregate_cost g', ?_, hfr, hkey⟩
  simp only [mesh_graph_get_cost, hloop]

/-- C14 (amended): build the three-node graph from the root at `(0,0)`, node A at `(5,0)`
and a node B at `(b_x, b_y)` whose distance from the root is at least the cutoff distance
(`b_x^2 + b_y^2 >= 100`), and let the sampling call disable A.  After the reset and the
relaxation the root is enabled, A is disabled and `min_cost[B] = +infinity`, whatever B's
own flag. -/
theorem C14_unreachable_behind_disabled
    (pick : (Nat → WithTop ℚ) → List Nat → Option Nat) (hp : heap_contract pick)
    (sigmoid : ℚ → ℚ) (draws : Nat → ℚ) (b_x b_y : ℚ)
    (hfar : 100 ≤ b_x ^ 2 + b_y ^ 2) (hA : sigmoid INIT_WEIGHT < draws 1)
    (fuel : Nat) (hfuel : 3 < fuel) :
    ∃ g' total,
      mesh_graph_get_cost pick fuel
        (mesh_graph_set_switch sigmoid draws
          (mesh_graph_reset (mesh_graph_new 3 (relay_positions b_x b_y))) false) =
        some (g', total) ∧
      enabled_at g' 0 = true ∧ enabled_at g' 1 = false ∧ heap_key g' 2 = ⊤ := by
  set g := mesh_graph_set_switch sigmoid draws
    (mesh_graph_reset (mesh_graph_new 3 (relay_positions b_x b_y))) false with hg
  have hlenr : (mesh_graph_reset (mesh_graph_new 3 (relay_positions b_x b_y))).nodes.length
      = 3 := by
    rw [frame_length (mesh_graph_reset_frame _), mesh_graph_new_length]
  have hlen : g.nodes.length = 3 := by
    rw [hg, mesh_graph_set_switch_length, hlenr]
  have hnb : ∀ w, neighbors_at g w =
      neighbors_at (mesh_graph_new 3 (relay_positions b_x b_y)) w := by
    intro w
    rw [hg, mesh_graph_set_switch_neighbors_at, mesh_graph_reset_neighbors_at]
  have hen0 : enabled_at g 0 = true := by
    rw [hg]
    exact mesh_graph_set_switch_root sigmoid draws _ false (by rw [hlenr]; decide)
  have hen1 : enabled_at g 1 = false := by
    simp only [hg, enabled_at, mesh_graph_set_switch_getElem?, mesh_graph_reset_getElem?,
      mesh_graph_new_getElem? 3 (relay_positions b_x b_y) 1 (by decide)]
    simp [mesh_node_set_switch, mesh_node_reset, mesh_node_init, not_le.mpr hA]
  have hno : ∀ w e, enabled_at g w = true → e ∈ neighbors_at g w → e.node ≠ 2 := by
    intro w e hen he h2
    rw [hnb] at he
    obtain ⟨hw, _, hne, hd, _⟩ := (mem_neighbors_new 3 (relay_positions b_x b_y) w e).mp he
    rw [h2] at hne hd
    have hcases : w = 0 ∨ w = 1 := by omega
    rcases hcases with h | h
    · subst h
      have : dist_sq (relay_positions b_x b_y) 0 2 = b_x ^ 2 + b_y ^ 2 := by
        simp [dist_sq, node_pos, relay_positions]
      rw [this] at hd
      exact absurd hfar (not_le.mpr hd)
    · subst h
      rw [hen1] at hen
      cases hen
  have hk : heap_key g 2 = ⊤ := by
    rw [hg, mesh_graph_set_switch_heap_key, mesh_graph_reset_heap_key]
    simp
  obtain ⟨g', total, hget, hfr, hkey⟩ := unreached_stays_top hp g 2 hno hk fuel
    (by show g.nodes.length < fuel; omega)
  refine ⟨g', total, hget, ?_, ?_, hkey⟩
  · rw [frame_enabled_at hfr]; exact hen0
  · rw [frame_enabled_at hfr]; exact hen1

/-- Witness for C14 with B at `(5, 9)`: at least the cutoff away from the root and within
the cutoff of A. -/
theorem C14_unreachable_behind_disabled_witness :
    heap_contract pick_first_min ∧ (100 : ℚ) ≤ 5 ^ 2 + 9 ^ 2 ∧
    sigmoid_approx INIT_WEIGHT < (fun i => if i = 1 then (1 : ℚ) else 0) 1 ∧ 3 < 4 ∧
    ∃ g' total,
      mesh_graph_get_cost pick_first_min 4
        (mesh_graph_set_switch sigmoid_approx (fun i => if i = 1 then 1 else 0)
          (mesh_graph_reset (mesh_graph_new 3 (relay_positions 5 9))) false) =
        some (g', total) ∧
      enabled_at g' 0 = true ∧ enabled_at g' 1 = false ∧ heap_key g' 2 = ⊤ :=
  ⟨pick_first_min_contract, by norm_num, by decide!, by decide,
    C14_unreachable_behind_disabled pick_first_min pick_first_min_contract sigmoid_approx
      (fun i => if i = 1 then 1 else 0) 5 9 (by norm_num) (by decide!) 4 (by decide)⟩

/-- Counterexample to C14 as stated: with B at `(5,5)` the root has a direct edge to B of
cost `65`, and with A disabled and the root and B enabled the pass ends with
`min_cost[B] = 65`, not `+infinity`. -/
theorem C14_unreachable_behind_disabled_counterexample :
    neighbors_at (mesh_graph_new 3 (relay_positions 5 5)) 0 =
      [{ node := 1, cost := 55 }, { node := 2, cost := 65 }] ∧
    (mesh_graph_get_cost pick_first_min 4
      (mesh_graph_set_switch sigmoid_approx (fun i => if i = 1 then 1 else 0)
        (mesh_graph_reset (mesh_graph_new 3 (relay_positions 5 5))) false)).map
      (fun r => (enabled_at r.1 0, enabled_at r.1 1, enabled_at r.1 2, heap_key r.1 2)) =
      some (true, false, true, ((65 : ℚ) : WithTop ℚ)) := by
  refine ⟨by decide!, by decide!⟩

/-! ## Effect of one visit: claim C15 -/

/-- The queue call of one iteration of the neighbour loop, next to its effect on the
queue and on the handles. -/
theorem visit_neighbor_event_spec (i : Nat) (g : mesh_graph) (e : mesh_node_neighbor) :
    (visit_neighbor i g e = g ∧ visit_neighbor_event i g e = []) ∨
    (e.node < g.nodes.length ∧ visited_at g e.node = false ∧
      heap_key g i + (e.cost : WithTop ℚ) < heap_key g e.node ∧
      ((handle_at g e.node = none ∧
          visit_neighbor_event i g e = [heap_event.add e.node] ∧
          (visit_neighbor i g e).min_heap = g.min_heap ++ [e.node] ∧
          (∀ v, handle_at (visit_neighbor i g e) v =
            if v = e.node then some e.node else handle_at g v)) ∨
       (∃ h, handle_at g e.node = some h ∧
          visit_neighbor_event i g e = [heap_event.update h] ∧
          (visit_neighbor i g e).min_heap = g.min_heap ∧
          (∀ v, handle_at (visit_neighbor i g e) v = handle_at g v)))) := by
  unfold visit_neighbor visit_neighbor_event
  rcases hi : g.nodes[i]? with _ | nd
  · left; simp
  rcases hj : g.nodes[e.node]? with _ | t
  · left; simp
  have hlt : e.node < g.nodes.length := by
    by_contra hc
    rw [List.getElem?_eq_none (Nat.le_of_not_lt hc)] at hj
    cases hj
  by_cases hv : t.visited = true
  · left; simp [hv]
  by_cases hc : nd.min_cost + (e.cost : WithTop ℚ) < t.min_cost
  swap
  · left; simp [hc]
  right
  have hv' : t.visited = false := by simpa using hv
  refine ⟨hlt, by simp [visited_at, hj, hv'], by simpa [heap_key, hi, hj] using hc, ?_⟩
  rcases hh : t.heap_value with _ | h
  · left
    refine ⟨by simp [handle_at, hj, hh], by simp [hv', hc, hh], by simp [hv', hc, hh, heap_add],
      ?_⟩
    intro v
    simp only [hv', hc, hh, handle_at, List.getElem?_set, Bool.not_false, if_true]
    by_cases hve : v = e.node
    · subst hve
      simp [hlt]
    · have : ¬ e.node = v := fun h => hve h.symm
      simp [hve, this]
  · right
    refine ⟨h, by simp [handle_at, hj, hh], by simp [hv', hc, hh],
      by simp [hv', hc, hh, heap_update], ?_⟩
    intro v
    simp only [hv', hc, hh, handle_at, List.getElem?_set, Bool.not_false, if_true]
    by_cases hve : e.node = v
    · subst hve
      simp [hlt, hj, hh]
    · simp [hve]

/-- Fold induction over the neighbour loop that knows each edge is in the list and records
a property of each processed edge. -/
theorem foldl_visit_mem_processed (i : Nat) (P : mesh_graph → Prop)
    (Q : mesh_graph → mesh_node_neighbor → Prop) (l : List mesh_node_neighbor)
    (hstep : ∀ gx e, e ∈ l → P gx → P (visit_neighbor i gx e) ∧ Q (visit_neighbor i gx e) e)
    (hkeep : ∀ gx e e', e' ∈ l → P gx → Q gx e → Q (visit_neighbor i gx e') e) :
    ∀ (gx : mesh_graph), P gx →
      P (l.foldl (visit_neighbor i) gx) ∧ ∀ e ∈ l, Q (l.foldl (visit_neighbor i) gx) e := by
  have hpres : ∀ (l' : List mesh_node_neighbor), (∀ e ∈ l', e ∈ l) →
      ∀ (gx : mesh_graph) (e : mesh_node_neighbor),
      P gx → Q gx e → Q (l'.foldl (visit_neighbor i) gx) e := by
    intro l'
    induction l' with
    | nil => intro _ gx e _ hq; simpa using hq
    | cons a l' ih =>
      intro hsub gx e hP hq
      simp only [List.foldl_cons]
      have ha : a ∈ l := hsub a (List.mem_cons_self _ _)
      exact ih (fun x hx => hsub x (List.mem_cons_of_mem _ hx)) _ e (hstep gx a ha hP).1
        (hkeep gx e a ha hP hq)
  have main : ∀ (l' : List mesh_node_neighbor), (∀ e ∈ l', e ∈ l) → ∀ (gx : mesh_graph),
      P gx → P (l'.foldl (visit_neighbor i) gx) ∧
        ∀ e ∈ l', Q (l'.foldl (visit_neighbor i) gx) e := by
    intro l'
    induction l' with
    | nil => intro _ gx hP; exact ⟨by simpa using hP, fun e he => by cases he⟩
    | cons a l' ih =>
      intro hsub gx hP
      simp only [List.foldl_cons]
      have ha : a ∈ l := hsub a (List.mem_cons_self _ _)
      have hsub' : ∀ x ∈ l', x ∈ l := fun x hx => hsub x (List.mem_cons_of_mem _ hx)
      obtain ⟨hP1, hQ1⟩ := hstep gx a ha hP
      obtain ⟨hP2, hQ2⟩ := ih hsub' (visit_neighbor i gx a) hP1
      refine ⟨hP2, ?_⟩
      intro e he
      rcases List.mem_cons.mp he with h | h
      · rw [h]; exact hpres l' hsub' _ a hP1 hQ1
      · exact hQ2 e h
  exact main l (fun _ h => h)

/-- One iteration of the neighbour loop never raises a key. -/
theorem visit_neighbor_key_le (i : Nat) (g : mesh_graph) (e : mesh_node_neighbor) (w : Nat) :
    heap_key (visit_neighbor i g e) w ≤ heap_key g w := by
  obtain ⟨_, _, hcase⟩ := visit_neighbor_spec i g e
  rcases hcase with ⟨heq, _⟩ | ⟨_, _, _, hlt, hkey, _⟩
  · rw [heq]
  · rw [hkey]
    by_cases hw : w = e.node
    · simp only [hw, if_true]; exact le_of_lt hlt
    · simp only [hw, if_false]; exact le_refl _

/-- The whole neighbour loop never raises a key. -/
theorem relax_edges_key_le (g : mesh_graph) (i : Nat) (w : Nat) :
    heap_key (relax_edges g i) w ≤ heap_key g w := by
  apply relax_edges_induct (P := fun gk => heap_key gk w ≤ heap_key g w) g i (le_refl _)
  intro gk e _ _ h
  exact le_trans (visit_neighbor_key_le i gk e w) h

/-- A visit never raises a key. -/
theorem visit_key_le (g : mesh_graph) (i : Nat) (w : Nat) :
    heap_key (mesh_node_visit_neighbors g i) w ≤ heap_key g w := by
  by_cases hi : i < g.nodes.length
  · rw [(visit_mark g i hi).2.2.1]; exact relax_edges_key_le g i w
  · rw [mesh_node_visit_neighbors_out g i (Nat.le_of_not_lt hi)]

/-- Effect of the neighbour loop of an enabled node on the keys. -/
theorem relax_edges_keys (g : mesh_graph) (v : Nat) (hv : v < g.nodes.length)
    (hen : enabled_at g v = true) :
    (∀ w, heap_key (relax_edges g v) w ≠ heap_key g w →
      visited_at g w = false ∧ ∃ e ∈ neighbors_at g v, e.node = w ∧
        ∃ kv : WithTop ℚ, kv ≤ heap_key g v ∧
          ((∀ e' ∈ neighbors_at g v, e'.node ≠ v) → kv = heap_key g v) ∧
          kv + (e.cost : WithTop ℚ) < heap_key g w ∧
          heap_key (relax_edges g v) w = kv + (e.cost : WithTop ℚ)) ∧
    (∀ e ∈ neighbors_at g v, e.node < g.nodes.length → visited_at g e.node = false →
      heap_key (relax_edges g v) e.node ≤ heap_key g v + (e.cost : WithTop ℚ)) := by
  have h := foldl_visit_mem_processed v
    (fun gk => (∀ w, heap_key gk w ≤ heap_key g w) ∧
      (∀ w, visited_at gk w = visited_at g w) ∧ gk.nodes.length = g.nodes.length ∧
      ((∀ e' ∈ neighbors_at g v, e'.node ≠ v) → heap_key gk v = heap_key g v) ∧
      (∀ w, heap_key gk w ≠ heap_key g w →
        visited_at g w = false ∧ ∃ e ∈ neighbors_at g v, e.node = w ∧
          ∃ kv : WithTop ℚ, kv ≤ heap_key g v ∧
            ((∀ e' ∈ neighbors_at g v, e'.node ≠ v) → kv = heap_key g v) ∧
            kv + (e.cost : WithTop ℚ) < heap_key g w ∧
            heap_key gk w = kv + (e.cost : WithTop ℚ)))
    (fun gk e => e.node < g.nodes.length → visited_at g e.node = false →
      heap_key gk e.node ≤ heap_key g v + (e.cost : WithTop ℚ))
    (neighbors_at g v)
    (by
      intro gk e he ⟨hle, hvis, hlen, hself, hchg⟩
      obtain ⟨hfr, hvis', hcase⟩ := visit_neighbor_spec v gk e
      rcases hcase with ⟨heq, hwhy⟩ | ⟨_, _, hunv, hlt, hkey, _⟩
      · rw [heq]
        refine ⟨⟨hle, hvis, hlen, hself, hchg⟩, ?_⟩
        intro hin hun
        rcases hwhy with h1 | h1 | h1 | h1
        · rw [hvis, hun] at h1; cases h1
        · omega
        · omega
        · exact le_trans h1 (add_le_add_right (hle v) _)
      · refine ⟨⟨?_, ?_, ?_, ?_, ?_⟩, ?_⟩
        · intro w
          exact le_trans (visit_neighbor_key_le v gk e w) (hle w)
        · intro w; rw [hvis' w]; exact hvis w
        · rw [frame_length hfr]; exact hlen
        · intro hns
          have hne : v ≠ e.node := fun h => hns e he h.symm
          rw [hkey]
          simp only [hne, if_false]
          exact hself hns
        · intro w hw
          rw [hkey] at hw ⊢
          by_cases hwe : w = e.node
          · simp only [hwe, if_true] at hw ⊢
            refine ⟨by rw [← hvis]; exact hunv, e, he, rfl, heap_key gk v, hle v, hself, ?_,
              rfl⟩
            exact lt_of_lt_of_le hlt (hle e.node)
          · simp only [hwe, if_false] at hw ⊢
            exact hchg w hw
        · intro _ _
          rw [hkey]
          simp only [if_true]
          exact add_le_add_right (hle v) _)
    (by
      intro gk e e' _ _ hq hin hun
      exact le_trans (visit_neighbor_key_le v gk e' e.node) (hq hin hun))
    g ⟨fun _ => le_refl _, fun _ => rfl, rfl, fun _ => rfl, fun w hw => absurd rfl hw⟩
  have hrel : relax_edges g v = (neighbors_at g v).foldl (visit_neighbor v) g := by
    unfold relax_edges
    rw [if_pos hen]
  rw [hrel]
  exact ⟨h.1.2.2.2.2, h.2⟩

/-- C15: for every graph state and node `v` of the graph, `mesh_node_visit_neighbors`
sets `v.visited = true` and leaves every other visited flag and every field outside
the relaxation alone.  When `v` is disabled it changes nothing else: no `min_cost`, no
queue entry, no `heap_add` and no `heap_update`.  When `v` is enabled it never raises a
`min_cost`; a node `w` whose `min_cost` changed was unvisited and is the target of an edge
`(v, w)` with `v.min_cost + cost(v, w) < w.min_cost`, its new value being that sum (with
`v.min_cost` as read at that iteration, which is the initial one when `v` has no edge to
itself); and every unvisited neighbour ends with `min_cost` at most
`v.min_cost + cost(v, w)`.  Each single iteration writes exactly that sum under exactly
that test. -/
theorem C15_visit_neighbors_effect (g : mesh_graph) (v : Nat) (hv : v < g.n_node) :
    (visited_at (mesh_node_visit_neighbors g v) v = true ∧
      (∀ w, w ≠ v → visited_at (mesh_node_visit_neighbors g v) w = visited_at g w) ∧
      (mesh_node_visit_neighbors g v).nodes.map frame = g.nodes.map frame) ∧
    (enabled_at g v = false →
      (mesh_node_visit_neighbors g v).nodes =
        g.nodes.modify (fun nd => { nd with visited := true }) v ∧
      (mesh_node_visit_neighbors g v).min_heap = g.min_heap ∧
      mesh_node_visit_neighbors_log g v = [] ∧
      (∀ w, heap_key (mesh_node_visit_neighbors g v) w = heap_key g w) ∧
      (∀ w, handle_at (mesh_node_visit_neighbors g v) w = handle_at g w)) ∧
    (enabled_at g v = true →
      (∀ w, heap_key (mesh_node_visit_neighbors g v) w ≤ heap_key g w) ∧
      (∀ w, heap_key (mesh_node_visit_neighbors g v) w ≠ heap_key g w →
        visited_at g w = false ∧ ∃ e ∈ neighbors_at g v, e.node = w ∧
          ∃ kv : WithTop ℚ, kv ≤ heap_key g v ∧
            ((∀ e' ∈ neighbors_at g v, e'.node ≠ v) → kv = heap_key g v) ∧
            kv + (e.cost : WithTop ℚ) < heap_key g w ∧
            heap_key (mesh_node_visit_neighbors g v) w = kv + (e.cost : WithTop ℚ)) ∧
      (∀ e ∈ neighbors_at g v, e.node < g.n_node → visited_at g e.node = false →
        heap_key (mesh_node_visit_neighbors g v) e.node ≤
          heap_key g v + (e.cost : WithTop ℚ))) ∧
    (∀ (gk : mesh_graph) (e : mesh_node_neighbor) (w : Nat),
      heap_key (visit_neighbor v gk e) w =
        if w = e.node ∧ v < gk.n_node ∧ e.node < gk.n_node ∧ visited_at gk e.node = false ∧
            heap_key gk v + (e.cost : WithTop ℚ) < heap_key gk e.node
        then heap_key gk v + (e.cost : WithTop ℚ) else heap_key gk w) := by
  have hv' : v < g.nodes.length := hv
  obtain ⟨hheap, hfr, hkeys, hhandles, hvis⟩ := visit_mark g v hv'
  refine ⟨⟨?_, ?_, hfr⟩, ?_, ?_, ?_⟩
  · rw [hvis]; simp
  · intro w hw
    rw [hvis]; simp [hw]
  · intro hen
    have hrel : relax_edges g v = g := by
      unfold relax_edges
      simp [hen]
    have hlog : mesh_node_visit_neighbors_log g v = [] := by
      have hget := List.getElem?_eq_getElem hv'
      have hen' : g.nodes[v].switch_enabled = false := by
        simpa [enabled_at, hget] using hen
      simp [mesh_node_visit_neighbors_log, hget, hen']
    refine ⟨?_, ?_, hlog, ?_, ?_⟩
    · rw [mesh_node_visit_neighbors_eq g v hv', hrel]
    · rw [hheap, hrel]
    · intro w; rw [hkeys, hrel]
    · intro w; rw [hhandles, hrel]
  · intro hen
    obtain ⟨hchg, hproc⟩ := relax_edges_keys g v hv' hen
    refine ⟨fun w => visit_key_le g v w, ?_, ?_⟩
    · intro w hw
      rw [hkeys] at hw ⊢
      exact hchg w hw
    · intro e he hin hun
      rw [hkeys]
      exact hproc e he hin hun
  · intro gk e w
    obtain ⟨_, _, hcase⟩ := visit_neighbor_spec v gk e
    rcases hcase with ⟨heq, hwhy⟩ | ⟨h1, h2, hunv, hlt, hkey, _⟩
    · rw [heq]
      have hneg : ¬ (w = e.node ∧ v < gk.n_node ∧ e.node < gk.n_node ∧
          visited_at gk e.node = false ∧
          heap_key gk v + (e.cost : WithTop ℚ) < heap_key gk e.node) := by
        rintro ⟨_, h1, h2, h3, h4⟩
        have h1' : v < gk.nodes.length := h1
        have h2' : e.node < gk.nodes.length := h2
        rcases hwhy with h | h | h | h
        · rw [h3] at h; cases h
        · omega
        · omega
        · exact absurd h4 (not_lt.mpr h)
      rw [if_neg hneg]
    · rw [hkey]
      by_cases hw : w = e.node
      · have hpos : w = e.node ∧ v < gk.n_node ∧ e.node < gk.n_node ∧
            visited_at gk e.node = false ∧
            heap_key gk v + (e.cost : WithTop ℚ) < heap_key gk e.node :=
          ⟨hw, h1, h2, hunv, hlt⟩
        rw [if_pos hw, if_pos hpos]
      · have hneg : ¬ (w = e.node ∧ v < gk.n_node ∧ e.node < gk.n_node ∧
            visited_at gk e.node = false ∧
            heap_key gk v + (e.cost : WithTop ℚ) < heap_key gk e.node) := fun h => hw h.1
        rw [if_neg hw, if_neg hneg]

/-- Witness for C15: node 1 of the three-node graph, disabled by the sampling call. -/
theorem C15_visit_neighbors_effect_witness :
    1 < node1_disabled_graph.n_node ∧ enabled_at node1_disabled_graph 1 = false ∧
    (mesh_node_visit_neighbors node1_disabled_graph 1).nodes =
      node1_disabled_graph.nodes.modify (fun nd => { nd with visited := true }) 1 ∧
    (mesh_node_visit_neighbors node1_disabled_graph 1).min_heap =
      node1_disabled_graph.min_heap ∧
    mesh_node_visit_neighbors_log node1_disabled_graph 1 = [] ∧
    (∀ w, heap_key (mesh_node_visit_neighbors node1_disabled_graph 1) w =
      heap_key node1_disabled_graph w) ∧
    (∀ w, handle_at (mesh_node_visit_neighbors node1_disabled_graph 1) w =
      handle_at node1_disabled_graph w) :=
  ⟨by decide!, by decide!,
    (C15_visit_neighbors_effect node1_disabled_graph 1 (by decide!)).2.1 (by decide!)⟩

/-! ## Monotone and final keys: claim C16 -/

theorem key_step_refl (a : mesh_graph) : key_step a a :=
  ⟨fun _ => le_refl _, fun _ h => ⟨h, rfl⟩⟩

theorem key_step_trans {a b c : mesh_graph} (h1 : key_step a b) (h2 : key_step b c) :
    key_step a c := by
  refine ⟨fun w => le_trans (h2.1 w) (h1.1 w), ?_⟩
  intro w hw
  obtain ⟨hb, hkb⟩ := h1.2 w hw
  obtain ⟨hc, hkc⟩ := h2.2 w hb
  exact ⟨hc, hkc.trans hkb⟩

theorem key_step_visit_neighbor (i : Nat) (g : mesh_graph) (e : mesh_node_neighbor) :
    key_step g (visit_neighbor i g e) := by
  obtain ⟨_, hvis, hcase⟩ := visit_neighbor_spec i g e
  refine ⟨fun w => visit_neighbor_key_le i g e w, ?_⟩
  intro w hw
  refine ⟨by rw [hvis]; exact hw, ?_⟩
  rcases hcase with ⟨heq, _⟩ | ⟨_, _, hunv, _, hkey, _⟩
  · rw [heq]
  · rw [hkey]
    have hne : w ≠ e.node := by
      intro h
      rw [h, hunv] at hw
      cases hw
    simp only [hne, if_false]

/-- The states of the neighbour loop form a chain that ends in the folded state. -/
theorem visit_edges_states_chain (i : Nat) (l : List mesh_node_neighbor) :
    ∀ g, List.Chain' key_step (g :: visit_edges_states i g l) ∧
      (g :: visit_edges_states i g l).getLast? = some (l.foldl (visit_neighbor i) g) := by
  induction l with
  | nil => intro g; simp [visit_edges_states]
  | cons e l ih =>
    intro g
    obtain ⟨hc, hl⟩ := ih (visit_neighbor i g e)
    refine ⟨?_, ?_⟩
    · simp only [visit_edges_states]
      exact List.chain'_cons.mpr ⟨key_step_visit_neighbor i g e, hc⟩
    · simp only [visit_edges_states, List.getLast?_cons_cons, List.foldl_cons]
      exact hl

/-- Marking the visiting node after its neighbour loop. -/
theorem key_step_mark (g : mesh_graph) (i : Nat) :
    key_step (relax_edges g i) (mesh_node_visit_neighbors g i) := by
  by_cases hi : i < g.nodes.length
  · obtain ⟨_, _, hkeys, _, hvis⟩ := visit_mark g i hi
    refine ⟨fun w => le_of_eq (hkeys w), ?_⟩
    intro w hw
    rw [(relax_edges_frame g i).2] at hw
    refine ⟨?_, hkeys w⟩
    rw [hvis]
    by_cases hwi : w = i
    · simp [hwi]
    · simp [hwi, hw]
  · have h1 : mesh_node_visit_neighbors g i = g :=
      mesh_node_visit_neighbors_out g i (Nat.le_of_not_lt hi)
    have h2 : relax_edges g i = g := by
      unfold relax_edges
      have : enabled_at g i = false := by
        simp [enabled_at, List.getElem?_eq_none (Nat.le_of_not_lt hi)]
      simp [this]
    rw [h1, h2]
    exact key_step_refl g

/-- The states of one visit form a chain from the entry state to the visited state. -/
theorem visit_states_chain (g : mesh_graph) (i : Nat) :
    List.Chain' key_step (g :: mesh_node_visit_neighbors_states g i) ∧
      (g :: mesh_node_visit_neighbors_states g i).getLast? =
        some (mesh_node_visit_neighbors g i) := by
  have hlast : (g :: mesh_node_visit_neighbors_states g i).getLast? =
      some (mesh_node_visit_neighbors g i) := by
    unfold mesh_node_visit_neighbors_states
    rw [← List.cons_append, List.getLast?_append]
    simp
  refine ⟨?_, hlast⟩
  unfold mesh_node_visit_neighbors_states
  rw [← List.cons_append]
  apply List.Chain'.append _ (List.chain'_singleton _)
  · intro x hx y hy
    simp only [List.head?_cons, Option.mem_def, Option.some.injEq] at hy
    subst hy
    have hx' : x = relax_edges g i := by
      unfold relax_edges enabled_at neighbors_at
      rcases hn : g.nodes[i]? with _ | nd
      · simp only [hn] at hx ⊢
        simpa using hx.symm
      · simp only [hn] at hx ⊢
        by_cases hen : nd.switch_enabled = true
        · simp only [hen, if_true] at hx ⊢
          rw [(visit_edges_states_chain i nd.neighbors g).2] at hx
          simpa using hx.symm
        · have hen' : nd.switch_enabled = false := by simpa using hen
          simp only [hen'] at hx ⊢
          simpa using hx.symm
    rw [hx']
    exact key_step_mark g i
  · rcases hn : g.nodes[i]? with _ | nd
    · simp
    · by_cases hen : nd.switch_enabled = true
      · simp only [hen, if_true]
        exact (visit_edges_states_chain i nd.neighbors g).1
      · have hen' : nd.switch_enabled = false := by simpa using hen
        simp [hen']

/-- Every state of a chain is related to the last one. -/
theorem key_step_to_last (l : List mesh_graph) (z : mesh_graph)
    (hc : List.Chain' key_step l) (hl : l.getLast? = some z) :
    ∀ s ∈ l, key_step s z := by
  intro s hs
  haveI : IsTrans mesh_graph key_step := ⟨fun _ _ _ h1 h2 => key_step_trans h1 h2⟩
  have hp : List.Pairwise key_step l := List.chain'_iff_pairwise.mp hc
  have hsplit : l.dropLast ++ [z] = l := List.dropLast_append_getLast? z hl
  rw [← hsplit] at hs hp
  rcases List.mem_append.mp hs with h | h
  · exact (List.pairwise_append.mp hp).2.2 s h z (List.mem_singleton_self z)
  · rw [List.mem_singleton.mp h]
    exact key_step_refl z

/-- The states of the loop form a chain from the start state to the returned state. -/
theorem relax_loop_states_chain (pick : (Nat → WithTop ℚ) → List Nat → Option Nat) :
    ∀ (fuel : Nat) (g : mesh_graph) (u : Nat) (g' : mesh_graph),
      relax_loop pick fuel g u = some g' →
      ∃ states, relax_loop_states pick fuel g u = some states ∧
        List.Chain' key_step states ∧ states.head? = some g ∧
        states.getLast? = some g' := by
  intro fuel
  induction fuel with
  | zero => intro g u g' h; simp [relax_loop] at h
  | succ fuel ih =>
    intro g u g' h
    simp only [relax_loop] at h
    simp only [relax_loop_states]
    obtain ⟨hvc, hvl⟩ := visit_states_chain g u
    rcases hpop : heap_pop pick (mesh_node_visit_neighbors g u) with _ | ⟨m, g2⟩
    · rw [hpop] at h
      simp only [Option.some.injEq] at h
      subst h
      exact ⟨_, rfl, hvc, rfl, hvl⟩
    · rw [hpop] at h
      simp only at h
      obtain ⟨states, hs, hc, hh, hl⟩ := ih g2 m g' h
      obtain ⟨_, hg2⟩ := heap_pop_some hpop
      have hpopstep : key_step (mesh_node_visit_neighbors g u) g2 := by
        rw [hg2]
        exact ⟨fun _ => le_refl _, fun _ hw => ⟨hw, rfl⟩⟩
      refine ⟨(g :: mesh_node_visit_neighbors_states g u) ++ states,
        by simp only [hs, Option.map_some'], ?_, rfl, ?_⟩
      · apply List.Chain'.append hvc hc
        intro x hx y hy
        rw [hvl] at hx
        rw [hh] at hy
        simp only [Option.mem_def, Option.some.injEq] at hx hy
        subst hx; subst hy
        exact hpopstep
      · have hne : states ≠ [] := by
          intro h0
          rw [h0] at hh
          cases hh
        rw [List.getLast?_append_of_ne_nil _ hne]
        exact hl

/-- C16: during one relaxation pass after a reset, with a priority queue meeting its
contract (and whatever the edge costs, in particular non-negative ones), the pass returns,
and along the sequence of states it passes through (after every iteration of the
neighbour loop, every `visited` mark and every `heap_pop`) each node's `min_cost` is at most
its value in the previous state, a node with `visited = true` stays visited with the same
`min_cost` in the next state, and in every state of the sequence a visited node's `min_cost`
already equals its value in the returned state. -/
theorem C16_min_cost_monotone_and_final
    (pick : (Nat → WithTop ℚ) → List Nat → Option Nat) (hp : heap_contract pick)
    (g : mesh_graph) (fuel : Nat) (hfuel : g.n_node < fuel) :
    ∃ g' total states,
      mesh_graph_get_cost pick fuel (mesh_graph_reset g) = some (g', total) ∧
      relax_loop_states pick fuel (with_fresh_heap (mesh_graph_reset g)) 0 = some states ∧
      states.head? = some (with_fresh_heap (mesh_graph_reset g)) ∧
      states.getLast? = some g' ∧
      List.Chain' (fun a b => (∀ w, heap_key b w ≤ heap_key a w) ∧
        ∀ w, visited_at a w = true → visited_at b w = true ∧ heap_key b w = heap_key a w)
        states ∧
      ∀ s ∈ states, ∀ w, heap_key g' w ≤ heap_key s w ∧
        (visited_at s w = true → heap_key s w = heap_key g' w) := by
  have hb : queue_budget (with_fresh_heap (mesh_graph_reset g)) < fuel := by
    have h1 := queue_budget_start (mesh_graph_reset g)
    have h2 : (mesh_graph_reset g).nodes.length = g.nodes.length :=
      frame_length (mesh_graph_reset_frame g)
    have h3 : g.nodes.length < fuel := hfuel
    omega
  obtain ⟨g', hloop⟩ := relax_loop_terminates pick hp fuel _ 0 hb
  obtain ⟨states, hs, hc, hh, hl⟩ := relax_loop_states_chain pick fuel _ 0 g' hloop
  refine ⟨g', aggregate_cost g', states, ?_, hs, hh, hl, hc, ?_⟩
  · simp only [mesh_graph_get_cost, hloop]
  · intro s hsm w
    have hk := key_step_to_last states g' hc hl s hsm
    exact ⟨hk.1 w, fun hv => ((hk.2 w hv).2).symm⟩

/-- Witness for C16: the three-node graph with the first-minimum queue. -/
theorem C16_min_cost_monotone_and_final_witness :
    heap_contract pick_first_min ∧ three_node_graph.n_node < 4 ∧
    ∃ g' total states,
      mesh_graph_get_cost pick_first_min 4 (mesh_graph_reset three_node_graph) =
        some (g', total) ∧
      relax_loop_states pick_first_min 4
        (with_fresh_heap (mesh_graph_reset three_node_graph)) 0 = some states ∧
      states.head? = some (with_fresh_heap (mesh_graph_reset three_node_graph)) ∧
      states.getLast? = some g' ∧
      List.Chain' (fun a b => (∀ w, heap_key b w ≤ heap_key a w) ∧
        ∀ w, visited_at a w = true → visited_at b w = true ∧ heap_key b w = heap_key a w)
        states ∧
      ∀ s ∈ states, ∀ w, heap_key g' w ≤ heap_key s w ∧
        (visited_at s w = true → heap_key s w = heap_key g' w) :=
  ⟨pick_first_min_contract, by decide!,
    C16_min_cost_monotone_and_final pick_first_min pick_first_min_contract three_node_graph 4
      (by decide!)⟩

/-! ## Termination and queue discipline -/

theorem adds_append (l1 l2 : List heap_event) : adds (l1 ++ l2) = adds l1 ++ adds l2 := by
  induction l1 with
  | nil => rfl
  | cons a l ih => cases a <;> simp [adds, ih]

theorem visits_append (l1 l2 : List heap_event) :
    visits (l1 ++ l2) = visits l1 ++ visits l2 := by
  induction l1 with
  | nil => rfl
  | cons a l ih => cases a <;> simp [visits, ih]

/-- Appending one event keeps "every update follows the insertion of its handle". -/
theorem update_after_add_snoc (L : List heap_event) (x : heap_event)
    (hL : ∀ l1 h l2, L = l1 ++ heap_event.update h :: l2 → h ∈ adds l1)
    (hx : ∀ h, x = heap_event.update h → h ∈ adds L) :
    ∀ l1 h l2, L ++ [x] = l1 ++ heap_event.update h :: l2 → h ∈ adds l1 := by
  intro l1 h l2 heq
  rcases List.eq_nil_or_concat l2 with rfl | ⟨l2', y, rfl⟩
  · obtain ⟨h1, h2⟩ := List.append_inj' heq rfl
    rw [← h1]
    exact hx h (List.singleton_inj.mp h2)
  · have heq' : L ++ [x] = (l1 ++ heap_event.update h :: l2') ++ [y] := by
      rw [heq]; simp
    obtain ⟨h1, _⟩ := List.append_inj' heq' rfl
    exact hL l1 h l2' h1

/-- Induction over the neighbour loop together with its log. -/
theorem visit_edges_log_induct (i : Nat) (P : mesh_graph → List heap_event → Prop)
    (l : List mesh_node_neighbor)
    (hstep : ∀ gx L e, e ∈ l → P gx L →
      P (visit_neighbor i gx e) (L ++ visit_neighbor_event i gx e)) :
    ∀ gx L, P gx L → P (l.foldl (visit_neighbor i) gx) (L ++ visit_edges_log i gx l) := by
  have main : ∀ (l' : List mesh_node_neighbor), (∀ e ∈ l', e ∈ l) → ∀ gx L, P gx L →
      P (l'.foldl (visit_neighbor i) gx) (L ++ visit_edges_log i gx l') := by
    intro l'
    induction l' with
    | nil => intro _ gx L h; simpa [visit_edges_log] using h
    | cons a l' ih =>
      intro hsub gx L h
      simp only [List.foldl_cons, visit_edges_log]
      rw [← List.append_assoc]
      exact ih (fun x hx => hsub x (List.mem_cons_of_mem _ hx)) _ _
        (hstep gx L a (hsub a (List.mem_cons_self _ _)) h)
  exact main l (fun _ h => h)

/-- One iteration of the neighbour loop keeps the bookkeeping, provided the root is the
visiting node or already visited and has no self-edge of negative cost. -/
theorem queue_inv_visit_neighbor {g0 g : mesh_graph} {L : List heap_event} {u : Nat}
    {e : mesh_node_neighbor}
    (hself : ∀ e ∈ neighbors_at g0 0, e.node = 0 → 0 ≤ e.cost)
    (he : e ∈ neighbors_at g0 u) (hroot : u = 0 ∨ visited_at g 0 = true)
    (inv : queue_inv g0 g L) :
    queue_inv g0 (visit_neighbor u g e) (L ++ visit_neighbor_event u g e) := by
  have hfr := (visit_neighbor_spec u g e).1
  rcases visit_neighbor_event_spec u g e with ⟨heq, hev⟩ | ⟨hlt, hunv, hfire, hcase⟩
  · rw [heq, hev, List.append_nil]
    exact inv
  · rcases hcase with ⟨hnone, hev, hheap, hhandle⟩ | ⟨h, hsome, hev, hheap, hhandle⟩
    · have hnotin : e.node ∉ adds L := fun hin => (inv.handle_iff e.node).mp hin hnone
      have hne0 : e.node ≠ 0 := by
        intro h0
        rcases hroot with hu | hvis
        · subst hu
          have hc := hself e he h0
          rw [h0] at hfire
          exact absurd (key_le_add_cost (heap_key g 0) hc) (not_le.mpr hfire)
        · rw [h0, hvis] at hunv
          cases hunv
      have hadds : adds (L ++ [heap_event.add e.node]) = adds L ++ [e.node] := by
        rw [adds_append]; rfl
      have hvisits : visits (L ++ [heap_event.add e.node]) = visits L := by
        rw [visits_append]; simp [visits]
      rw [hev]
      refine ⟨hfr.trans inv.frame_eq, ?_, ?_, ?_, ?_, ?_, ?_, ?_⟩
      · intro v
        rw [hadds, hhandle, List.mem_append, List.mem_singleton]
        by_cases hv : v = e.node
        · simp [hv]
        · simp only [hv, or_false, if_false]
          exact inv.handle_iff v
      · intro v h hv
        rw [hhandle] at hv
        by_cases hve : v = e.node
        · simp only [hve, if_true, Option.some.injEq] at hv
          rw [hve]; exact hv.symm
        · simp only [hve, if_false] at hv
          exact inv.handle_self v h hv
      · rw [hadds]
        exact List.Nodup.append inv.adds_nodup (List.nodup_singleton _)
          (by
            intro x hx hx'
            rw [List.mem_singleton.mp hx'] at hx
            exact hnotin hx)
      · intro v hv
        rw [hadds, List.mem_append, List.mem_singleton] at hv
        rcases hv with hv | hv
        · exact inv.adds_lt v hv
        · rw [hv, ← frame_length inv.frame_eq]; exact hlt
      · rw [hadds, List.mem_append, List.mem_singleton]
        rintro (h | h)
        · exact inv.root_out h
        · exact hne0 h.symm
      · rw [hadds, hvisits, hheap, ← List.append_assoc, ← List.cons_append]
        exact List.Perm.append_right _ inv.queued
      · apply update_after_add_snoc L _ inv.update_after_add
        intro h hh
        cases hh
    · have hh : h = e.node := inv.handle_self e.node h hsome
      have hin : e.node ∈ adds L := by
        apply (inv.handle_iff e.node).mpr
        rw [hsome]
        exact Option.some_ne_none _
      have hadds : adds (L ++ [heap_event.update h]) = adds L := by
        rw [adds_append]; simp [adds]
      have hvisits : visits (L ++ [heap_event.update h]) = visits L := by
        rw [visits_append]; simp [visits]
      rw [hev]
      refine ⟨hfr.trans inv.frame_eq, ?_, ?_, ?_, ?_, ?_, ?_, ?_⟩
      · intro v
        rw [hadds, hhandle]
        exact inv.handle_iff v
      · intro v h' hv
        rw [hhandle] at hv
        exact inv.handle_self v h' hv
      · rw [hadds]; exact inv.adds_nodup
      · rw [hadds]; exact inv.adds_lt
      · rw [hadds]; exact inv.root_out
      · rw [hadds, hvisits, hheap]; exact inv.queued
      · apply update_after_add_snoc L _ inv.update_after_add
        intro h' hh'
        cases hh'
        rw [hh]; exact hin

/-- The bookkeeping only reads the frame, the handles and the queue. -/
theorem queue_inv_congr {g0 g g1 : mesh_graph} {L : List heap_event}
    (inv : queue_inv g0 g L) (hfr : g1.nodes.map frame = g.nodes.map frame)
    (hh : ∀ v, handle_at g1 v = handle_at g v) (hq : g1.min_heap = g.min_heap) :
    queue_inv g0 g1 L := by
  refine ⟨hfr.trans inv.frame_eq, ?_, ?_, inv.adds_nodup, inv.adds_lt, inv.root_out, ?_,
    inv.update_after_add⟩
  · intro v; rw [hh]; exact inv.handle_iff v
  · intro v h hv; rw [hh] at hv; exact inv.handle_self v h hv
  · rw [hq]; exact inv.queued

/-- A visit keeps the bookkeeping, its queue calls being appended to the log. -/
theorem queue_inv_visit {g0 g : mesh_graph} {L : List heap_event} {u : Nat}
    (hself : ∀ e ∈ neighbors_at g0 0, e.node = 0 → 0 ≤ e.cost)
    (hroot : u = 0 ∨ visited_at g 0 = true) (inv : queue_inv g0 g L) :
    queue_inv g0 (mesh_node_visit_neighbors g u) (L ++ mesh_node_visit_neighbors_log g u) := by
  by_cases hu : u < g.nodes.length
  · have hget := List.getElem?_eq_getElem hu
    have hnb : neighbors_at g0 u = g.nodes[u].neighbors := by
      rw [← frame_neighbors_at inv.frame_eq]
      simp [neighbors_at, hget]
    have hrel : queue_inv g0 (relax_edges g u) (L ++ mesh_node_visit_neighbors_log g u) := by
      unfold relax_edges mesh_node_visit_neighbors_log
      simp only [enabled_at, neighbors_at, hget]
      by_cases hen : g.nodes[u].switch_enabled = true
      · simp only [hen, if_true]
        have h := visit_edges_log_induct u
          (fun gx L' => queue_inv g0 gx L' ∧ (u = 0 ∨ visited_at gx 0 = true))
          g.nodes[u].neighbors
          (by
            intro gx L' e he ⟨hinv, hr⟩
            have he' : e ∈ neighbors_at g0 u := by rw [hnb]; exact he
            refine ⟨queue_inv_visit_neighbor hself he' hr hinv, ?_⟩
            rcases hr with h | h
            · exact Or.inl h
            · right
              rw [(visit_neighbor_spec u gx e).2.1]; exact h)
          g L ⟨inv, hroot⟩
        exact h.1
      · have hen' : g.nodes[u].switch_enabled = false := by simpa using hen
        simp only [hen', Bool.false_eq_true, if_false, List.append_nil]
        exact inv
    obtain ⟨hheap, hfr, _, hhandles, _⟩ := visit_mark g u hu
    exact queue_inv_congr hrel (hfr.trans (relax_edges_frame g u).1.symm) hhandles hheap
  · have hnone : g.nodes[u]? = none := List.getElem?_eq_none (Nat.le_of_not_lt hu)
    rw [mesh_node_visit_neighbors_out g u (Nat.le_of_not_lt hu)]
    simp only [mesh_node_visit_neighbors_log, hnone, List.append_nil]
    exact inv

/-- The loop keeps the bookkeeping up to its return, where the queue is empty. -/
theorem relax_loop_log_inv {pick : (Nat → WithTop ℚ) → List Nat → Option Nat}
    (hp : heap_contract pick) {g0 : mesh_graph} (hpos : 0 < g0.nodes.length)
    (hself : ∀ e ∈ neighbors_at g0 0, e.node = 0 → 0 ≤ e.cost) :
    ∀ (fuel : Nat) (g : mesh_graph) (u : Nat) (g' : mesh_graph) (pre : List heap_event),
      relax_loop pick fuel g u = some g' →
      queue_inv g0 g (pre ++ [heap_event.visit u]) → (u = 0 ∨ visited_at g 0 = true) →
      ∃ log, relax_loop_log pick fuel g u = some log ∧ queue_inv g0 g' (pre ++ log) ∧
        g'.min_heap = [] := by
  intro fuel
  induction fuel with
  | zero => intro g u g' pre h; simp [relax_loop] at h
  | succ fuel ih =>
    intro g u g' pre h inv hroot
    simp only [relax_loop] at h
    simp only [relax_loop_log]
    have hv := queue_inv_visit hself hroot inv
    rw [List.append_assoc, List.singleton_append] at hv
    rcases hpop : heap_pop pick (mesh_node_visit_neighbors g u) with _ | ⟨m, g2⟩
    · rw [hpop] at h
      simp only [Option.some.injEq] at h
      subst h
      exact ⟨_, rfl, hv, heap_pop_none hp hpop⟩
    · rw [hpop] at h
      simp only at h
      obtain ⟨hpk, hg2⟩ := heap_pop_some hpop
      have hm := ((hp _ _).2.2 _ hpk).1
      have hlen : (mesh_node_visit_neighbors g u).nodes.length = g0.nodes.length :=
        frame_length hv.frame_eq
      have hroot2 : visited_at g2 0 = true := by
        have h1 : visited_at g2 0 = visited_at (mesh_node_visit_neighbors g u) 0 := by
          rw [hg2]; rfl
        rw [h1]
        rcases hroot with h0 | h0
        · subst h0
          have hu : 0 < g.nodes.length := by
            rw [frame_length inv.frame_eq]; exact hpos
          rw [(visit_mark g 0 hu).2.2.2.2]; simp
        · by_cases hu : u < g.nodes.length
          · rw [(visit_mark g u hu).2.2.2.2]
            by_cases h0u : 0 = u
            · simp [h0u]
            · simp [h0u, h0]
          · rw [mesh_node_visit_neighbors_out g u (Nat.le_of_not_lt hu)]; exact h0
      have hinv2 : queue_inv g0 g2
          ((pre ++ heap_event.visit u :: mesh_node_visit_neighbors_log g u) ++
            [heap_event.visit m]) := by
        have hadds : adds ((pre ++ heap_event.visit u :: mesh_node_visit_neighbors_log g u) ++
            [heap_event.visit m]) =
            adds (pre ++ heap_event.visit u :: mesh_node_visit_neighbors_log g u) := by
          rw [adds_append]; simp [adds]
        have hvisits : visits
            ((pre ++ heap_event.visit u :: mesh_node_visit_neighbors_log g u) ++
              [heap_event.visit m]) =
            visits (pre ++ heap_event.visit u :: mesh_node_visit_neighbors_log g u) ++ [m] := by
          rw [visits_append]; rfl
        have hfr2 : g2.nodes.map frame = (mesh_node_visit_neighbors g u).nodes.map frame := by
          rw [hg2]
        have hh2 : ∀ v, handle_at g2 v = handle_at (mesh_node_visit_neighbors g u) v := by
          intro v; rw [hg2]; rfl
        have hq2 : g2.min_heap = (mesh_node_visit_neighbors g u).min_heap.erase m := by
          rw [hg2]
        refine ⟨hfr2.trans hv.frame_eq, ?_, ?_, ?_, ?_, ?_, ?_, ?_⟩
        · intro v; rw [hadds, hh2]; exact hv.handle_iff v
        · intro v h' hv'; rw [hh2] at hv'; exact hv.handle_self v h' hv'
        · rw [hadds]; exact hv.adds_nodup
        · rw [hadds]; exact hv.adds_lt
        · rw [hadds]; exact hv.root_out
        · rw [hadds, hvisits, hq2, List.append_assoc, List.singleton_append]
          exact (List.Perm.append_left _ (List.perm_cons_erase hm).symm).trans hv.queued
        · apply update_after_add_snoc _ _ hv.update_after_add
          intro h' hh'
          cases hh'
      obtain ⟨log, hlog, hfin, hempty⟩ := ih g2 m g' _ h hinv2 (Or.inr hroot2)
      refine ⟨(heap_event.visit u :: mesh_node_visit_neighbors_log g u) ++ log,
        by simp only [hlog, Option.map_some'], ?_, hempty⟩
      rw [← List.append_assoc]
      exact hfin

/-- For every graph with `n >= 1` nodes whose root has no self-edge of negative cost and
every enable snapshot, the relaxation loop of `mesh_graph_get_cost` run after a reset
terminates with an empty queue; no node is inserted into the queue twice, the root is never
inserted, every `heap_update` is on the handle of a node inserted earlier, no node is
visited twice, every visited node is a node of the graph and the loop performs at most `n`
visits. -/
theorem queue_discipline_of_no_neg_self_edge
    (pick : (Nat → WithTop ℚ) → List Nat → Option Nat) (hp : heap_contract pick)
    (g : mesh_graph) (hpos : 0 < g.n_node)
    (hself : ∀ e ∈ neighbors_at g 0, e.node = 0 → 0 ≤ e.cost)
    (fuel : Nat) (hfuel : g.n_node < fuel) :
    ∃ g' total log,
      mesh_graph_get_cost pick fuel (mesh_graph_reset g) = some (g', total) ∧
      relax_loop_log pick fuel (with_fresh_heap (mesh_graph_reset g)) 0 = some log ∧
      g'.min_heap = [] ∧
      (adds log).Nodup ∧ 0 ∉ adds log ∧
      (∀ l1 h l2, log = l1 ++ heap_event.update h :: l2 → h ∈ adds l1) ∧
      (visits log).Nodup ∧ (∀ v ∈ visits log, v < g.n_node) ∧
      (visits log).length ≤ g.n_node := by
  set g0 := with_fresh_heap (mesh_graph_reset g) with hg0
  have hlen0 : g0.nodes.length = g.nodes.length := frame_length (mesh_graph_reset_frame g)
  have hb : queue_budget g0 < fuel := by
    have h1 : queue_budget g0 ≤ (mesh_graph_reset g).nodes.length :=
      queue_budget_start (mesh_graph_reset g)
    have h2 : (mesh_graph_reset g).nodes.length = g.nodes.length :=
      frame_length (mesh_graph_reset_frame g)
    have h3 : g.nodes.length < fuel := hfuel
    omega
  have hself0 : ∀ e ∈ neighbors_at g0 0, e.node = 0 → 0 ≤ e.cost := by
    intro e he
    have h1 : neighbors_at g0 0 = neighbors_at (mesh_graph_reset g) 0 := rfl
    rw [h1, mesh_graph_reset_neighbors_at] at he
    exact hself e he
  have hstart : queue_inv g0 g0 ([] ++ [heap_event.visit 0]) := by
    refine ⟨rfl, ?_, ?_, ?_, ?_, ?_, ?_, ?_⟩
    · intro v
      have h1 : handle_at g0 v = none := mesh_graph_reset_handle_at g v
      simp [adds, h1]
    · intro v h hv
      have h1 : handle_at g0 v = none := mesh_graph_reset_handle_at g v
      rw [h1] at hv
      cases hv
    · simp [adds]
    · simp [adds]
    · simp [adds]
    · simp [visits, adds, hg0]
    · intro l1 h l2 heq
      rcases l1 with _ | ⟨a, l1⟩
      · simp at heq
      · rcases l1 with _ | ⟨b, l1⟩ <;> simp at heq
  obtain ⟨g', hloop⟩ := relax_loop_terminates pick hp fuel g0 0 hb
  obtain ⟨log, hlog, inv, hempty⟩ :=
    relax_loop_log_inv hp (by rw [hlen0]; exact hpos) hself0 fuel g0 0 g' [] hloop hstart
      (Or.inl rfl)
  rw [List.nil_append] at inv
  have hperm : (visits log).Perm (0 :: adds log) := by
    have := inv.queued
    rw [hempty, List.append_nil] at this
    exact this
  have hnd : (0 :: adds log).Nodup := List.nodup_cons.mpr ⟨inv.root_out, inv.adds_nodup⟩
  have hvnd : (visits log).Nodup := hperm.nodup_iff.mpr hnd
  have hvlt : ∀ v ∈ visits log, v < g.n_node := by
    intro v hv
    rcases List.mem_cons.mp (hperm.subset hv) with h | h
    · rw [h]; exact hpos
    · have := inv.adds_lt v h
      rw [hlen0] at this
      exact this
  refine ⟨g', aggregate_cost g', log, ?_, hlog, hempty, inv.adds_nodup, inv.root_out,
    inv.update_after_add, hvnd, hvlt, ?_⟩
  · simp only [mesh_graph_get_cost, hloop]
  · have hsub : visits log ⊆ List.range g.n_node := by
      intro v hv
      exact List.mem_range.mpr (hvlt v hv)
    have := (List.subperm_of_subset hvnd hsub).length_le
    simpa using this

/-! ## Properties of the single-precision rounding -/

theorem pow2_eq (k : ℤ) : pow2 k = (2 : ℚ) ^ k := by
  unfold pow2
  by_cases hk : 0 ≤ k
  · rw [if_pos hk]
    obtain ⟨n, rfl⟩ := Int.eq_ofNat_of_zero_le hk
    simp [zpow_natCast]
  · rw [if_neg hk]
    obtain ⟨n, hn⟩ : ∃ n : ℕ, -k = n := Int.eq_ofNat_of_zero_le (by omega)
    have hk' : k = -(n : ℤ) := by omega
    subst hk'
    simp [zpow_neg, zpow_natCast]

theorem pow2_pos (k : ℤ) : 0 < pow2 k := by
  rw [pow2_eq]; exact zpow_pos (by norm_num) k

theorem pow2_add (a b : ℤ) : pow2 (a + b) = pow2 a * pow2 b := by
  simp only [pow2_eq]; exact zpow_add₀ (by norm_num) a b

theorem pow2_le {a b : ℤ} (h : a ≤ b) : pow2 a ≤ pow2 b := by
  simp only [pow2_eq]; exact zpow_le_zpow_right₀ (by norm_num) h

theorem pow2_lt_iff {a b : ℤ} : pow2 a < pow2 b ↔ a < b := by
  simp only [pow2_eq]; exact zpow_lt_zpow_iff_right₀ (by norm_num)

theorem pow2_nat (n : ℕ) : pow2 (n : ℤ) = (2 : ℚ) ^ n := by
  rw [pow2_eq, zpow_natCast]

theorem log2_fuel_spec : ∀ (f n : Nat), n ≤ f → 1 ≤ n →
    2 ^ log2_fuel f n ≤ n ∧ n < 2 ^ (log2_fuel f n + 1) := by
  intro f
  induction f with
  | zero => intro n h1 h2; omega
  | succ f ih =>
    intro n hn h1
    simp only [log2_fuel]
    by_cases h2 : n < 2
    · rw [if_pos h2]
      have : n = 1 := by omega
      subst this
      simp
    · rw [if_neg h2]
      obtain ⟨a, b⟩ := ih (n / 2) (by omega) (by omega)
      generalize log2_fuel f (n / 2) = L at a b
      have e1 : 2 ^ (L + 1) = 2 * 2 ^ L := by ring
      have e2 : 2 ^ (L + 1 + 1) = 4 * 2 ^ L := by ring
      rw [e1] at b
      rw [e1, e2]
      generalize 2 ^ L = P at a b
      constructor <;> omega

theorem nat_log2_spec (n : Nat) (h : 1 ≤ n) :
    2 ^ nat_log2 n ≤ n ∧ n < 2 ^ (nat_log2 n + 1) :=
  log2_fuel_spec n n le_rfl h

theorem abs_eq_natAbs_div (q : ℚ) : |q| = (q.num.natAbs : ℚ) / (q.den : ℚ) := by
  have h1 : |q| = |(q.num : ℚ)| / |(q.den : ℚ)| := by
    rw [← abs_div, Rat.num_div_den]
  rw [h1, abs_of_pos (by exact_mod_cast q.den_pos : (0 : ℚ) < q.den)]
  congr 1
  rw [Nat.cast_natAbs, Int.cast_abs]

/-- The exponent brackets the magnitude. -/
theorem floor_log2_spec (q : ℚ) (hq : q ≠ 0) :
    pow2 (floor_log2 q) ≤ |q| ∧ |q| < pow2 (floor_log2 q + 1) := by
  have ha1 : 1 ≤ q.num.natAbs := by
    have : q.num ≠ 0 := Rat.num_ne_zero.mpr hq
    omega
  have hb1 : 1 ≤ q.den := q.den_pos
  obtain ⟨ha, ha'⟩ := nat_log2_spec _ ha1
  obtain ⟨hb, hb'⟩ := nat_log2_spec _ hb1
  have hA : ((2 : ℚ) ^ nat_log2 q.num.natAbs) ≤ (q.num.natAbs : ℚ) := by exact_mod_cast ha
  have hA' : (q.num.natAbs : ℚ) < (2 : ℚ) ^ nat_log2 q.num.natAbs * 2 := by
    have : (q.num.natAbs : ℚ) < ((2 ^ (nat_log2 q.num.natAbs + 1) : ℕ) : ℚ) := by
      exact_mod_cast ha'
    rw [pow_succ] at this
    exact_mod_cast this
  have hB : ((2 : ℚ) ^ nat_log2 q.den) ≤ (q.den : ℚ) := by exact_mod_cast hb
  have hB' : (q.den : ℚ) < (2 : ℚ) ^ nat_log2 q.den * 2 := by
    have : (q.den : ℚ) < ((2 ^ (nat_log2 q.den + 1) : ℕ) : ℚ) := by exact_mod_cast hb'
    rw [pow_succ] at this
    exact_mod_cast this
  have hP : (0 : ℚ) < (2 : ℚ) ^ nat_log2 q.num.natAbs := by positivity
  have hQ : (0 : ℚ) < (2 : ℚ) ^ nat_log2 q.den := by positivity
  have hBpos : (0 : ℚ) < (q.den : ℚ) := by exact_mod_cast q.den_pos
  have hk : pow2 ((nat_log2 q.num.natAbs : ℤ) - (nat_log2 q.den : ℤ)) =
      (2 : ℚ) ^ nat_log2 q.num.natAbs / (2 : ℚ) ^ nat_log2 q.den := by
    rw [pow2_eq, zpow_sub₀ (by norm_num), zpow_natCast, zpow_natCast]
  have hup : |q| < pow2 ((nat_log2 q.num.natAbs : ℤ) - (nat_log2 q.den : ℤ) + 1) := by
    rw [pow2_add, hk, abs_eq_natAbs_div]
    have h2 : pow2 1 = 2 := by rw [pow2_eq]; norm_num
    rw [h2, div_mul_eq_mul_div, div_lt_div_iff₀ hBpos hQ]
    nlinarith
  have hlo : pow2 ((nat_log2 q.num.natAbs : ℤ) - (nat_log2 q.den : ℤ) - 1) ≤ |q| := by
    have h3 : pow2 ((nat_log2 q.num.natAbs : ℤ) - (nat_log2 q.den : ℤ) - 1) =
        pow2 ((nat_log2 q.num.natAbs : ℤ) - (nat_log2 q.den : ℤ)) * pow2 (-1) := by
      rw [← pow2_add]; congr 1
    have h2 : pow2 (-1) = 1 / 2 := by rw [pow2_eq]; norm_num
    rw [h3, hk, h2, abs_eq_natAbs_div, div_mul_eq_mul_div, div_le_div_iff₀ hQ hBpos]
    nlinarith
  unfold floor_log2
  simp only
  by_cases hc : pow2 ((nat_log2 q.num.natAbs : ℤ) - (nat_log2 q.den : ℤ)) ≤ |q|
  · rw [if_pos hc]
    exact ⟨hc, hup⟩
  · rw [if_neg hc]
    refine ⟨hlo, ?_⟩
    have : (nat_log2 q.num.natAbs : ℤ) - (nat_log2 q.den : ℤ) - 1 + 1 =
        (nat_log2 q.num.natAbs : ℤ) - (nat_log2 q.den : ℤ) := by ring
    rw [this]
    exact not_le.mp hc

/-- The exponent is determined by the bracket. -/
theorem floor_log2_unique (q : ℚ) (e : ℤ) (h1 : pow2 e ≤ |q|) (h2 : |q| < pow2 (e + 1)) :
    floor_log2 q = e := by
  have hq : q ≠ 0 := by
    intro h
    rw [h, abs_zero] at h1
    exact absurd h1 (not_le.mpr (pow2_pos e))
  obtain ⟨s1, s2⟩ := floor_log2_spec q hq
  have a : e < floor_log2 q + 1 := pow2_lt_iff.mp (lt_of_le_of_lt h1 s2)
  have b : floor_log2 q < e + 1 := pow2_lt_iff.mp (lt_of_le_of_lt s1 h2)
  omega

theorem round_half_even_cases (q : ℚ) :
    round_half_even q = ⌊q⌋ ∨ round_half_even q = ⌊q⌋ + 1 := by
  unfold round_half_even
  split_ifs <;> simp

theorem round_half_even_intCast (z : ℤ) : round_half_even (z : ℚ) = z := by
  unfold round_half_even
  simp

/-- An integer below the argument is below the rounded value. -/
theorem le_round_half_even {n : ℤ} {q : ℚ} (h : (n : ℚ) ≤ q) : n ≤ round_half_even q := by
  have hf : n ≤ ⌊q⌋ := Int.le_floor.mpr h
  rcases round_half_even_cases q with h1 | h1 <;> omega

/-- An integer above the argument is above the rounded value. -/
theorem round_half_even_le {n : ℤ} {q : ℚ} (h : q ≤ (n : ℚ)) : round_half_even q ≤ n := by
  rcases eq_or_lt_of_le h with heq | hlt
  · rw [heq, round_half_even_intCast]
  · have hf : ⌊q⌋ < n := Int.floor_lt.mpr hlt
    rcases round_half_even_cases q with h1 | h1 <;> omega

theorem round_half_even_mono {x y : ℚ} (h : x ≤ y) :
    round_half_even x ≤ round_half_even y := by
  have hfl : ⌊x⌋ ≤ ⌊y⌋ := Int.floor_mono h
  rcases lt_or_eq_of_le hfl with hlt | heq
  · have h1 : round_half_even x ≤ ⌊x⌋ + 1 := by
      rcases round_half_even_cases x with h | h <;> omega
    have h2 : ⌊y⌋ ≤ round_half_even y := by
      rcases round_half_even_cases y with h | h <;> omega
    omega
  · unfold round_half_even
    rw [← heq]
    have hxy : x - (⌊x⌋ : ℚ) ≤ y - (⌊x⌋ : ℚ) := by linarith
    split_ifs <;> first | omega | linarith

/-- The rounded value is within one half of the argument. -/
theorem round_half_even_near (q : ℚ) :
    (round_half_even q : ℚ) - 1 / 2 ≤ q ∧ q ≤ (round_half_even q : ℚ) + 1 / 2 := by
  have h1 := Int.floor_le q
  have h2 := Int.lt_floor_add_one q
  unfold round_half_even
  split_ifs <;> push_cast <;> constructor <;> linarith

theorem f32_ulp_pos (q : ℚ) : 0 < f32_ulp q := pow2_pos _

theorem f32_round_zero : f32_round 0 = 0 := by simp [f32_round]

/-- The rounding written out for a value of known exponent. -/
theorem f32_round_of_exponent (q : ℚ) (e : ℤ) (h1 : pow2 e ≤ |q|) (h2 : |q| < pow2 (e + 1)) :
    f32_round q =
      (round_half_even (q / pow2 (max e (-126) - 23)) : ℚ) * pow2 (max e (-126) - 23) := by
  have hq : q ≠ 0 := by
    intro h
    rw [h, abs_zero] at h1
    exact absurd h1 (not_le.mpr (pow2_pos e))
  unfold f32_round f32_ulp
  rw [if_neg hq, floor_log2_unique q e h1 h2]

theorem f32_round_nonneg {q : ℚ} (h : 0 ≤ q) : 0 ≤ f32_round q := by
  unfold f32_round
  split_ifs
  · exact le_refl _
  · have h1 : ((0 : ℤ) : ℚ) ≤ q / f32_ulp q := by
      push_cast
      exact div_nonneg h (le_of_lt (f32_ulp_pos q))
    have h2 : (0 : ℤ) ≤ round_half_even (q / f32_ulp q) := le_round_half_even h1
    exact mul_nonneg (by exact_mod_cast h2) (le_of_lt (f32_ulp_pos q))

theorem f32_round_nonpos {q : ℚ} (h : q ≤ 0) : f32_round q ≤ 0 := by
  unfold f32_round
  split_ifs
  · exact le_refl _
  · have h1 : q / f32_ulp q ≤ ((0 : ℤ) : ℚ) := by
      push_cast
      exact div_nonpos_of_nonpos_of_nonneg h (le_of_lt (f32_ulp_pos q))
    have h2 : round_half_even (q / f32_ulp q) ≤ (0 : ℤ) := round_half_even_le h1
    exact mul_nonpos_of_nonpos_of_nonneg (by exact_mod_cast h2) (le_of_lt (f32_ulp_pos q))

/-- A number `M * 2^k` with `|M| < 2^24` and `k ≥ -149` is a binary32 number: rounding
leaves it as it is. -/
theorem f32_round_representable (M k : ℤ) (hM : |M| < 2 ^ 24) (hk : -149 ≤ k) :
    f32_round ((M : ℚ) * pow2 k) = (M : ℚ) * pow2 k := by
  by_cases h0 : M = 0
  · simp [h0, f32_round]
  obtain ⟨q, hqd⟩ : ∃ q : ℚ, q = (M : ℚ) * pow2 k := ⟨_, rfl⟩
  rw [← hqd]
  have hq : q ≠ 0 := by
    rw [hqd]
    exact mul_ne_zero (by exact_mod_cast h0) (ne_of_gt (pow2_pos k))
  obtain ⟨s1, _⟩ := floor_log2_spec _ hq
  have hMq : |(M : ℚ)| < pow2 24 := by
    have h1 : ((|M| : ℤ) : ℚ) < ((2 ^ 24 : ℤ) : ℚ) := by exact_mod_cast hM
    rw [Int.cast_abs] at h1
    have h2 : pow2 24 = ((2 ^ 24 : ℤ) : ℚ) := by rw [pow2_eq]; norm_num
    rw [h2]; exact h1
  have hlt : |q| < pow2 (k + 24) := by
    rw [hqd, abs_mul, abs_of_pos (pow2_pos k), pow2_add, mul_comm]
    exact mul_lt_mul_of_pos_left hMq (pow2_pos k)
  have he : floor_log2 q < k + 24 := pow2_lt_iff.mp (lt_of_le_of_lt s1 hlt)
  obtain ⟨j, hj⟩ : ∃ j : ℕ, k - (max (floor_log2 q) (-126) - 23) = j :=
    Int.eq_ofNat_of_zero_le (by omega)
  have hk2 : pow2 k = pow2 (max (floor_log2 q) (-126) - 23) * pow2 (j : ℤ) := by
    rw [← pow2_add]; congr 1; omega
  have hu := pow2_pos (max (floor_log2 q) (-126) - 23)
  have h3 : (M : ℚ) * pow2 k =
      ((M * 2 ^ j : ℤ) : ℚ) * pow2 (max (floor_log2 q) (-126) - 23) := by
    rw [hk2, pow2_nat]
    push_cast
    ring
  have hq2 : q = ((M * 2 ^ j : ℤ) : ℚ) * pow2 (max (floor_log2 q) (-126) - 23) :=
    hqd.trans h3
  have hdiv : q / pow2 (max (floor_log2 q) (-126) - 23) = ((M * 2 ^ j : ℤ) : ℚ) := by
    rw [div_eq_iff (ne_of_gt hu)]
    exact hq2
  unfold f32_round f32_ulp
  rw [if_neg hq, hdiv, round_half_even_intCast]
  exact hq2.symm

/-- Every integer of magnitude at most `2^24` is a binary32 number. -/
theorem f32_round_int (z : ℤ) (hz : |z| ≤ 2 ^ 24) : f32_round (z : ℚ) = (z : ℚ) := by
  rcases lt_or_eq_of_le hz with h | h
  · have := f32_round_representable z 0 h (by norm_num)
    have h1 : pow2 0 = 1 := by rw [pow2_eq]; norm_num
    rw [h1, mul_one] at this
    exact this
  · have h2 : pow2 1 = 2 := by rw [pow2_eq]; norm_num
    rcases abs_eq (by norm_num : (0 : ℤ) ≤ 2 ^ 24) |>.mp h with h3 | h3
    · have := f32_round_representable (2 ^ 23) 1 (by norm_num) (by norm_num)
      rw [h2] at this
      rw [h3]
      norm_num at this ⊢
      exact this
    · have := f32_round_representable (-2 ^ 23) 1 (by norm_num) (by norm_num)
      rw [h2] at this
      rw [h3]
      norm_num at this ⊢
      exact this

theorem f32_round_nat (n : ℕ) (hn : n ≤ 2 ^ 24) : f32_round (n : ℚ) = (n : ℚ) := by
  have := f32_round_int (n : ℤ) (by rw [abs_of_nonneg (by omega)]; exact_mod_cast hn)
  exact_mod_cast this

/-- Rounding is monotone on the non-negative numbers. -/
theorem f32_round_mono {q1 q2 : ℚ} (h0 : 0 ≤ q1) (h : q1 ≤ q2) :
    f32_round q1 ≤ f32_round q2 := by
  rcases eq_or_lt_of_le h0 with hz | hpos
  · rw [← hz, f32_round_zero]
    exact f32_round_nonneg (le_trans h0 h)
  have hpos2 : 0 < q2 := lt_of_lt_of_le hpos h
  have hq1 : q1 ≠ 0 := ne_of_gt hpos
  have hq2 : q2 ≠ 0 := ne_of_gt hpos2
  obtain ⟨a1, b1⟩ := floor_log2_spec q1 hq1
  obtain ⟨a2, b2⟩ := floor_log2_spec q2 hq2
  rw [abs_of_pos hpos] at a1 b1
  rw [abs_of_pos hpos2] at a2 b2
  have he : floor_log2 q1 ≤ floor_log2 q2 := by
    have : floor_log2 q1 < floor_log2 q2 + 1 :=
      pow2_lt_iff.mp (lt_of_le_of_lt a1 (lt_of_le_of_lt h b2))
    omega
  unfold f32_round f32_ulp
  rw [if_neg hq1, if_neg hq2]
  generalize floor_log2 q1 = e1 at a1 b1 he
  generalize floor_log2 q2 = e2 at a2 b2 he
  rcases eq_or_lt_of_le (max_le_max_right (-126) he) with hE | hE
  · rw [hE]
    have hu := pow2_pos (max e2 (-126) - 23)
    apply mul_le_mul_of_nonneg_right _ (le_of_lt hu)
    have : q1 / pow2 (max e2 (-126) - 23) ≤ q2 / pow2 (max e2 (-126) - 23) :=
      div_le_div_of_nonneg_right h (le_of_lt hu)
    exact_mod_cast round_half_even_mono this
  · have hu1 := pow2_pos (max e1 (-126) - 23)
    have hu2 := pow2_pos (max e2 (-126) - 23)
    have hE2 : max e2 (-126) = e2 := by omega
    have up : (round_half_even (q1 / pow2 (max e1 (-126) - 23)) : ℚ) *
        pow2 (max e1 (-126) - 23) ≤ pow2 (max e1 (-126) + 1) := by
      have h1 : q1 / pow2 (max e1 (-126) - 23) ≤ ((2 ^ 24 : ℤ) : ℚ) := by
        rw [div_le_iff₀ hu1]
        have h2 : ((2 ^ 24 : ℤ) : ℚ) * pow2 (max e1 (-126) - 23) = pow2 (max e1 (-126) + 1) := by
          have : ((2 ^ 24 : ℤ) : ℚ) = pow2 24 := by rw [pow2_eq]; norm_num
          rw [this, ← pow2_add]; congr 1; ring
        rw [h2]
        exact le_trans (le_of_lt b1) (pow2_le (by omega))
      have h3 := round_half_even_le h1
      have h4 : (round_half_even (q1 / pow2 (max e1 (-126) - 23)) : ℚ) ≤ ((2 ^ 24 : ℤ) : ℚ) := by
        exact_mod_cast h3
      have h2 : ((2 ^ 24 : ℤ) : ℚ) * pow2 (max e1 (-126) - 23) = pow2 (max e1 (-126) + 1) := by
        have : ((2 ^ 24 : ℤ) : ℚ) = pow2 24 := by rw [pow2_eq]; norm_num
        rw [this, ← pow2_add]; congr 1; ring
      rw [← h2]
      exact mul_le_mul_of_nonneg_right h4 (le_of_lt hu1)
    have lo : pow2 e2 ≤ (round_half_even (q2 / pow2 (max e2 (-126) - 23)) : ℚ) *
        pow2 (max e2 (-126) - 23) := by
      rw [hE2]
      have hu3 := pow2_pos (e2 - 23)
      have h2 : ((2 ^ 23 : ℤ) : ℚ) * pow2 (e2 - 23) = pow2 e2 := by
        have : ((2 ^ 23 : ℤ) : ℚ) = pow2 23 := by rw [pow2_eq]; norm_num
        rw [this, ← pow2_add]; congr 1; ring
      have h1 : ((2 ^ 23 : ℤ) : ℚ) ≤ q2 / pow2 (e2 - 23) := by
        rw [le_div_iff₀ hu3, h2]
        exact a2
      have h3 := le_round_half_even h1
      have h4 : ((2 ^ 23 : ℤ) : ℚ) ≤ (round_half_even (q2 / pow2 (e2 - 23)) : ℚ) := by
        exact_mod_cast h3
      rw [← h2]
      exact mul_le_mul_of_nonneg_right h4 (le_of_lt hu3)
    exact le_trans up (le_trans (pow2_le (by omega)) lo)

/-- A binary32 number below the argument is below the rounded value. -/
theorem f32_round_ge {y q : ℚ} (hy : f32_round y = y) (h0 : 0 ≤ y) (h : y ≤ q) :
    y ≤ f32_round q := by
  rw [← hy]; exact f32_round_mono h0 h

/-- A non-negative binary32 number above the argument is above the rounded value. -/
theorem f32_round_le {y q : ℚ} (hy : f32_round y = y) (h0 : 0 ≤ y) (h : q ≤ y) :
    f32_round q ≤ y := by
  rcases le_or_lt 0 q with hq | hq
  · rw [← hy]; exact f32_round_mono hq h
  · exact le_trans (f32_round_nonpos (le_of_lt hq)) h0

/-! ## The relaxation in single precision: termination and frame -/

theorem f32_add_cost_top (c : ℚ) : f32_add_cost ⊤ c = ⊤ := rfl

theorem f32_add_cost_coe (x c : ℚ) :
    f32_add_cost (x : WithTop ℚ) c =
      if f32_round (x + c) < 2 ^ 128 then ((f32_round (x + c) : ℚ) : WithTop ℚ) else ⊤ := rfl

theorem visit_neighbor_f32_of_eq (i : Nat) (g : mesh_graph) (e e' : mesh_node_neighbor)
    (hn : e'.node = e.node)
    (hc : heap_key g i + (e'.cost : WithTop ℚ) = f32_add_cost (heap_key g i) e.cost) :
    visit_neighbor_f32 i g e = visit_neighbor i g e' := by
  rcases hi : g.nodes[i]? with _ | nd
  · simp [visit_neighbor_f32, visit_neighbor, hi]
  · have hkey : heap_key g i = nd.min_cost := by simp [heap_key, hi]
    rw [hkey] at hc
    rcases hj : g.nodes[e.node]? with _ | t
    · simp [visit_neighbor_f32, visit_neighbor, hi, hj, hn]
    · simp only [visit_neighbor_f32, visit_neighbor, hi, hj, hn, hc]

theorem visit_neighbor_f32_of_top (i : Nat) (g : mesh_graph) (e : mesh_node_neighbor)
    (hc : f32_add_cost (heap_key g i) e.cost = ⊤) : visit_neighbor_f32 i g e = g := by
  rcases hi : g.nodes[i]? with _ | nd
  · simp [visit_neighbor_f32, hi]
  · have hkey : heap_key g i = nd.min_cost := by simp [heap_key, hi]
    rw [hkey] at hc
    rcases hj : g.nodes[e.node]? with _ | t
    · simp [visit_neighbor_f32, hi, hj]
    · simp [visit_neighbor_f32, hi, hj, hc]

/-- An iteration in single precision is an exact iteration on an edge of adjusted cost:
either it changes nothing, or it writes the rounded sum on the same neighbour. -/
theorem visit_neighbor_f32_eq (i : Nat) (g : mesh_graph) (e : mesh_node_neighbor) :
    ∃ e' : mesh_node_neighbor, visit_neighbor_f32 i g e = visit_neighbor i g e' ∧
      (visit_neighbor i g e' = g ∨
        (e'.node = e.node ∧
          heap_key g i + (e'.cost : WithTop ℚ) = f32_add_cost (heap_key g i) e.cost)) := by
  obtain ⟨m, hm⟩ : ∃ m, heap_key g i = m := ⟨_, rfl⟩
  induction m using WithTop.recTopCoe with
  | top =>
    have hc : heap_key g i + (e.cost : WithTop ℚ) = f32_add_cost (heap_key g i) e.cost := by
      rw [hm, f32_add_cost_top, WithTop.top_add]
    exact ⟨e, visit_neighbor_f32_of_eq i g e e rfl hc, Or.inr ⟨rfl, hc⟩⟩
  | coe x =>
    by_cases hov : f32_round (x + e.cost) < 2 ^ 128
    · have hc : heap_key g i + ((f32_round (x + e.cost) - x : ℚ) : WithTop ℚ) =
          f32_add_cost (heap_key g i) e.cost := by
        rw [hm, f32_add_cost_coe, if_pos hov, ← WithTop.coe_add]
        congr 1; ring
      exact ⟨{ node := e.node, cost := f32_round (x + e.cost) - x },
        visit_neighbor_f32_of_eq i g e _ rfl hc, Or.inr ⟨rfl, hc⟩⟩
    · have h1 : visit_neighbor_f32 i g e = g := by
        apply visit_neighbor_f32_of_top
        rw [hm, f32_add_cost_coe, if_neg hov]
      have h2 : visit_neighbor i g { node := g.nodes.length, cost := 0 } = g := by
        have h3 : g.nodes[g.nodes.length]? = none := List.getElem?_eq_none (le_refl _)
        rcases hi : g.nodes[i]? with _ | nd <;> simp [visit_neighbor, hi, h3]
      exact ⟨{ node := g.nodes.length, cost := 0 }, h1.trans h2.symm, Or.inl h2⟩

/-- A property kept by every exact iteration is kept by every iteration in single
precision. -/
theorem visit_neighbor_f32_keeps {P : mesh_graph → Prop} (i : Nat) (g : mesh_graph)
    (e : mesh_node_neighbor) (h : ∀ e', P (visit_neighbor i g e')) :
    P (visit_neighbor_f32 i g e) := by
  obtain ⟨e', heq, _⟩ := visit_neighbor_f32_eq i g e
  rw [heq]; exact h e'

theorem mesh_node_visit_neighbors_f32_eq (g : mesh_graph) (i : Nat)
    (hi : i < g.nodes.length) :
    mesh_node_visit_neighbors_f32 g i =
      { relax_edges_f32 g i with
        nodes := (relax_edges_f32 g i).nodes.modify (fun nd => { nd with visited := true }) i } := by
  have h := List.getElem?_eq_getElem hi
  simp only [mesh_node_visit_neighbors_f32, relax_edges_f32, enabled_at, neighbors_at, h]

theorem mesh_node_visit_neighbors_f32_out (g : mesh_graph) (i : Nat)
    (hi : g.nodes.length ≤ i) : mesh_node_visit_neighbors_f32 g i = g := by
  simp [mesh_node_visit_neighbors_f32, List.getElem?_eq_none hi]

theorem foldl_visit_f32_induct {P : mesh_graph → Prop} (i : Nat)
    (l : List mesh_node_neighbor) :
    ∀ g, P g → (∀ g' e, e ∈ l → P g' → P (visit_neighbor_f32 i g' e)) →
      P (l.foldl (visit_neighbor_f32 i) g) := by
  induction l with
  | nil => intro g h _; simpa using h
  | cons a l ih =>
    intro g h hstep
    simp only [List.foldl_cons]
    apply ih
    · exact hstep g a (List.mem_cons_self _ _) h
    · intro g' e he hg'
      exact hstep g' e (List.mem_cons_of_mem _ he) hg'

theorem relax_edges_f32_induct {P : mesh_graph → Prop} (g : mesh_graph) (i : Nat) (h0 : P g)
    (hstep : ∀ g' e, e ∈ neighbors_at g i → enabled_at g i = true → P g' →
      P (visit_neighbor_f32 i g' e)) :
    P (relax_edges_f32 g i) := by
  unfold relax_edges_f32
  by_cases hen : enabled_at g i = true
  · rw [if_pos hen]
    exact foldl_visit_f32_induct i _ g h0 (fun g' e he hg' => hstep g' e he hen hg')
  · rw [if_neg hen]
    exact h0

/-- Effect of the neighbour loop in single precision on the fields it never writes. -/
theorem relax_edges_f32_frame (g : mesh_graph) (i : Nat) :
    (relax_edges_f32 g i).nodes.map frame = g.nodes.map frame ∧
      (∀ v, visited_at (relax_edges_f32 g i) v = visited_at g v) ∧
      queue_budget (relax_edges_f32 g i) = queue_budget g := by
  apply relax_edges_f32_induct (P := fun g' => g'.nodes.map frame = g.nodes.map frame ∧
      (∀ v, visited_at g' v = visited_at g v) ∧ queue_budget g' = queue_budget g) g i
    ⟨rfl, fun _ => rfl, rfl⟩
  intro g' e _ _ hg'
  apply visit_neighbor_f32_keeps (P := fun gx => gx.nodes.map frame = g.nodes.map frame ∧
      (∀ v, visited_at gx v = visited_at g v) ∧ queue_budget gx = queue_budget g) i g' e
  intro e'
  have hs := visit_neighbor_spec i g' e'
  exact ⟨hs.1.trans hg'.1, fun v => (hs.2.1 v).trans (hg'.2.1 v),
    (queue_budget_visit_neighbor i g' e').trans hg'.2.2⟩

/-- Effect of `mesh_node_visit_neighbors` in single precision relative to the state after
its neighbour loop. -/
theorem visit_mark_f32 (g : mesh_graph) (i : Nat) (hi : i < g.nodes.length) :
    (mesh_node_visit_neighbors_f32 g i).min_heap = (relax_edges_f32 g i).min_heap ∧
    (mesh_node_visit_neighbors_f32 g i).nodes.map frame = g.nodes.map frame ∧
    (∀ v, heap_key (mesh_node_visit_neighbors_f32 g i) v = heap_key (relax_edges_f32 g i) v) ∧
    (∀ v, handle_at (mesh_node_visit_neighbors_f32 g i) v =
      handle_at (relax_edges_f32 g i) v) ∧
    (∀ v, visited_at (mesh_node_visit_neighbors_f32 g i) v =
      if v = i then true else visited_at g v) := by
  have hf := relax_edges_f32_frame g i
  have hl : i < (relax_edges_f32 g i).nodes.length := by rw [frame_length hf.1]; exact hi
  rw [mesh_node_visit_neighbors_f32_eq g i hi]
  refine ⟨rfl, ?_, ?_, ?_, ?_⟩
  · rw [← hf.1]
    apply List.ext_getElem?
    intro v
    simp only [List.getElem?_map, List.getElem?_modify]
    rcases h : (relax_edges_f32 g i).nodes[v]? with _ | a
    · simp
    · by_cases hv : i = v <;> simp [hv, frame]
  · intro v
    simp only [heap_key, List.getElem?_modify]
    rcases h : (relax_edges_f32 g i).nodes[v]? with _ | a
    · simp
    · by_cases hv : i = v <;> simp [hv]
  · intro v
    simp only [handle_at, List.getElem?_modify]
    rcases h : (relax_edges_f32 g i).nodes[v]? with _ | a
    · simp
    · by_cases hv : i = v <;> simp [hv]
  · intro v
    rw [← hf.2.1 v]
    simp only [visited_at, List.getElem?_modify]
    by_cases hv : v = i
    · subst hv
      simp [List.getElem?_eq_getElem hl]
    · have hv' : ¬ i = v := fun c => hv c.symm
      rcases h : (relax_edges_f32 g i).nodes[v]? with _ | a <;> simp [hv, hv']

theorem visit_f32_frame (g : mesh_graph) (i : Nat) :
    (mesh_node_visit_neighbors_f32 g i).nodes.map frame = g.nodes.map frame := by
  by_cases hi : i < g.nodes.length
  · exact (visit_mark_f32 g i hi).2.1
  · rw [mesh_node_visit_neighbors_f32_out g i (Nat.le_of_not_lt hi)]

theorem queue_budget_visit_f32 (g : mesh_graph) (i : Nat) :
    queue_budget (mesh_node_visit_neighbors_f32 g i) = queue_budget g := by
  by_cases hi : i < g.nodes.length
  · rw [mesh_node_visit_neighbors_f32_eq g i hi]
    have h1 := relax_edges_f32_frame g i
    have hi' : i < (relax_edges_f32 g i).nodes.length := by
      rw [frame_length h1.1]; exact hi
    rw [← h1.2.2]
    have hle := List.boole_getElem_le_countP (fun nd : mesh_node => nd.heap_value.isNone)
      (relax_edges_f32 g i).nodes i hi'
    simp only [queue_budget, modify_eq_set_getElem _ _ _ hi', List.countP_set _ _ _ _ hi']
    split at hle <;> simp_all
  · rw [mesh_node_visit_neighbors_f32_out g i (Nat.le_of_not_lt hi)]

/-- The relaxation loop in single precision returns once the fuel exceeds the queue
budget. -/
theorem relax_loop_f32_terminates (pick : (Nat → WithTop ℚ) → List Nat → Option Nat)
    (hp : heap_contract pick) :
    ∀ (fuel : Nat) (g : mesh_graph) (u : Nat), queue_budget g < fuel →
      ∃ g', relax_loop_f32 pick fuel g u = some g' := by
  intro fuel
  induction fuel with
  | zero => intro g u h; omega
  | succ fuel ih =>
    intro g u h
    simp only [relax_loop_f32]
    rcases hpop : heap_pop pick (mesh_node_visit_neighbors_f32 g u) with _ | ⟨m, g2⟩
    · exact ⟨_, rfl⟩
    · simp only
      apply ih
      obtain ⟨hpk, hg2⟩ := heap_pop_some hpop
      have hm := ((hp _ _).2.2 _ hpk).1
      have hb := queue_budget_visit_f32 g u
      rw [hg2]
      simp only [queue_budget] at hb h ⊢
      rw [List.length_erase_of_mem hm]
      have : 0 < (mesh_node_visit_neighbors_f32 g u).min_heap.length :=
        List.length_pos_of_mem hm
      omega

/-- Induction over the iterations of the relaxation loop in single precision. -/
theorem relax_loop_f32_induct (pick : (Nat → WithTop ℚ) → List Nat → Option Nat)
    (I : mesh_graph → Nat → Prop) (F : mesh_graph → Prop)
    (hstep : ∀ g u m g2, I g u →
      heap_pop pick (mesh_node_visit_neighbors_f32 g u) = some (m, g2) → I g2 m)
    (hfin : ∀ g u, I g u → heap_pop pick (mesh_node_visit_neighbors_f32 g u) = none →
      F (mesh_node_visit_neighbors_f32 g u)) :
    ∀ (fuel : Nat) (g : mesh_graph) (u : Nat) (g' : mesh_graph), I g u →
      relax_loop_f32 pick fuel g u = some g' → F g' := by
  intro fuel
  induction fuel with
  | zero => intro g u g' _ h; simp [relax_loop_f32] at h
  | succ fuel ih =>
    intro g u g' hI h
    simp only [relax_loop_f32] at h
    rcases hpop : heap_pop pick (mesh_node_visit_neighbors_f32 g u) with _ | ⟨m, g2⟩
    · rw [hpop] at h
      simp only [Option.some.injEq] at h
      rw [← h]
      exact hfin g u hI hpop
    · rw [hpop] at h
      exact ih g2 m g' (hstep g u m g2 hI hpop) h

/-- Termination and loop induction combined, in single precision. -/
theorem relax_loop_f32_total {pick : (Nat → WithTop ℚ) → List Nat → Option Nat}
    (hp : heap_contract pick) (I : mesh_graph → Nat → Prop) (F : mesh_graph → Prop)
    (hstep : ∀ g u m g2, I g u →
      heap_pop pick (mesh_node_visit_neighbors_f32 g u) = some (m, g2) → I g2 m)
    (hfin : ∀ g u, I g u → heap_pop pick (mesh_node_visit_neighbors_f32 g u) = none →
      F (mesh_node_visit_neighbors_f32 g u))
    (g : mesh_graph) (u : Nat) (fuel : Nat) (hb : queue_budget g < fuel) (hI : I g u) :
    ∃ g', relax_loop_f32 pick fuel g u = some g' ∧ F g' := by
  obtain ⟨g', hg'⟩ := relax_loop_f32_terminates pick hp fuel g u hb
  exact ⟨g', hg', relax_loop_f32_induct pick I F hstep hfin fuel g u g' hI hg'⟩

/-- The pass of `mesh_graph_get_cost` in single precision returns for any fuel above the
number of nodes, and leaves the fields outside the relaxation as they were. -/
theorem mesh_graph_get_cost_f32_total {pick : (Nat → WithTop ℚ) → List Nat → Option Nat}
    (hp : heap_contract pick) (g : mesh_graph) (fuel : Nat) (hfuel : g.n_node < fuel) :
    ∃ g', mesh_graph_get_cost_f32 pick fuel g = some (g', aggregate_cost_f32 g') ∧
      g'.nodes.map frame = g.nodes.map frame := by
  have hb : queue_budget (with_fresh_heap g) < fuel := by
    have h1 := queue_budget_start g
    have h2 : g.nodes.length < fuel := hfuel
    omega
  obtain ⟨g', hloop, hfr⟩ := relax_loop_f32_total hp
    (fun gk _ => gk.nodes.map frame = g.nodes.map frame)
    (fun gk => gk.nodes.map frame = g.nodes.map frame)
    (by
      intro gk u m g2 hI hpop
      obtain ⟨_, hg2⟩ := heap_pop_some hpop
      rw [hg2]
      exact (visit_f32_frame gk u).trans hI)
    (by
      intro gk u hI _
      exact (visit_f32_frame gk u).trans hI)
    (with_fresh_heap g) 0 fuel hb rfl
  refine ⟨g', ?_, hfr⟩
  simp only [mesh_graph_get_cost_f32, hloop]

/-! ## The graph built by `mesh_graph_new` in single precision -/

theorem init_nodes_f32_getElem? (n : Nat) (pos : Nat → ℚ × ℚ) (j : Nat) (hj : j < n) :
    (init_nodes_f32 n pos)[j]? =
      some (mesh_node_init j (node_pos_f32 pos j).1 (node_pos_f32 pos j).2) := by
  simp only [init_nodes_f32, List.getElem?_map, List.getElem?_range hj, Option.map_some',
    node_pos_f32]
  by_cases h : j = 0
  · subst h; simp
  · simp [h]

theorem add_neighbor_f32_eq (n : Nat) (pos : Nat → ℚ × ℚ) (i j : Nat) (hj : j < n)
    (A : mesh_node) (hx : A.x = (node_pos_f32 pos i).1) (hy : A.y = (node_pos_f32 pos i).2) :
    add_neighbor_f32 (init_nodes_f32 n pos) i A j =
      { A with neighbors := A.neighbors ++ (new_edge_f32 pos i j).toList } := by
  have hd : mesh_node_get_dis_f32 A
      (mesh_node_init j (node_pos_f32 pos j).1 (node_pos_f32 pos j).2) = dist_f32 pos i j := by
    simp [mesh_node_get_dis_f32, dist_f32, hx, hy, mesh_node_init]
  have hcut : CUTOFF_DISTANCE = 10 := rfl
  simp only [add_neighbor_f32, init_nodes_f32_getElem? n pos j hj, hd, new_edge_f32, hcut,
    edge_cost_f32]
  by_cases hij : i = j
  · simp [hij]
  · by_cases hlt : dist_f32 pos i j < 10
    · by_cases hi0 : i = 0
      · subst hi0; simp [hij, hlt]
      · by_cases hj0 : j = 0
        · subst hj0; simp [hlt, hi0]
        · simp [hij, hlt, hi0, hj0]
    · simp [hij, hlt]

theorem foldl_add_neighbor_f32 (n : Nat) (pos : Nat → ℚ × ℚ) (i : Nat) :
    ∀ (k : Nat), k ≤ n → ∀ (A : mesh_node), A.x = (node_pos_f32 pos i).1 →
      A.y = (node_pos_f32 pos i).2 →
      (List.range k).foldl (add_neighbor_f32 (init_nodes_f32 n pos) i) A =
        { A with
          neighbors := A.neighbors ++ (List.range k).filterMap (new_edge_f32 pos i) } := by
  intro k
  induction k with
  | zero => intro _ A _ _; simp
  | succ k ih =>
    intro hk A hx hy
    rw [List.range_succ, List.foldl_append, ih (by omega) A hx hy]
    simp only [List.foldl_cons, List.foldl_nil]
    have h := add_neighbor_f32_eq n pos i k (by omega)
      { A with neighbors := A.neighbors ++ (List.range k).filterMap (new_edge_f32 pos i) }
      hx hy
    rw [h]
    simp only [List.filterMap_append, List.append_assoc]
    congr 2

/-- The nodes built by `mesh_graph_new` in single precision. -/
theorem mesh_graph_new_f32_getElem? (n : Nat) (pos : Nat → ℚ × ℚ) (i : Nat) (hi : i < n) :
    (mesh_graph_new_f32 n pos).nodes[i]? =
      some { mesh_node_init i (node_pos_f32 pos i).1 (node_pos_f32 pos i).2 with
        neighbors := (List.range n).filterMap (new_edge_f32 pos i) } := by
  have h0 : (mesh_graph_new_f32 n pos).nodes =
      (init_nodes_f32 n pos).mapIdx fun i A =>
        (List.range n).foldl (add_neighbor_f32 (init_nodes_f32 n pos) i) A := rfl
  rw [h0, List.getElem?_mapIdx, init_nodes_f32_getElem? n pos i hi]
  simp only [Option.map_some']
  rw [foldl_add_neighbor_f32 n pos i n le_rfl _ rfl rfl]
  simp [mesh_node_init]

theorem mesh_graph_new_f32_length (n : Nat) (pos : Nat → ℚ × ℚ) :
    (mesh_graph_new_f32 n pos).nodes.length = n := by
  have h0 : (mesh_graph_new_f32 n pos).nodes =
      (init_nodes_f32 n pos).mapIdx fun i A =>
        (List.range n).foldl (add_neighbor_f32 (init_nodes_f32 n pos) i) A := rfl
  rw [h0, List.length_mapIdx]
  simp [init_nodes_f32]

theorem mesh_graph_new_f32_neighbors_at (n : Nat) (pos : Nat → ℚ × ℚ) (i : Nat)
    (hi : i < n) :
    neighbors_at (mesh_graph_new_f32 n pos) i =
      (List.range n).filterMap (new_edge_f32 pos i) := by
  simp [neighbors_at, mesh_graph_new_f32_getElem? n pos i hi]

theorem mem_new_edges_f32 (n : Nat) (pos : Nat → ℚ × ℚ) (i : Nat) (e : mesh_node_neighbor) :
    e ∈ (List.range n).filterMap (new_edge_f32 pos i) ↔
      e.node < n ∧ i ≠ e.node ∧ dist_f32 pos i e.node < 10 ∧
        e.cost = edge_cost_f32 pos i e.node := by
  simp only [List.mem_filterMap, List.mem_range, new_edge_f32]
  constructor
  · rintro ⟨j, hj, h⟩
    by_cases hc : i ≠ j ∧ dist_f32 pos i j < 10
    · rw [if_pos hc] at h
      simp only [Option.some.injEq] at h
      subst h
      exact ⟨hj, hc.1, hc.2, rfl⟩
    · rw [if_neg hc] at h
      cases h
  · rintro ⟨hj, hne, hlt, hcost⟩
    refine ⟨e.node, hj, ?_⟩
    rw [if_pos ⟨hne, hlt⟩, ← hcost]

theorem mem_neighbors_new_f32 (n : Nat) (pos : Nat → ℚ × ℚ) (i : Nat)
    (e : mesh_node_neighbor) :
    e ∈ neighbors_at (mesh_graph_new_f32 n pos) i ↔
      i < n ∧ e.node < n ∧ i ≠ e.node ∧ dist_f32 pos i e.node < 10 ∧
        e.cost = edge_cost_f32 pos i e.node := by
  by_cases hi : i < n
  · rw [mesh_graph_new_f32_neighbors_at n pos i hi, mem_new_edges_f32]
    simp [hi]
  · rw [neighbors_at_out (by rw [mesh_graph_new_f32_length]; omega)]
    simp [hi]

/-! ## Square root and edge costs in single precision -/

theorem f32_sqrt_nonneg (q : ℚ) : 0 ≤ f32_sqrt q := by
  unfold f32_sqrt
  by_cases hq : q ≤ 0
  · rw [if_pos hq]
  · rw [if_neg hq]
    simp only
    apply mul_nonneg _ (le_of_lt (pow2_pos _))
    have hf : (0 : ℤ) ≤ ((isqrt ⌊q / (pow2 (floor_log2 q / 2 - 23) *
        pow2 (floor_log2 q / 2 - 23))⌋.toNat : ℕ) : ℤ) := Int.natCast_nonneg _
    split_ifs <;> push_cast <;> positivity

/-- A lower bound on `sqrtf` by powers of two. -/
theorem f32_sqrt_ge (q : ℚ) (k : ℤ) (h : pow2 (2 * k) ≤ q) : pow2 k ≤ f32_sqrt q := by
  have hpos : 0 < q := lt_of_lt_of_le (pow2_pos _) h
  obtain ⟨s1, s2⟩ := floor_log2_spec q (ne_of_gt hpos)
  rw [abs_of_pos hpos] at s1 s2
  have he : 2 * k < floor_log2 q + 1 := pow2_lt_iff.mp (lt_of_le_of_lt h s2)
  unfold f32_sqrt
  rw [if_neg (not_le.mpr hpos)]
  simp only
  generalize floor_log2 q = e at s1 s2 he
  have hE : k ≤ e / 2 := by omega
  have hu := pow2_pos (e / 2 - 23)
  have hx : pow2 46 ≤ q / (pow2 (e / 2 - 23) * pow2 (e / 2 - 23)) := by
    rw [le_div_iff₀ (mul_pos hu hu), ← pow2_add, ← pow2_add]
    exact le_trans (pow2_le (by omega)) s1
  have h46 : pow2 46 = (((2 ^ 46 : ℕ) : ℤ) : ℚ) := by rw [pow2_eq]; norm_num
  have hfl : ((2 ^ 46 : ℕ) : ℤ) ≤ ⌊q / (pow2 (e / 2 - 23) * pow2 (e / 2 - 23))⌋ := by
    apply Int.le_floor.mpr
    rw [← h46]; exact hx
  have hnat : 2 ^ 46 ≤ ⌊q / (pow2 (e / 2 - 23) * pow2 (e / 2 - 23))⌋.toNat := by
    omega
  have hsq : 2 ^ 23 ≤ isqrt ⌊q / (pow2 (e / 2 - 23) * pow2 (e / 2 - 23))⌋.toNat := by
    rw [isqrt_eq_sqrt]
    apply Nat.le_sqrt.mpr
    calc 2 ^ 23 * 2 ^ 23 = 2 ^ 46 := by norm_num
      _ ≤ _ := hnat
  generalize isqrt ⌊q / (pow2 (e / 2 - 23) * pow2 (e / 2 - 23))⌋.toNat = f at hsq
  have hr : ((2 ^ 23 : ℕ) : ℚ) ≤
      (((if q / (pow2 (e / 2 - 23) * pow2 (e / 2 - 23)) < ((f : ℤ) + 1 / 2 : ℚ) ^ 2 then (f : ℤ)
        else if ((f : ℤ) + 1 / 2 : ℚ) ^ 2 < q / (pow2 (e / 2 - 23) * pow2 (e / 2 - 23)) then
          (f : ℤ) + 1
        else if (f : ℤ) % 2 = 0 then (f : ℤ) else (f : ℤ) + 1 : ℤ)) : ℚ) := by
    have hsq' : 8388608 ≤ f := by norm_num at hsq; exact hsq
    have hfq : (8388608 : ℚ) ≤ (f : ℚ) := by exact_mod_cast hsq'
    split_ifs <;> push_cast <;> linarith
  have h23 : pow2 (e / 2) = ((2 ^ 23 : ℕ) : ℚ) * pow2 (e / 2 - 23) := by
    have : ((2 ^ 23 : ℕ) : ℚ) = pow2 23 := by rw [pow2_eq]; norm_num
    rw [this, ← pow2_add]; congr 1; ring
  calc pow2 k ≤ pow2 (e / 2) := pow2_le hE
    _ = ((2 ^ 23 : ℕ) : ℚ) * pow2 (e / 2 - 23) := h23
    _ ≤ _ := mul_le_mul_of_nonneg_right hr (le_of_lt hu)

theorem dist_f32_nonneg (pos : Nat → ℚ × ℚ) (i j : Nat) : 0 ≤ dist_f32 pos i j :=
  f32_sqrt_nonneg _

theorem f32_roundf_nat_range (y : ℚ) (a b : ℕ) (h1 : (a : ℚ) ≤ y) (h2 : y ≤ (b : ℚ)) :
    ∃ m : ℕ, f32_roundf y = (m : ℚ) ∧ a ≤ m ∧ m ≤ b := by
  have h0 : 0 ≤ y := le_trans (Nat.cast_nonneg a) h1
  unfold f32_roundf
  rw [if_pos h0]
  have hlo : (a : ℤ) ≤ ⌊y + 1 / 2⌋ := by
    apply Int.le_floor.mpr
    push_cast
    linarith
  have hhi : ⌊y + 1 / 2⌋ ≤ (b : ℤ) := by
    have : ⌊y + 1 / 2⌋ < (b : ℤ) + 1 := by
      apply Int.floor_lt.mpr
      push_cast
      linarith
    omega
  refine ⟨⌊y + 1 / 2⌋.toNat, ?_, by omega, by omega⟩
  have : ((⌊y + 1 / 2⌋.toNat : ℕ) : ℤ) = ⌊y + 1 / 2⌋ := Int.toNat_of_nonneg (by omega)
  exact_mod_cast congrArg (fun z : ℤ => (z : ℚ)) this.symm

/-- The cost computed from a distance below the cutoff is an integer between `30` and
`80`. -/
theorem mesh_node_dis_to_cost_f32_range (d : ℚ) (h0 : 0 ≤ d) (h1 : d < 10) :
    ∃ m : ℕ, mesh_node_dis_to_cost_f32 d = (m : ℚ) ∧ 30 ≤ m ∧ m ≤ 80 := by
  unfold mesh_node_dis_to_cost_f32 f32_add f32_mul
  have f50 : f32_round 50 = 50 := by
    have := f32_round_nat 50 (by norm_num); exact_mod_cast this
  have f30 : f32_round 30 = 30 := by
    have := f32_round_nat 30 (by norm_num); exact_mod_cast this
  have f80 : f32_round 80 = 80 := by
    have := f32_round_nat 80 (by norm_num); exact_mod_cast this
  have ha0 : 0 ≤ f32_round (d * 5) := f32_round_nonneg (by linarith)
  have ha1 : f32_round (d * 5) ≤ 50 := f32_round_le f50 (by norm_num) (by linarith)
  have hb0 : (30 : ℚ) ≤ f32_round (f32_round (d * 5) + 30) :=
    f32_round_ge f30 (by norm_num) (by linarith)
  have hb1 : f32_round (f32_round (d * 5) + 30) ≤ 80 :=
    f32_round_le f80 (by norm_num) (by linarith)
  exact f32_roundf_nat_range _ 30 80 (by exact_mod_cast hb0) (by exact_mod_cast hb1)

/-- Every edge cost of the single-precision construction is an integer between `30` and
`160`. -/
theorem edge_cost_f32_range (pos : Nat → ℚ × ℚ) (i j : Nat) (h : dist_f32 pos i j < 10) :
    ∃ m : ℕ, edge_cost_f32 pos i j = (m : ℚ) ∧ 30 ≤ m ∧ m ≤ 160 := by
  obtain ⟨m, hm, h1, h2⟩ :=
    mesh_node_dis_to_cost_f32_range _ (dist_f32_nonneg pos i j) h
  unfold edge_cost_f32
  by_cases hr : i = 0 ∨ j = 0
  · rw [if_pos hr]
    exact ⟨m, hm, h1, by omega⟩
  · rw [if_neg hr, hm]
    refine ⟨m + 80, ?_, by omega, by omega⟩
    unfold f32_add COST_SWITCH
    have := f32_round_nat (m + 80) (by omega)
    push_cast at this ⊢
    exact this

/-! ## Small integer costs: the single-precision pass is exact -/

theorem rat_eq_nat_of_den_one (q : ℚ) (hd : q.den = 1) (h0 : 0 ≤ q) :
    ∃ m : ℕ, q = (m : ℚ) := by
  refine ⟨q.num.toNat, ?_⟩
  have h1 : ((q.num : ℤ) : ℚ) = q := Rat.coe_int_num_of_den_eq_one hd
  have h2 : 0 ≤ q.num := Rat.num_nonneg.mpr h0
  have h3 : ((q.num.toNat : ℕ) : ℤ) = q.num := Int.toNat_of_nonneg h2
  have h4 : ((q.num.toNat : ℕ) : ℚ) = ((q.num : ℤ) : ℚ) := by
    rw [← h3, Int.cast_natCast, h3]
  rw [h4, h1]

theorem natural_costs_at {g : mesh_graph} {C : Nat} (h : natural_costs g C) {v : Nat}
    {e : mesh_node_neighbor} (he : e ∈ neighbors_at g v) :
    ∃ m : ℕ, e.cost = (m : ℚ) ∧ m ≤ C := by
  obtain ⟨nd, hnd, hmem⟩ := neighbors_at_mem he
  obtain ⟨h1, h2, h3⟩ := h nd hnd e hmem
  obtain ⟨m, hm⟩ := rat_eq_nat_of_den_one e.cost h1 h2
  refine ⟨m, hm, ?_⟩
  rw [hm] at h3
  exact_mod_cast h3

theorem natural_costs_nonneg {g : mesh_graph} {C : Nat} (h : natural_costs g C) :
    nonneg_costs g :=
  fun nd hnd e he => (h nd hnd e he).2.1

theorem natural_keys_mono {g : mesh_graph} {b b' : Nat} (h : natural_keys g b)
    (hb : b ≤ b') : natural_keys g b' := by
  intro v
  rcases h v with h1 | ⟨m, hm, hmb⟩
  · exact Or.inl h1
  · exact Or.inr ⟨m, hm, le_trans hmb hb⟩

/-- On a natural key and a natural cost within the exact range of binary32, the rounded
sum is the exact sum. -/
theorem f32_add_cost_exact (x : WithTop ℚ) (b m : ℕ)
    (hx : x = ⊤ ∨ ∃ k : ℕ, x = ((k : ℚ) : WithTop ℚ) ∧ k ≤ b) (hb : b + m ≤ 2 ^ 24) :
    f32_add_cost x (m : ℚ) = x + ((m : ℚ) : WithTop ℚ) := by
  rcases hx with h | ⟨k, hkey, hkb⟩
  · rw [h, f32_add_cost_top, WithTop.top_add]
  · rw [hkey, f32_add_cost_coe]
    have h1 : f32_round ((k : ℚ) + (m : ℚ)) = (k : ℚ) + (m : ℚ) := by
      have := f32_round_nat (k + m) (by omega)
      push_cast at this
      exact this
    have h2 : (k : ℚ) + (m : ℚ) < 2 ^ 128 := by
      have : ((k + m : ℕ) : ℚ) ≤ ((2 ^ 24 : ℕ) : ℚ) := by
        exact_mod_cast (by omega : k + m ≤ 2 ^ 24)
      push_cast at this
      have h3 : (2 : ℚ) ^ 24 < 2 ^ 128 := by norm_num
      linarith
    rw [h1, if_pos h2, WithTop.coe_add]

/-- One exact iteration on an edge of natural cost keeps the key of the visiting node and
keeps the keys natural, within the bound raised by the cost. -/
theorem natural_keys_visit_neighbor {g1 : mesh_graph} {b C : Nat} (u : Nat)
    (e : mesh_node_neighbor) (m : ℕ) (hm : e.cost = (m : ℚ)) (hmC : m ≤ C)
    (hu : heap_key g1 u = ⊤ ∨ ∃ k : ℕ, heap_key g1 u = ((k : ℚ) : WithTop ℚ) ∧ k ≤ b)
    (h2 : natural_keys g1 (b + C)) :
    heap_key (visit_neighbor u g1 e) u = heap_key g1 u ∧
      natural_keys (visit_neighbor u g1 e) (b + C) := by
  obtain ⟨_, _, hcase⟩ := visit_neighbor_spec u g1 e
  rcases hcase with ⟨hsame, _⟩ | ⟨_, _, _, hlt, hkey, _⟩
  · rw [hsame]; exact ⟨rfl, h2⟩
  · have hm0 : (0 : ℚ) ≤ e.cost := by rw [hm]; exact Nat.cast_nonneg m
    have hne : u ≠ e.node := by
      intro h
      rw [← h] at hlt
      exact absurd (key_le_add_cost (heap_key g1 u) hm0) (not_le.mpr hlt)
    refine ⟨by rw [hkey]; simp [hne], ?_⟩
    intro v
    rw [hkey]
    by_cases hv : v = e.node
    · rw [if_pos hv]
      rcases hu with h | ⟨k, hk, hkb⟩
      · left; rw [h, WithTop.top_add]
      · right
        refine ⟨k + m, ?_, by omega⟩
        rw [hk, hm, ← WithTop.coe_add]
        push_cast
        rfl
    · rw [if_neg hv]; exact h2 v

/-- The neighbour loop in single precision agrees with the exact loop on natural keys and
costs within the exact range. -/
theorem foldl_visit_lockstep {g : mesh_graph} {b C : Nat} (u : Nat)
    (hku : heap_key g u = ⊤ ∨ ∃ k : ℕ, heap_key g u = ((k : ℚ) : WithTop ℚ) ∧ k ≤ b)
    (hb : b + C ≤ 2 ^ 24) :
    ∀ (l : List mesh_node_neighbor), (∀ e ∈ l, ∃ m : ℕ, e.cost = (m : ℚ) ∧ m ≤ C) →
      ∀ g1, heap_key g1 u = heap_key g u → natural_keys g1 (b + C) →
        l.foldl (visit_neighbor_f32 u) g1 = l.foldl (visit_neighbor u) g1 ∧
        heap_key (l.foldl (visit_neighbor u) g1) u = heap_key g u ∧
        natural_keys (l.foldl (visit_neighbor u) g1) (b + C) := by
  intro l
  induction l with
  | nil => intro _ g1 h1 h2; exact ⟨rfl, h1, h2⟩
  | cons e l ih =>
    intro hl g1 h1 h2
    obtain ⟨m, hm, hmC⟩ := hl e (List.mem_cons_self _ _)
    have hu1 : heap_key g1 u = ⊤ ∨
        ∃ k : ℕ, heap_key g1 u = ((k : ℚ) : WithTop ℚ) ∧ k ≤ b := by rw [h1]; exact hku
    have hstep : visit_neighbor_f32 u g1 e = visit_neighbor u g1 e := by
      apply visit_neighbor_f32_of_eq u g1 e e rfl
      rw [hm]
      exact (f32_add_cost_exact (heap_key g1 u) b m hu1 (by omega)).symm
    simp only [List.foldl_cons]
    rw [hstep]
    obtain ⟨h3, h4⟩ := natural_keys_visit_neighbor u e m hm hmC hu1 h2
    exact ih (fun e' he' => hl e' (List.mem_cons_of_mem _ he')) _ (h3.trans h1) h4

/-- A visit in single precision agrees with the exact visit on natural keys and costs
within the exact range, and raises the bound on the keys by at most the cost bound. -/
theorem visit_lockstep {g : mesh_graph} {b C : Nat} (u : Nat) (hkb : natural_keys g b)
    (hb : b + C ≤ 2 ^ 24)
    (hc : ∀ e ∈ neighbors_at g u, ∃ m : ℕ, e.cost = (m : ℚ) ∧ m ≤ C) :
    mesh_node_visit_neighbors_f32 g u = mesh_node_visit_neighbors g u ∧
      natural_keys (mesh_node_visit_neighbors g u) (b + C) := by
  have hk1 : natural_keys g (b + C) := natural_keys_mono hkb (by omega)
  by_cases hu : u < g.nodes.length
  · have hrel : relax_edges_f32 g u = relax_edges g u ∧
        natural_keys (relax_edges g u) (b + C) := by
      unfold relax_edges_f32 relax_edges
      by_cases hen : enabled_at g u = true
      · rw [if_pos hen, if_pos hen]
        obtain ⟨h1, _, h3⟩ :=
          foldl_visit_lockstep u (hkb u) hb (neighbors_at g u) hc g rfl hk1
        exact ⟨h1, h3⟩
      · rw [if_neg hen, if_neg hen]
        exact ⟨rfl, hk1⟩
    refine ⟨?_, ?_⟩
    · rw [mesh_node_visit_neighbors_f32_eq g u hu, mesh_node_visit_neighbors_eq g u hu,
        hrel.1]
    · intro v
      rw [(visit_mark g u hu).2.2.1]
      exact hrel.2 v
  · rw [mesh_node_visit_neighbors_f32_out g u (Nat.le_of_not_lt hu),
      mesh_node_visit_neighbors_out g u (Nat.le_of_not_lt hu)]
    exact ⟨rfl, hk1⟩

/-- The loop in single precision agrees with the exact loop while the keys stay within
the exact range of binary32. -/
theorem relax_loop_lockstep (pick : (Nat → WithTop ℚ) → List Nat → Option Nat)
    {g0 : mesh_graph} {C : Nat} (hc : natural_costs g0 C) :
    ∀ (fuel : Nat) (g : mesh_graph) (u : Nat) (b : Nat),
      g.nodes.map frame = g0.nodes.map frame → natural_keys g b →
      b + fuel * C ≤ 2 ^ 24 →
      relax_loop_f32 pick fuel g u = relax_loop pick fuel g u := by
  intro fuel
  induction fuel with
  | zero => intro g u b _ _ _; rfl
  | succ fuel ih =>
    intro g u b hfr hkb hb
    have hmul : (fuel + 1) * C = fuel * C + C := by ring
    have hb1 : b + C ≤ 2 ^ 24 := by omega
    have hedges : ∀ e ∈ neighbors_at g u, ∃ m : ℕ, e.cost = (m : ℚ) ∧ m ≤ C := by
      intro e he
      rw [frame_neighbors_at hfr] at he
      exact natural_costs_at hc he
    obtain ⟨hv, hk1⟩ := visit_lockstep u hkb hb1 hedges
    simp only [relax_loop_f32, relax_loop]
    rw [hv]
    rcases hpop : heap_pop pick (mesh_node_visit_neighbors g u) with _ | ⟨m, g2⟩
    · rfl
    · simp only
      obtain ⟨_, hg2⟩ := heap_pop_some hpop
      apply ih g2 m (b + C)
      · rw [hg2]; exact (visit_frame g u).trans hfr
      · intro v
        have : heap_key g2 v = heap_key (mesh_node_visit_neighbors g u) v := by
          rw [hg2]; rfl
        rw [this]; exact hk1 v
      · omega

theorem relax_loop_fuel_mono (pick : (Nat → WithTop ℚ) → List Nat → Option Nat) :
    ∀ (fuel : Nat) (g : mesh_graph) (u : Nat) (g' : mesh_graph) (k : Nat),
      relax_loop pick fuel g u = some g' → relax_loop pick (fuel + k) g u = some g' := by
  intro fuel
  induction fuel with
  | zero => intro g u g' k h; simp [relax_loop] at h
  | succ fuel ih =>
    intro g u g' k h
    have hk : fuel + 1 + k = (fuel + k) + 1 := by omega
    rw [hk]
    simp only [relax_loop] at h ⊢
    rcases hpop : heap_pop pick (mesh_node_visit_neighbors g u) with _ | ⟨m, g2⟩
    · rw [hpop] at h; exact h
    · rw [hpop] at h; exact ih g2 m g' k h

theorem relax_loop_f32_fuel_mono (pick : (Nat → WithTop ℚ) → List Nat → Option Nat) :
    ∀ (fuel : Nat) (g : mesh_graph) (u : Nat) (g' : mesh_graph) (k : Nat),
      relax_loop_f32 pick fuel g u = some g' →
      relax_loop_f32 pick (fuel + k) g u = some g' := by
  intro fuel
  induction fuel with
  | zero => intro g u g' k h; simp [relax_loop_f32] at h
  | succ fuel ih =>
    intro g u g' k h
    have hk : fuel + 1 + k = (fuel + k) + 1 := by omega
    rw [hk]
    simp only [relax_loop_f32] at h ⊢
    rcases hpop : heap_pop pick (mesh_node_visit_neighbors_f32 g u) with _ | ⟨m, g2⟩
    · rw [hpop] at h; exact h
    · rw [hpop] at h; exact ih g2 m g' k h

/-- After a reset, with natural edge costs at most `C` and `(n + 1) * C ≤ 2^24`, the pass
in single precision returns the state of the exact pass. -/
theorem relax_loop_f32_eq_exact {pick : (Nat → WithTop ℚ) → List Nat → Option Nat}
    (hp : heap_contract pick) (g : mesh_graph) (C : Nat) (hc : natural_costs g C)
    (hsize : (g.n_node + 1) * C ≤ 2 ^ 24) (fuel : Nat) (hfuel : g.n_node < fuel) :
    ∃ g', relax_loop pick fuel (with_fresh_heap (mesh_graph_reset g)) 0 = some g' ∧
      relax_loop_f32 pick fuel (with_fresh_heap (mesh_graph_reset g)) 0 = some g' := by
  have hfr : (with_fresh_heap (mesh_graph_reset g)).nodes.map frame = g.nodes.map frame :=
    mesh_graph_reset_frame g
  have hlen : (mesh_graph_reset g).nodes.length = g.nodes.length :=
    frame_length (mesh_graph_reset_frame g)
  have hn : g.n_node = g.nodes.length := rfl
  have hb : queue_budget (with_fresh_heap (mesh_graph_reset g)) < g.n_node + 1 := by
    have h1 : queue_budget (with_fresh_heap (mesh_graph_reset g)) ≤
        (mesh_graph_reset g).nodes.length := queue_budget_start (mesh_graph_reset g)
    omega
  obtain ⟨g', hg'⟩ := relax_loop_terminates pick hp (g.n_node + 1) _ 0 hb
  have hk0 : natural_keys (with_fresh_heap (mesh_graph_reset g)) 0 := by
    intro v
    have h1 : heap_key (with_fresh_heap (mesh_graph_reset g)) v =
        heap_key (mesh_graph_reset g) v := rfl
    rw [h1, mesh_graph_reset_heap_key]
    split
    · exact Or.inr ⟨0, by simp, le_refl _⟩
    · exact Or.inl rfl
  have hls := relax_loop_lockstep pick hc (g.n_node + 1) _ 0 0 hfr hk0 (by omega)
  obtain ⟨k, hk⟩ : ∃ k, fuel = g.n_node + 1 + k := ⟨fuel - (g.n_node + 1), by omega⟩
  refine ⟨g', ?_, ?_⟩
  · rw [hk]; exact relax_loop_fuel_mono pick _ _ 0 g' k hg'
  · rw [hk]
    apply relax_loop_f32_fuel_mono pick _ _ 0 g' k
    rw [hls]; exact hg'

/-! ## Built graphs have natural costs; a chain of nodes nine apart -/

/-- Every edge cost of a graph built in single precision is a natural number at most
`160`. -/
theorem natural_costs_new_f32 (n : Nat) (pos : Nat → ℚ × ℚ) :
    natural_costs (mesh_graph_new_f32 n pos) 160 := by
  intro nd hnd e he
  obtain ⟨i, hi⟩ := List.getElem?_of_mem hnd
  have he' : e ∈ neighbors_at (mesh_graph_new_f32 n pos) i := by
    simp [neighbors_at, hi, he]
  obtain ⟨_, _, _, hd, hcost⟩ := (mem_neighbors_new_f32 n pos i e).mp he'
  obtain ⟨m, hm, h1, h2⟩ := edge_cost_f32_range pos i e.node hd
  rw [hcost, hm]
  exact ⟨by simp, Nat.cast_nonneg m, by exact_mod_cast h2⟩

theorem mesh_graph_new_f32_enabled (n : Nat) (pos : Nat → ℚ × ℚ) (v : Nat) (hv : v < n) :
    enabled_at (mesh_graph_new_f32 n pos) v = true := by
  simp [enabled_at, mesh_graph_new_f32_getElem? n pos v hv, mesh_node_init]

theorem node_pos_f32_line (s i : Nat) (hi : s * i ≤ 2 ^ 24) :
    node_pos_f32 (line_positions s) i = (((s * i : ℕ) : ℚ), 0) := by
  unfold node_pos_f32 line_positions
  by_cases h : i = 0
  · subst h; simp
  · rw [if_neg h]
    simp only
    rw [f32_round_nat _ hi, f32_round_zero]

/-- The distance computed between two nodes on a line. -/
theorem line_dist (s i j : Nat) (hi : s * i ≤ 2 ^ 24) (hj : s * j ≤ 2 ^ 24) :
    dist_f32 (line_positions s) i j =
      f32_sqrt (f32_round (f32_round
        (((((s : ℤ) * ((i : ℤ) - (j : ℤ))) ^ 2 : ℤ) : ℚ)) + 0)) := by
  unfold dist_f32
  rw [node_pos_f32_line s i hi, node_pos_f32_line s j hj]
  simp only
  have h1 : f32_sub (((s * i : ℕ) : ℚ)) (((s * j : ℕ) : ℚ)) =
      ((((s : ℤ) * ((i : ℤ) - (j : ℤ)) : ℤ)) : ℚ) := by
    unfold f32_sub
    have h2 : (((s * i : ℕ) : ℚ)) - (((s * j : ℕ) : ℚ)) =
        ((((s : ℤ) * ((i : ℤ) - (j : ℤ)) : ℤ)) : ℚ) := by push_cast; ring
    rw [h2]
    apply f32_round_int
    have e1 : (s : ℤ) * ((i : ℤ) - (j : ℤ)) = ((s * i : ℕ) : ℤ) - ((s * j : ℕ) : ℤ) := by
      push_cast; ring
    rw [e1, abs_le]
    constructor <;> omega
  have h3 : f32_sub (0 : ℚ) 0 = 0 := by simp [f32_sub, f32_round_zero]
  have h4 : f32_mul (0 : ℚ) 0 = 0 := by simp [f32_mul, f32_round_zero]
  rw [h1, h3, h4]
  unfold f32_add f32_mul
  congr 3
  push_cast
  ring_nf

/-- Two nodes on a line whose coordinates differ by `16` or more are at a computed
distance of at least `16`. -/
theorem line_dist_far (s i j : Nat) (hi : s * i ≤ 2 ^ 24) (hj : s * j ≤ 2 ^ 24)
    (h : (16 : ℤ) ≤ (s : ℤ) * ((i : ℤ) - (j : ℤ)) ∨ (s : ℤ) * ((i : ℤ) - (j : ℤ)) ≤ -16) :
    16 ≤ dist_f32 (line_positions s) i j := by
  rw [line_dist s i j hi hj]
  have f256 : f32_round 256 = 256 := by
    have := f32_round_nat 256 (by norm_num)
    exact_mod_cast this
  have h1 : (256 : ℤ) ≤ ((s : ℤ) * ((i : ℤ) - (j : ℤ))) ^ 2 := by
    rcases h with h | h <;> nlinarith
  have h2 : (256 : ℚ) ≤ (((((s : ℤ) * ((i : ℤ) - (j : ℤ))) ^ 2 : ℤ)) : ℚ) := by
    have : ((256 : ℤ) : ℚ) ≤ (((((s : ℤ) * ((i : ℤ) - (j : ℤ))) ^ 2 : ℤ)) : ℚ) := by
      exact_mod_cast h1
    have h5 : ((256 : ℤ) : ℚ) = 256 := by norm_num
    linarith
  have h3 : (256 : ℚ) ≤ f32_round (((((s : ℤ) * ((i : ℤ) - (j : ℤ))) ^ 2 : ℤ)) : ℚ) :=
    f32_round_ge f256 (by norm_num) h2
  have h4 : (256 : ℚ) ≤
      f32_round (f32_round (((((s : ℤ) * ((i : ℤ) - (j : ℤ))) ^ 2 : ℤ)) : ℚ) + 0) :=
    f32_round_ge f256 (by norm_num) (by linarith)
  have h5 : pow2 (2 * 4) = 256 := by rw [pow2_eq]; norm_num
  have h6 : pow2 4 = 16 := by rw [pow2_eq]; norm_num
  have h7 := f32_sqrt_ge
    (f32_round (f32_round (((((s : ℤ) * ((i : ℤ) - (j : ℤ))) ^ 2 : ℤ)) : ℚ) + 0)) 4
    (h5.symm ▸ h4)
  rw [h6] at h7
  exact h7

theorem f32_sqrt_81 : f32_sqrt 81 = 9 := by decide!

theorem chain_dist_adjacent (i j : Nat) (hi : 9 * i ≤ 2 ^ 24) (hj : 9 * j ≤ 2 ^ 24)
    (h : j = i + 1 ∨ i = j + 1) : dist_f32 chain_positions i j = 9 := by
  show dist_f32 (line_positions 9) i j = 9
  rw [line_dist 9 i j hi hj]
  have h1 : ((((9 : ℕ) : ℤ) * ((i : ℤ) - (j : ℤ))) ^ 2 : ℤ) = 81 := by
    rcases h with h | h <;> subst h <;> push_cast <;> ring
  rw [h1]
  have h2 : f32_round (((81 : ℤ) : ℚ)) = 81 := by
    have := f32_round_nat 81 (by norm_num)
    exact_mod_cast this
  rw [h2]
  have h3 : f32_round ((81 : ℚ) + 0) = 81 := by
    rw [add_zero]
    have := f32_round_nat 81 (by norm_num)
    exact_mod_cast this
  rw [h3, f32_sqrt_81]

theorem chain_dist_far (i j : Nat) (hi : 9 * i ≤ 2 ^ 24) (hj : 9 * j ≤ 2 ^ 24)
    (h : i + 2 ≤ j ∨ j + 2 ≤ i) : 16 ≤ dist_f32 chain_positions i j := by
  apply line_dist_far 9 i j hi hj
  rcases h with h | h
  · right; push_cast; omega
  · left; push_cast; omega

theorem chain_edge_cost (i j : Nat) (hi : 9 * i ≤ 2 ^ 24) (hj : 9 * j ≤ 2 ^ 24)
    (h : j = i + 1 ∨ i = j + 1) :
    edge_cost_f32 chain_positions i j = if i = 0 ∨ j = 0 then 75 else 155 := by
  unfold edge_cost_f32
  rw [chain_dist_adjacent i j hi hj h]
  have h1 : mesh_node_dis_to_cost_f32 9 = 75 := by decide!
  have h2 : f32_add 75 COST_SWITCH = 155 := by decide!
  rw [h1, h2]

/-- The edges of the chain built in single precision: each node is linked to the next and
to the previous one, at cost `75` when the root is an end and `155` otherwise. -/
theorem mem_neighbors_chain (N : Nat) (hN : 9 * N ≤ 2 ^ 24) (i : Nat)
    (e : mesh_node_neighbor) :
    e ∈ neighbors_at (mesh_graph_new_f32 N chain_positions) i ↔
      i < N ∧ e.node < N ∧ (e.node = i + 1 ∨ i = e.node + 1) ∧
        e.cost = if i = 0 ∨ e.node = 0 then 75 else 155 := by
  rw [mem_neighbors_new_f32]
  constructor
  · rintro ⟨hi, hj, hne, hd, hc⟩
    have hadj : e.node = i + 1 ∨ i = e.node + 1 := by
      by_contra hcon
      have hfar : i + 2 ≤ e.node ∨ e.node + 2 ≤ i := by omega
      have := chain_dist_far i e.node (by omega) (by omega) hfar
      linarith
    refine ⟨hi, hj, hadj, ?_⟩
    rw [hc, chain_edge_cost i e.node (by omega) (by omega) hadj]
  · rintro ⟨hi, hj, hadj, hc⟩
    refine ⟨hi, hj, by omega, ?_, ?_⟩
    · rw [chain_dist_adjacent i e.node (by omega) (by omega) hadj]; norm_num
    · rw [hc, chain_edge_cost i e.node (by omega) (by omega) hadj]

theorem chain_cost_succ (v : Nat) :
    chain_cost (v + 1) = chain_cost v + (if v = 0 then 75 else 155) := by
  unfold chain_cost
  by_cases h : v = 0
  · subst h; norm_num
  · rw [if_neg (Nat.succ_ne_zero v), if_neg h, if_neg h]
    push_cast
    ring

theorem chain_cost_le_succ (v : Nat) : chain_cost v ≤ chain_cost (v + 1) := by
  rw [chain_cost_succ]
  split <;> linarith

/-- In a graph with the edges of the chain and every node enabled, the least relay cost
of node `v` is `chain_cost v`. -/
theorem chain_least_relay_cost {g : mesh_graph} {N : Nat}
    (hE : ∀ (v : Nat) (e : mesh_node_neighbor), e ∈ neighbors_at g v ↔
      v < N ∧ e.node < N ∧ (e.node = v + 1 ∨ v = e.node + 1) ∧
        e.cost = if v = 0 ∨ e.node = 0 then 75 else 155)
    (hen : ∀ v, v < N → enabled_at g v = true) :
    ∀ v, v < N → IsLeast {c | relay_path g v c} (chain_cost v) := by
  have hmem : ∀ v, v < N → relay_path g v (chain_cost v) := by
    intro v
    induction v with
    | zero =>
      intro _
      have : chain_cost 0 = 0 := by simp [chain_cost]
      rw [this]
      exact relay_path.root
    | succ v ih =>
      intro hv
      have h1 := ih (by omega)
      have he : ({ node := v + 1, cost := if v = 0 then 75 else 155 } : mesh_node_neighbor) ∈
          neighbors_at g v := by
        rw [hE]
        refine ⟨by omega, hv, Or.inl rfl, ?_⟩
        simp
      have := relay_path.step v (chain_cost v) _ h1 (hen v (by omega)) he
      rw [chain_cost_succ]
      exact this
  have hlow : ∀ v c, relay_path g v c → chain_cost v ≤ c := by
    intro v c h
    induction h with
    | root => simp [chain_cost]
    | step u c e _ _ he ih =>
      obtain ⟨_, _, hadj, hc⟩ := (hE u e).mp he
      have hc0 : (0 : ℚ) ≤ e.cost := by rw [hc]; split <;> norm_num
      rcases hadj with h | h
      · rw [h, chain_cost_succ, hc]
        have h0 : ¬ (e.node = 0) := by omega
        simp only [h0, or_false]
        linarith
      · have h1 := chain_cost_le_succ e.node
        rw [← h] at h1
        linarith
  intro v hv
  exact ⟨hmem v hv, fun c hc => hlow v c hc⟩

/-! ## Keys of the pass in single precision are binary32 values -/

theorem f32_add_cost_rounded (m : WithTop ℚ) (c : ℚ) :
    f32_add_cost m c = ⊤ ∨ ∃ q : ℚ, f32_add_cost m c = ((f32_round q : ℚ) : WithTop ℚ) := by
  induction m using WithTop.recTopCoe with
  | top => exact Or.inl rfl
  | coe x =>
    rw [f32_add_cost_coe]
    split
    · exact Or.inr ⟨x + c, rfl⟩
    · exact Or.inl rfl

theorem rounded_keys_visit_f32 (g : mesh_graph) (u : Nat) (h : rounded_keys g) :
    rounded_keys (mesh_node_visit_neighbors_f32 g u) := by
  have hrel : rounded_keys (relax_edges_f32 g u) := by
    apply relax_edges_f32_induct (P := rounded_keys) g u h
    intro gk e _ _ hgk
    obtain ⟨e', heq, hcase'⟩ := visit_neighbor_f32_eq u gk e
    rw [heq]
    obtain ⟨_, _, hcase⟩ := visit_neighbor_spec u gk e'
    rcases hcase with ⟨hsame, _⟩ | ⟨_, _, _, _, hkey, _⟩
    · rw [hsame]; exact hgk
    · rcases hcase' with hsame | ⟨_, hcost⟩
      · rw [hsame]; exact hgk
      · intro v
        rw [hkey]
        by_cases hv : v = e'.node
        · rw [if_pos hv, hcost]
          exact f32_add_cost_rounded _ _
        · rw [if_neg hv]; exact hgk v
  by_cases hu : u < g.nodes.length
  · intro v
    rw [(visit_mark_f32 g u hu).2.2.1]
    exact hrel v
  · rw [mesh_node_visit_neighbors_f32_out g u (Nat.le_of_not_lt hu)]
    exact h

/-- After a reset the pass in single precision returns, and every key it leaves is
`+INFINITY` or a binary32 value. -/
theorem relax_loop_f32_rounded {pick : (Nat → WithTop ℚ) → List Nat → Option Nat}
    (hp : heap_contract pick) (g : mesh_graph) (fuel : Nat) (hfuel : g.n_node < fuel) :
    ∃ g', relax_loop_f32 pick fuel (with_fresh_heap (mesh_graph_reset g)) 0 = some g' ∧
      rounded_keys g' := by
  have hlen : (mesh_graph_reset g).nodes.length = g.nodes.length :=
    frame_length (mesh_graph_reset_frame g)
  have hn : g.n_node = g.nodes.length := rfl
  have hb : queue_budget (with_fresh_heap (mesh_graph_reset g)) < fuel := by
    have h1 : queue_budget (with_fresh_heap (mesh_graph_reset g)) ≤
        (mesh_graph_reset g).nodes.length := queue_budget_start (mesh_graph_reset g)
    omega
  have hk0 : rounded_keys (with_fresh_heap (mesh_graph_reset g)) := by
    intro v
    have h1 : heap_key (with_fresh_heap (mesh_graph_reset g)) v =
        heap_key (mesh_graph_reset g) v := rfl
    rw [h1, mesh_graph_reset_heap_key]
    split
    · exact Or.inr ⟨0, by rw [f32_round_zero]; rfl⟩
    · exact Or.inl rfl
  exact relax_loop_f32_total hp (fun gk _ => rounded_keys gk) rounded_keys
    (by
      intro gk u m g2 hI hpop
      obtain ⟨_, hg2⟩ := heap_pop_some hpop
      rw [hg2]
      exact rounded_keys_visit_f32 gk u hI)
    (by
      intro gk u hI _
      exact rounded_keys_visit_f32 gk u hI)
    (with_fresh_heap (mesh_graph_reset g)) 0 fuel hb hk0

/-- No binary32 value equals the odd number `16777275`, which lies above `2^24`. -/
theorem f32_round_ne_16777275 (q : ℚ) : f32_round q ≠ 16777275 := by
  intro h
  have f24 : f32_round ((2 ^ 24 : ℕ) : ℚ) = ((2 ^ 24 : ℕ) : ℚ) := f32_round_nat _ le_rfl
  have f25 : f32_round (33554432 : ℚ) = 33554432 := by
    have h0 := f32_round_representable (2 ^ 23) 2 (by norm_num) (by norm_num)
    have e : ((2 ^ 23 : ℤ) : ℚ) * pow2 2 = 33554432 := by rw [pow2_eq]; norm_num
    rw [e] at h0
    exact h0
  by_cases h1 : q < 2 ^ 24
  · have := f32_round_le f24 (by positivity) (by push_cast; linarith : q ≤ ((2 ^ 24 : ℕ) : ℚ))
    rw [h] at this
    norm_num at this
  · by_cases h2 : q < 2 ^ 25
    · have hq : (0 : ℚ) ≤ q := by
        have : (0 : ℚ) ≤ 2 ^ 24 := by positivity
        linarith [not_lt.mp h1]
      have e1 : pow2 24 = 2 ^ 24 := by rw [pow2_eq]; norm_num
      have e2 : pow2 (24 + 1) = 2 ^ 25 := by rw [pow2_eq]; norm_num
      have := f32_round_of_exponent q 24 (by rw [abs_of_nonneg hq, e1]; exact not_lt.mp h1)
        (by rw [abs_of_nonneg hq, e2]; exact h2)
      have e3 : pow2 (max 24 (-126) - 23) = 2 := by
        have : max (24 : ℤ) (-126) - 23 = 1 := by norm_num
        rw [this, pow2_eq]; norm_num
      rw [e3, h] at this
      have h3 : (16777275 : ℤ) = round_half_even (q / 2) * 2 := by exact_mod_cast this
      omega
    · have := f32_round_ge f25 (by norm_num)
        (by linarith [not_lt.mp h2] : (33554432 : ℚ) ≤ q)
      rw [h] at this
      norm_num at this

/-- The pass in single precision on the chain of `N` nodes returns; the exact least relay
cost of each node is `chain_cost`, and every key left by the pass is a binary32 value or
`+INFINITY`. -/
theorem chain_pass_f32 (N : Nat) (hN : 9 * N ≤ 2 ^ 24) (v : Nat) (hv : v < N) (fuel : Nat)
    (hfuel : N < fuel) :
    ∃ g' total,
      mesh_graph_get_cost_f32 pick_first_min fuel
        (mesh_graph_reset (mesh_graph_new_f32 N chain_positions)) = some (g', total) ∧
      IsLeast {c | relay_path (mesh_graph_new_f32 N chain_positions) v c} (chain_cost v) ∧
      rounded_keys g' := by
  have hfuel1 : (mesh_graph_new_f32 N chain_positions).n_node < fuel := by
    show (mesh_graph_new_f32 N chain_positions).nodes.length < fuel
    rw [mesh_graph_new_f32_length]
    exact hfuel
  obtain ⟨g', hloop, hr⟩ := relax_loop_f32_rounded pick_first_min_contract
    (mesh_graph_new_f32 N chain_positions) fuel hfuel1
  refine ⟨g', aggregate_cost_f32 g', ?_, ?_, hr⟩
  · simp only [mesh_graph_get_cost_f32, hloop]
  · exact chain_least_relay_cost (mem_neighbors_chain N hN)
      (fun v hv => mesh_graph_new_f32_enabled N chain_positions v hv) v hv

/-! ## Cost aggregation in single precision -/

theorem f32_sum_congr {f g : Nat → ℚ} :
    ∀ k, (∀ i, i < k → f i = g i) → f32_sum f k = f32_sum g k := by
  intro k
  induction k with
  | zero => intro _; rfl
  | succ k ih =>
    intro h
    simp only [f32_sum]
    rw [ih (fun i hi => h i (by omega)), h k (by omega)]

theorem foldl_f32_add_eq_sum {α : Type} (f : α → ℚ) (d : ℚ) (l : List α) :
    l.foldl (fun acc x => f32_add acc (f x)) 0 =
      f32_sum (fun i => ((l[i]?).map f).getD d) l.length := by
  induction l using List.reverseRecOn with
  | nil => rfl
  | append_singleton l a ih =>
    rw [List.foldl_append, List.length_append, List.length_singleton]
    simp only [List.foldl_cons, List.foldl_nil, f32_sum]
    rw [ih]
    congr 1
    · apply f32_sum_congr
      intro i hi
      rw [List.getElem?_append_left hi]
    · simp

/-- The loops of the aggregation in single precision compute the `float` sum of the
per-node costs in index order and the count of the enabled nodes. -/
theorem aggregate_cost_f32_eq (g : mesh_graph) :
    aggregate_cost_f32 g =
      f32_add (f32_div (f32_sum (spec_node_cost g) g.n_node) (f32_round (g.n_node : ℚ)))
        (f32_mul
          (f32_round
            ((((Finset.range g.n_node).filter fun v => enabled_at g v = true).card : ℕ) : ℚ))
          COST_MESSAGE) := by
  simp only [aggregate_cost_f32, mesh_graph.n_node]
  rw [foldl_f32_add_eq_sum node_cost 0 g.nodes,
    foldl_count_eq_card (fun nd => nd.switch_enabled) g.nodes]
  have h1 : f32_sum (fun i => ((g.nodes[i]?).map node_cost).getD 0) g.nodes.length =
      f32_sum (spec_node_cost g) g.nodes.length :=
    f32_sum_congr _ (fun i hi => node_cost_eq_spec g i hi)
  have h2 : ((Finset.range g.nodes.length).filter
        fun i => ((g.nodes[i]?).map fun nd => nd.switch_enabled).getD false = true) =
      ((Finset.range g.nodes.length).filter fun v => enabled_at g v = true) := by
    apply Finset.filter_congr
    intro i _
    simp only [enabled_at]
    rcases g.nodes[i]? with _ | nd <;> simp
  rw [h1, h2]

theorem sum_range_natural (f : Nat → ℚ) :
    ∀ k, (∀ i, i < k → ∃ m : ℕ, f i = (m : ℚ)) →
      ∃ M : ℕ, ∑ i in Finset.range k, f i = (M : ℚ) := by
  intro k
  induction k with
  | zero => intro _; exact ⟨0, by simp⟩
  | succ k ih =>
    intro h
    obtain ⟨M, hM⟩ := ih (fun i hi => h i (by omega))
    obtain ⟨m, hm⟩ := h k (by omega)
    exact ⟨M + m, by rw [Finset.sum_range_succ, hM, hm]; push_cast; rfl⟩

/-- A `float` sum of natural numbers whose exact sum is at most `2^24` is exact. -/
theorem f32_sum_exact (f : Nat → ℚ) :
    ∀ k, (∀ i, i < k → ∃ m : ℕ, f i = (m : ℚ)) →
      ∑ i in Finset.range k, f i ≤ 2 ^ 24 →
      f32_sum f k = ∑ i in Finset.range k, f i := by
  intro k
  induction k with
  | zero => intro _ _; simp [f32_sum]
  | succ k ih =>
    intro h hs
    obtain ⟨m, hm⟩ := h k (by omega)
    have hm0 : (0 : ℚ) ≤ f k := by rw [hm]; exact Nat.cast_nonneg m
    rw [Finset.sum_range_succ] at hs
    have h1 := ih (fun i hi => h i (by omega)) (by linarith)
    obtain ⟨M, hM⟩ := sum_range_natural f (k + 1) h
    rw [Finset.sum_range_succ] at hM
    have hM24 : M ≤ 2 ^ 24 := by
      have : (M : ℚ) ≤ ((2 ^ 24 : ℕ) : ℚ) := by rw [← hM]; push_cast; exact hs
      exact_mod_cast this
    simp only [f32_sum, f32_add]
    rw [h1, Finset.sum_range_succ, hM]
    exact f32_round_nat M hM24

/-- The per-node cost of a node whose key is `+INFINITY` or a natural number is a natural
number. -/
theorem spec_node_cost_natural (g : mesh_graph) (v : Nat)
    (h : heap_key g v = ⊤ ∨ ∃ m : ℕ, heap_key g v = ((m : ℚ) : WithTop ℚ)) :
    ∃ m : ℕ, spec_node_cost g v = (m : ℚ) := by
  unfold spec_node_cost
  rcases h with h | ⟨m, h⟩
  · rw [if_pos h]; exact ⟨5000, by norm_num [COST_NOT_FOUND]⟩
  · rw [h, if_neg WithTop.coe_ne_top]
    exact ⟨m, rfl⟩

theorem f32_mul_count (c n : Nat) (hc : c ≤ n) (hn : n < 2 ^ 24) :
    f32_mul (f32_round (c : ℚ)) COST_MESSAGE = COST_MESSAGE * (c : ℚ) := by
  unfold f32_mul COST_MESSAGE
  rw [f32_round_nat c (by omega)]
  have h := f32_round_representable (c : ℤ) 1 (by rw [abs_lt]; constructor <;> omega)
    (by norm_num)
  have e : ((c : ℤ) : ℚ) * pow2 1 = (c : ℚ) * 2 := by rw [pow2_eq]; norm_num
  rw [e] at h
  rw [h]; ring

/-- When every per-node cost is a natural number, their sum is at most `2^24` and there
are fewer than `2^24` nodes, the aggregate in single precision is the exact average and
the exact message cost, rounded after the division and after the final addition. -/
theorem aggregate_cost_f32_small (g : mesh_graph)
    (hnat : ∀ v, v < g.n_node →
      heap_key g v = ⊤ ∨ ∃ m : ℕ, heap_key g v = ((m : ℚ) : WithTop ℚ))
    (hsum : ∑ v in Finset.range g.n_node, spec_node_cost g v ≤ 2 ^ 24)
    (hn : g.n_node < 2 ^ 24) :
    aggregate_cost_f32 g =
      f32_round (f32_round ((∑ v in Finset.range g.n_node, spec_node_cost g v) /
          (g.n_node : ℚ)) +
        COST_MESSAGE *
          (((Finset.range g.n_node).filter fun v => enabled_at g v = true).card : ℚ)) := by
  rw [aggregate_cost_f32_eq,
    f32_sum_exact (spec_node_cost g) g.n_node
      (fun v hv => spec_node_cost_natural g v (hnat v hv)) hsum,
    f32_mul_count _ g.n_node (enabled_card_le g) hn, f32_round_nat g.n_node (by omega)]
  rfl

/-- The pass in single precision always returns with the aggregate as its total; it keeps
the node count and the enabled flags. -/
theorem mesh_graph_get_cost_f32_spec {pick : (Nat → WithTop ℚ) → List Nat → Option Nat}
    (hp : heap_contract pick) (g : mesh_graph) (fuel : Nat) (hfuel : g.n_node < fuel) :
    ∃ g', mesh_graph_get_cost_f32 pick fuel g = some (g', aggregate_cost_f32 g') ∧
      g'.n_node = g.n_node ∧ ∀ v, enabled_at g' v = enabled_at g v := by
  obtain ⟨g', hget, hfr⟩ := mesh_graph_get_cost_f32_total hp g fuel hfuel
  exact ⟨g', hget, frame_length hfr, fun v => frame_enabled_at hfr v⟩

/-! ## A hundred thousand unreached nodes -/

theorem round_half_even_add_half (M : ℤ) (h : M % 2 = 0) :
    round_half_even ((M : ℚ) + 1 / 2) = M := by
  have hf : ⌊(M : ℚ) + 1 / 2⌋ = M := by
    rw [Int.floor_eq_iff]
    constructor <;> norm_num
  unfold round_half_even
  rw [hf]
  have e : (M : ℚ) + 1 / 2 - (M : ℚ) = 1 / 2 := by ring
  rw [e]
  simp [h]

theorem round_half_even_add_quarter (M : ℤ) :
    round_half_even ((M : ℚ) + 1 / 4) = M := by
  have hf : ⌊(M : ℚ) + 1 / 4⌋ = M := by
    rw [Int.floor_eq_iff]
    constructor <;> norm_num
  unfold round_half_even
  rw [hf]
  have e : (M : ℚ) + 1 / 4 - (M : ℚ) = 1 / 4 := by ring
  rw [e]
  norm_num

/-- One more addition of `COST_NOT_FOUND` to the `float` accumulator. -/
theorem penalty_step (k : Nat) (hk : k < 99999) :
    f32_round (penalty_sum k + 5000) = penalty_sum (k + 1) := by
  by_cases h1 : k + 1 ≤ 26843
  · have e1 : penalty_sum k = 5000 * (k : ℚ) := by
      unfold penalty_sum; rw [if_pos (by omega)]
    have e2 : penalty_sum (k + 1) = 5000 * ((k + 1 : ℕ) : ℚ) := by
      unfold penalty_sum; rw [if_pos (by omega)]
    rw [e1, e2]
    have h3 := f32_round_representable (625 * ((k : ℤ) + 1)) 3
      (by rw [abs_lt]; constructor <;> omega) (by norm_num)
    have e3 : ((625 * ((k : ℤ) + 1) : ℤ) : ℚ) * pow2 3 = 5000 * (k : ℚ) + 5000 := by
      rw [pow2_eq]; push_cast; ring
    rw [e3] at h3
    rw [h3]; push_cast; ring
  · by_cases h2 : k + 1 = 26844
    · have hk' : k = 26843 := by omega
      subst hk'
      have e1 : penalty_sum 26843 + 5000 = ((8388750 : ℤ) : ℚ) * pow2 4 := by
        unfold penalty_sum; rw [pow2_eq]; norm_num
      have e2 : penalty_sum (26843 + 1) = ((8388750 : ℤ) : ℚ) * pow2 4 := by
        unfold penalty_sum; rw [pow2_eq]; norm_num
      rw [e1, e2]
      exact f32_round_representable 8388750 4 (by norm_num) (by norm_num)
    · obtain ⟨j, rfl⟩ : ∃ j, k = 26844 + j := ⟨k - 26844, by omega⟩
      have e1 : penalty_sum (26844 + j) = 134220000 + 4992 * (j : ℚ) := by
        unfold penalty_sum
        by_cases hj : j = 0
        · subst hj; norm_num
        · rw [if_neg (by omega)]; push_cast; ring
      have e2 : penalty_sum (26844 + j + 1) = 134220000 + 4992 * ((j : ℚ) + 1) := by
        unfold penalty_sum; rw [if_neg (by omega)]; push_cast; ring
      rw [e1, e2]
      have hj0 : (0 : ℚ) ≤ (j : ℚ) := Nat.cast_nonneg j
      have hq0 : (0 : ℚ) ≤ 134220000 + 4992 * (j : ℚ) + 5000 := by linarith
      by_cases h3 : j ≤ 26885
      · have hj1 : (j : ℚ) ≤ 26885 := by exact_mod_cast h3
        have p27 : pow2 27 = 134217728 := by rw [pow2_eq]; norm_num
        have p28 : pow2 (27 + 1) = 268435456 := by rw [pow2_eq]; norm_num
        have e3 : pow2 (max 27 (-126) - 23) = 16 := by
          have : max (27 : ℤ) (-126) - 23 = 4 := by norm_num
          rw [this, pow2_eq]; norm_num
        have h4 := f32_round_of_exponent (134220000 + 4992 * (j : ℚ) + 5000) 27
          (by rw [abs_of_nonneg hq0, p27]; linarith)
          (by rw [abs_of_nonneg hq0, p28]; linarith)
        rw [e3] at h4
        have e4 : (134220000 + 4992 * (j : ℚ) + 5000) / 16 =
            ((8389062 + 312 * (j : ℤ) : ℤ) : ℚ) + 1 / 2 := by push_cast; ring
        rw [e4, round_half_even_add_half _ (by omega)] at h4
        rw [h4]; push_cast; ring
      · have hj1 : (26886 : ℚ) ≤ (j : ℚ) := by
          have : 26886 ≤ j := by omega
          exact_mod_cast this
        have hj2 : (j : ℚ) ≤ 73154 := by
          have : j ≤ 73154 := by omega
          exact_mod_cast this
        have p28 : pow2 28 = 268435456 := by rw [pow2_eq]; norm_num
        have p29 : pow2 (28 + 1) = 536870912 := by rw [pow2_eq]; norm_num
        have e3 : pow2 (max 28 (-126) - 23) = 32 := by
          have : max (28 : ℤ) (-126) - 23 = 5 := by norm_num
          rw [this, pow2_eq]; norm_num
        have h4 := f32_round_of_exponent (134220000 + 4992 * (j : ℚ) + 5000) 28
          (by rw [abs_of_nonneg hq0, p28]; linarith)
          (by rw [abs_of_nonneg hq0, p29]; linarith)
        rw [e3] at h4
        have e4 : (134220000 + 4992 * (j : ℚ) + 5000) / 32 =
            ((4194531 + 156 * (j : ℤ) : ℤ) : ℚ) + 1 / 4 := by push_cast; ring
        rw [e4, round_half_even_add_quarter] at h4
        rw [h4]; push_cast; ring

/-- The `float` sum of the per-node costs when the root has cost `0` and each of the
following `k` nodes has the penalty `COST_NOT_FOUND`. -/
theorem f32_sum_penalty :
    ∀ k, k ≤ 99999 →
      f32_sum (fun v => if v = 0 then 0 else COST_NOT_FOUND) (k + 1) = penalty_sum k := by
  intro k
  induction k with
  | zero =>
    intro _
    simp [f32_sum, f32_add, f32_round_zero, penalty_sum]
  | succ k ih =>
    intro hk
    have h1 := ih (by omega)
    have h2 : f32_sum (fun v => if v = 0 then 0 else COST_NOT_FOUND) (k + 1 + 1) =
        f32_add (f32_sum (fun v => if v = 0 then 0 else COST_NOT_FOUND) (k + 1))
          COST_NOT_FOUND := by
      simp [f32_sum]
    rw [h2, h1]
    exact penalty_step k (by omega)

/-- On a graph whose root has no edge, the pass in single precision after a reset returns
after the visit of the root and leaves every other node at `+INFINITY`. -/
theorem pass_f32_no_root_edges {pick : (Nat → WithTop ℚ) → List Nat → Option Nat}
    (hp : heap_contract pick) (g : mesh_graph) (h0 : neighbors_at g 0 = [])
    (fuel : Nat) (hfuel : 0 < fuel) :
    ∃ g', mesh_graph_get_cost_f32 pick fuel (mesh_graph_reset g) =
        some (g', aggregate_cost_f32 g') ∧
      g'.nodes.map frame = g.nodes.map frame ∧
      ∀ v, heap_key g' v = if v = 0 ∧ 0 < g.nodes.length then 0 else ⊤ := by
  obtain ⟨f, rfl⟩ : ∃ f, fuel = f + 1 := ⟨fuel - 1, by omega⟩
  obtain ⟨gs, hgs⟩ : ∃ gs, gs = with_fresh_heap (mesh_graph_reset g) := ⟨_, rfl⟩
  have hnb : neighbors_at gs 0 = [] := by
    have : neighbors_at gs 0 = neighbors_at (mesh_graph_reset g) 0 := by rw [hgs]; rfl
    rw [this, mesh_graph_reset_neighbors_at, h0]
  have hrel : relax_edges_f32 gs 0 = gs := by
    unfold relax_edges_f32
    rw [hnb]; simp
  have hheap : (mesh_node_visit_neighbors_f32 gs 0).min_heap = [] := by
    by_cases hu : 0 < gs.nodes.length
    · rw [(visit_mark_f32 gs 0 hu).1, hrel, hgs]; rfl
    · rw [mesh_node_visit_neighbors_f32_out gs 0 (by omega), hgs]; rfl
  have hpop : heap_pop pick (mesh_node_visit_neighbors_f32 gs 0) = none := by
    unfold heap_pop
    rw [hheap, (hp _ []).1 rfl]
  have hloop : relax_loop_f32 pick (f + 1) gs 0 =
      some (mesh_node_visit_neighbors_f32 gs 0) := by
    simp only [relax_loop_f32, hpop]
  refine ⟨mesh_node_visit_neighbors_f32 gs 0, ?_, ?_, ?_⟩
  · simp only [mesh_graph_get_cost_f32, ← hgs, hloop]
  · rw [hgs]
    exact (visit_f32_frame _ 0).trans (mesh_graph_reset_frame g)
  · intro v
    have hk : heap_key (mesh_node_visit_neighbors_f32 gs 0) v = heap_key gs v := by
      by_cases hu : 0 < gs.nodes.length
      · rw [(visit_mark_f32 gs 0 hu).2.2.1, hrel]
      · rw [mesh_node_visit_neighbors_f32_out gs 0 (by omega)]
    have hk2 : heap_key gs v = heap_key (mesh_graph_reset g) v := by rw [hgs]; rfl
    rw [hk, hk2]
    exact mesh_graph_reset_heap_key g v

/-- Nodes twenty apart on a line are not linked by the construction. -/
theorem far_line_no_edges (n : Nat) (hn : 20 * n ≤ 2 ^ 24) (i : Nat) :
    neighbors_at (mesh_graph_new_f32 n (line_positions 20)) i = [] := by
  rw [List.eq_nil_iff_forall_not_mem]
  intro e he
  obtain ⟨hi, hj, hne, hd, _⟩ := (mem_neighbors_new_f32 n (line_positions 20) i e).mp he
  have := line_dist_far 20 i e.node (by omega) (by omega)
    (by push_cast; omega)
  linarith

theorem sum_root_and_penalties (N : Nat) :
    ∑ v in Finset.range (N + 1), (if v = 0 then (0 : ℚ) else COST_NOT_FOUND) =
      COST_NOT_FOUND * (N : ℚ) := by
  induction N with
  | zero => simp
  | succ N ih =>
    rw [Finset.sum_range_succ, ih, if_neg (Nat.succ_ne_zero N)]
    push_cast
    ring

/-- The pass in single precision on `N + 1` nodes twenty apart: every node but the root
is unreached, the exact formula of the total gives `5000 N / (N + 1) + 2 (N + 1)`, and the
returned total is the `float` sum of the penalties divided and added in single
precision. -/
theorem far_line_total (N : Nat) (hN : 20 * (N + 1) ≤ 2 ^ 24) (fuel : Nat)
    (hfuel : 0 < fuel) :
    ∃ g' total,
      mesh_graph_get_cost_f32 pick_first_min fuel
        (mesh_graph_reset (mesh_graph_new_f32 (N + 1) (line_positions 20))) =
          some (g', total) ∧
      g'.n_node = N + 1 ∧
      (∀ v, v < N + 1 → heap_key g' v = if v = 0 then 0 else ⊤) ∧
      spec_total_cost g' =
        COST_NOT_FOUND * (N : ℚ) / ((N + 1 : ℕ) : ℚ) + COST_MESSAGE * ((N + 1 : ℕ) : ℚ) ∧
      total =
        f32_add
          (f32_div (f32_sum (fun v => if v = 0 then 0 else COST_NOT_FOUND) (N + 1))
            (f32_round ((N + 1 : ℕ) : ℚ)))
          (f32_mul (f32_round ((N + 1 : ℕ) : ℚ)) COST_MESSAGE) := by
  obtain ⟨g', hget, hfr, hkey⟩ := pass_f32_no_root_edges pick_first_min_contract
    (mesh_graph_new_f32 (N + 1) (line_positions 20)) (far_line_no_edges (N + 1) hN 0)
    fuel hfuel
  have hlen0 : (mesh_graph_new_f32 (N + 1) (line_positions 20)).nodes.length = N + 1 :=
    mesh_graph_new_f32_length _ _
  have hlen : g'.n_node = N + 1 := (frame_length hfr).trans hlen0
  have hkey' : ∀ v, heap_key g' v = if v = 0 then 0 else ⊤ := by
    intro v
    rw [hkey v, hlen0]
    by_cases hv : v = 0
    · simp [hv]
    · simp [hv]
  have hcost : ∀ v, spec_node_cost g' v = if v = 0 then 0 else COST_NOT_FOUND := by
    intro v
    unfold spec_node_cost
    rw [hkey' v]
    by_cases hv : v = 0
    · simp [hv]
    · simp [hv]
  have hen : ∀ v, v < N + 1 → enabled_at g' v = true := by
    intro v hv
    rw [frame_enabled_at hfr]
    exact mesh_graph_new_f32_enabled _ _ v hv
  have hcard : ((Finset.range g'.n_node).filter fun v => enabled_at g' v = true).card =
      N + 1 := by
    rw [hlen, Finset.filter_true_of_mem, Finset.card_range]
    intro v hv
    exact hen v (Finset.mem_range.mp hv)
  refine ⟨g', aggregate_cost_f32 g', hget, hlen, fun v _ => hkey' v, ?_, ?_⟩
  · unfold spec_total_cost spec_path_cost spec_message_cost
    rw [hcard, hlen, Finset.sum_congr rfl (fun v _ => hcost v), sum_root_and_penalties]
  · rw [aggregate_cost_f32_eq, hcard, hlen]
    rw [f32_sum_congr (N + 1) (fun v _ => hcost v)]

/-! ## Least relay costs in single precision -/

/-- On natural edge costs at most `C` with `(n + 1) * C ≤ 2^24`, the pass in single
precision after a reset returns and leaves on every node the least relay cost. -/
theorem least_relay_cost_f32
    (pick : (Nat → WithTop ℚ) → List Nat → Option Nat) (hp : heap_contract pick)
    (g : mesh_graph) (C : Nat) (hc : natural_costs g C)
    (hsize : (g.n_node + 1) * C ≤ 2 ^ 24) (hpos : 0 < g.n_node)
    (fuel : Nat) (hfuel : g.n_node < fuel) :
    ∃ g', mesh_graph_get_cost_f32 pick fuel (mesh_graph_reset g) =
        some (g', aggregate_cost_f32 g') ∧
      g'.nodes.map frame = g.nodes.map frame ∧
      ∀ v, v < g.n_node →
        (∀ c : ℚ, heap_key g' v = (c : WithTop ℚ) ↔ IsLeast {c' | relay_path g v c'} c) ∧
        (heap_key g' v = ⊤ ↔ ∀ c, ¬ relay_path g v c) := by
  obtain ⟨g1, hex, hfl⟩ := relax_loop_f32_eq_exact hp g C hc hsize fuel hfuel
  obtain ⟨g2, total, hget, hall⟩ :=
    least_relay_cost_exact pick hp g (natural_costs_nonneg hc) hpos fuel hfuel
  have h12 : g2 = g1 := by
    simp only [mesh_graph_get_cost, hex, Option.some.injEq, Prod.mk.injEq] at hget
    exact hget.1.symm
  subst h12
  have hlen : (mesh_graph_reset g).n_node = g.n_node :=
    frame_length (mesh_graph_reset_frame g)
  obtain ⟨g3, hget3, hfr3⟩ := mesh_graph_get_cost_f32_total hp (mesh_graph_reset g) fuel
    (by rw [hlen]; exact hfuel)
  have h32 : g3 = g2 := by
    simp only [mesh_graph_get_cost_f32, hfl, Option.some.injEq, Prod.mk.injEq] at hget3
    exact hget3.1.symm
  subst h32
  exact ⟨g3, hget3, hfr3.trans (mesh_graph_reset_frame g), hall⟩

theorem mesh_graph_eq_of_fields (a b : mesh_graph) (h1 : a.nodes = b.nodes)
    (h2 : a.min_heap = b.min_heap) : a = b := by
  cases a; cases b
  simp only at h1 h2
  rw [h1, h2]

/-- The calls `mesh_graph_reset` and `mesh_graph_set_switch` write different fields, so
their order does not matter. -/
theorem set_switch_reset_comm (sigmoid : ℚ → ℚ) (draws : Nat → ℚ) (g : mesh_graph)
    (force_enable : Bool) :
    mesh_graph_set_switch sigmoid draws (mesh_graph_reset g) force_enable =
      mesh_graph_reset (mesh_graph_set_switch sigmoid draws g force_enable) := by
  apply mesh_graph_eq_of_fields
  · apply List.ext_getElem?
    intro v
    rw [mesh_graph_set_switch_getElem?, mesh_graph_reset_getElem?, mesh_graph_reset_getElem?,
      mesh_graph_set_switch_getElem?]
    rcases g.nodes[v]? with _ | nd
    · rfl
    · by_cases hv : v = 0 <;> cases force_enable <;>
        simp [hv, mesh_node_set_switch, mesh_node_reset]
  · rfl

theorem natural_costs_of_neighbors {g g' : mesh_graph} {C : Nat}
    (h : ∀ v, neighbors_at g' v = neighbors_at g v) (hc : natural_costs g C) :
    natural_costs g' C := by
  intro nd hnd e he
  obtain ⟨i, hi⟩ := List.getElem?_of_mem hnd
  have he' : e ∈ neighbors_at g' i := by simp [neighbors_at, hi, he]
  rw [h i] at he'
  obtain ⟨nd0, hnd0, hmem⟩ := neighbors_at_mem he'
  exact hc nd0 hnd0 e hmem

theorem mesh_graph_set_switch_force_enabled (sigmoid : ℚ → ℚ) (draws : Nat → ℚ)
    (g : mesh_graph) (v : Nat) (hv : v < g.nodes.length) :
    enabled_at (mesh_graph_set_switch sigmoid draws g true) v = true := by
  simp only [enabled_at, mesh_graph_set_switch_getElem?, List.getElem?_eq_getElem hv]
  by_cases h0 : v = 0 <;> simp [h0]

/-- The pass in single precision on a graph with the edges of the chain of `N` nodes and
every node enabled leaves `chain_cost v` on node `v`. -/
theorem chain_enabled_pass (N : Nat) (hN0 : 0 < N) (hN : (N + 1) * 160 ≤ 2 ^ 24)
    (g2 : mesh_graph)
    (hnb : ∀ v, neighbors_at g2 v = neighbors_at (mesh_graph_new_f32 N chain_positions) v)
    (hlen : g2.nodes.length = N) (hen : ∀ v, v < N → enabled_at g2 v = true)
    (fuel : Nat) (hfuel : N < fuel) :
    ∃ g', mesh_graph_get_cost_f32 pick_first_min fuel (mesh_graph_reset g2) =
        some (g', aggregate_cost_f32 g') ∧
      g'.n_node = N ∧
      (∀ v, v < N → heap_key g' v = ((chain_cost v : ℚ) : WithTop ℚ)) ∧
      (∀ v, v < N → enabled_at g' v = true) := by
  have hn2 : g2.n_node = N := hlen
  have hc : natural_costs g2 160 :=
    natural_costs_of_neighbors hnb (natural_costs_new_f32 N chain_positions)
  obtain ⟨g', hget, hfr, hall⟩ := least_relay_cost_f32 pick_first_min
    pick_first_min_contract g2 160 hc (by rw [hn2]; exact hN) (by rw [hn2]; exact hN0)
    fuel (by rw [hn2]; exact hfuel)
  have hE : ∀ (v : Nat) (e : mesh_node_neighbor), e ∈ neighbors_at g2 v ↔
      v < N ∧ e.node < N ∧ (e.node = v + 1 ∨ v = e.node + 1) ∧
        e.cost = if v = 0 ∨ e.node = 0 then 75 else 155 := by
    intro v e
    rw [hnb v]
    exact mem_neighbors_chain N (by omega) v e
  have hleast := chain_least_relay_cost hE hen
  refine ⟨g', hget, (frame_length hfr).trans hlen, ?_, ?_⟩
  · intro v hv
    exact ((hall v (by rw [hn2]; exact hv)).1 (chain_cost v)).mpr (hleast v hv)
  · intro v hv
    rw [frame_enabled_at hfr]
    exact hen v hv

/-! ## An upper bound on the aggregate in single precision -/

theorem f32_round_penalties (k : Nat) (hk : k ≤ 26843) :
    f32_round (5000 * (k : ℚ)) = 5000 * (k : ℚ) := by
  have h3 := f32_round_representable (625 * (k : ℤ)) 3
    (by rw [abs_lt]; constructor <;> omega) (by norm_num)
  have e3 : ((625 * (k : ℤ) : ℤ) : ℚ) * pow2 3 = 5000 * (k : ℚ) := by
    rw [pow2_eq]; push_cast; ring
  rw [e3] at h3
  exact h3

/-- A `float` sum of at most `26843` terms, each at most `COST_NOT_FOUND`, is at most
`5000` times their number. -/
theorem f32_sum_le_penalties (f : Nat → ℚ) :
    ∀ k, k ≤ 26843 → (∀ i, i < k → f i ≤ 5000) → f32_sum f k ≤ 5000 * (k : ℚ) := by
  intro k
  induction k with
  | zero => intro _ _; simp [f32_sum]
  | succ k ih =>
    intro hk h
    have h1 := ih (by omega) (fun i hi => h i (by omega))
    have h2 := h k (by omega)
    simp only [f32_sum, f32_add]
    apply f32_round_le (f32_round_penalties (k + 1) hk) (by positivity)
    push_cast
    linarith

/-- With at most `26843` nodes, each of per-node cost at most `COST_NOT_FOUND`, the
aggregate in single precision is at most `COST_NOT_FOUND + COST_MESSAGE * n`. -/
theorem aggregate_cost_f32_le (g : mesh_graph) (hpos : 0 < g.n_node)
    (hsize : g.n_node ≤ 26843)
    (hall : ∀ v, v < g.n_node → spec_node_cost g v ≤ COST_NOT_FOUND) :
    aggregate_cost_f32 g ≤ COST_NOT_FOUND + COST_MESSAGE * (g.n_node : ℚ) := by
  rw [aggregate_cost_f32_eq, f32_mul_count _ g.n_node (enabled_card_le g) (by omega),
    f32_round_nat g.n_node (by omega)]
  have hnpos : (0 : ℚ) < (g.n_node : ℚ) := by exact_mod_cast hpos
  have hsum := f32_sum_le_penalties (spec_node_cost g) g.n_node hsize hall
  have f5000 : f32_round 5000 = 5000 := by
    have := f32_round_nat 5000 (by norm_num)
    exact_mod_cast this
  have h1 : f32_div (f32_sum (spec_node_cost g) g.n_node) (g.n_node : ℚ) ≤ 5000 := by
    unfold f32_div
    apply f32_round_le f5000 (by norm_num)
    rw [div_le_iff₀ hnpos]
    exact hsum
  have hcard : (((Finset.range g.n_node).filter fun v => enabled_at g v = true).card : ℚ) ≤
      (g.n_node : ℚ) := by exact_mod_cast enabled_card_le g
  have hy : f32_round (((5000 + 2 * g.n_node : ℕ)) : ℚ) = (((5000 + 2 * g.n_node : ℕ)) : ℚ) :=
    f32_round_nat _ (by omega)
  have e : COST_NOT_FOUND + COST_MESSAGE * (g.n_node : ℚ) =
      (((5000 + 2 * g.n_node : ℕ)) : ℚ) := by
    unfold COST_NOT_FOUND COST_MESSAGE; push_cast; ring
  rw [e]
  unfold f32_add
  apply f32_round_le hy (by positivity)
  push_cast
  unfold COST_MESSAGE
  linarith

/-! ## Termination in single precision -/

/-- The pass in single precision returns for any fuel above the number of nodes, with an
empty queue. -/
theorem mesh_graph_get_cost_f32_empty_queue
    {pick : (Nat → WithTop ℚ) → List Nat → Option Nat} (hp : heap_contract pick)
    (g : mesh_graph) (fuel : Nat) (hfuel : g.n_node < fuel) :
    ∃ g', mesh_graph_get_cost_f32 pick fuel g = some (g', aggregate_cost_f32 g') ∧
      g'.min_heap = [] := by
  have hb : queue_budget (with_fresh_heap g) < fuel := by
    have h1 := queue_budget_start g
    have h2 : g.nodes.length < fuel := hfuel
    omega
  obtain ⟨g', hloop, hq⟩ := relax_loop_f32_total hp (fun _ _ => True)
    (fun gk => gk.min_heap = [])
    (fun _ _ _ _ _ _ => trivial)
    (fun gk u _ hpop => heap_pop_none hp hpop)
    (with_fresh_heap g) 0 fuel hb trivial
  refine ⟨g', ?_, hq⟩
  simp only [mesh_graph_get_cost_f32, hloop]

/-! ## Graph construction in single precision: claim C9 -/

/-- A graph whose edge lists are those built by `mesh_graph_new`, with exact arithmetic or
in single precision, has no edge from a node to itself. -/
theorem built_no_self_edge (n : Nat) (pos : Nat → ℚ × ℚ) (g : mesh_graph)
    (hg : g.nodes.map (fun nd => nd.neighbors) =
        (mesh_graph_new n pos).nodes.map (fun nd => nd.neighbors) ∨
      g.nodes.map (fun nd => nd.neighbors) =
        (mesh_graph_new_f32 n pos).nodes.map (fun nd => nd.neighbors)) :
    g.nodes.length = n ∧ ∀ v, ∀ e ∈ neighbors_at g v, e.node ≠ v := by
  rcases hg with hg | hg
  · refine ⟨by simpa [mesh_graph_new_length] using congrArg List.length hg, ?_⟩
    intro v e he
    rw [neighbors_at_of_map_eq hg] at he
    exact fun h => ((mem_neighbors_new n pos v e).mp he).2.2.1 h.symm
  · refine ⟨by simpa [mesh_graph_new_f32_length] using congrArg List.length hg, ?_⟩
    intro v e he
    rw [neighbors_at_of_map_eq hg] at he
    exact fun h => ((mem_neighbors_new_f32 n pos v e).mp he).2.2.1 h.symm

/-- A visit in single precision leaves the root's key at `0` when the root is the
visiting node or is already visited, provided the root has no edge to itself. -/
theorem root_key_visit_f32 {g0 g : mesh_graph} {u : Nat}
    (hself : ∀ e ∈ neighbors_at g0 0, e.node ≠ 0)
    (hfr : g.nodes.map frame = g0.nodes.map frame) (hk : heap_key g 0 = 0)
    (hroot : u = 0 ∨ visited_at g 0 = true) :
    (mesh_node_visit_neighbors_f32 g u).nodes.map frame = g0.nodes.map frame ∧
    heap_key (mesh_node_visit_neighbors_f32 g u) 0 = 0 ∧
    visited_at (mesh_node_visit_neighbors_f32 g u) 0 = true := by
  have hpos : 0 < g.nodes.length := by
    apply heap_key_lt_top_lt
    rw [hk]
    exact WithTop.coe_lt_top 0
  have hrel : heap_key (relax_edges_f32 g u) 0 = 0 ∧
      ∀ v, visited_at (relax_edges_f32 g u) v = visited_at g v := by
    apply relax_edges_f32_induct (P := fun gk => heap_key gk 0 = 0 ∧
      ∀ v, visited_at gk v = visited_at g v) g u ⟨hk, fun _ => rfl⟩
    intro gk e he _ hgk
    obtain ⟨e', heq, hcase'⟩ := visit_neighbor_f32_eq u gk e
    rw [heq]
    obtain ⟨_, hvis, hcase⟩ := visit_neighbor_spec u gk e'
    refine ⟨?_, fun v => (hvis v).trans (hgk.2 v)⟩
    rcases hcase with ⟨hsame, _⟩ | ⟨_, _, hunv, _, hkey, _⟩
    · rw [hsame]; exact hgk.1
    · rcases hcase' with hsame | ⟨hnode, _⟩
      · rw [hsame]; exact hgk.1
      · rw [hkey]
        have hne : (0 : Nat) ≠ e'.node := by
          intro h0
          rw [← h0, hgk.2 0] at hunv
          rcases hroot with hu | hv
          · subst hu
            rw [frame_neighbors_at hfr] at he
            exact hself e he (by rw [← hnode, ← h0])
          · rw [hv] at hunv; cases hunv
        simp only [hne, if_false]
        exact hgk.1
  by_cases hu : u < g.nodes.length
  · obtain ⟨_, hfr', hkey, _, hvis⟩ := visit_mark_f32 g u hu
    refine ⟨hfr'.trans hfr, by rw [hkey]; exact hrel.1, ?_⟩
    rw [hvis]
    rcases hroot with h | h
    · simp [h]
    · by_cases h0 : 0 = u <;> simp [h0, h]
  · rw [mesh_node_visit_neighbors_f32_out g u (Nat.le_of_not_lt hu)]
    refine ⟨hfr, hk, ?_⟩
    rcases hroot with h | h
    · omega
    · exact h

/-- C2: for every graph with at least one node whose edges are those built by
`mesh_graph_new` (evaluated exactly or in single precision) and every enable snapshot,
after `mesh_graph_reset` the call of `mesh_graph_get_cost` returns and leaves the root's
`min_cost` at exactly `0`, both with exact sums and with the sums rounded to single
precision. -/
theorem C2_root_min_cost_zero
    (pick : (Nat → WithTop ℚ) → List Nat → Option Nat) (hp : heap_contract pick)
    (n : Nat) (pos : Nat → ℚ × ℚ) (hn : 0 < n) (g : mesh_graph)
    (hg : g.nodes.map (fun nd => nd.neighbors) =
        (mesh_graph_new n pos).nodes.map (fun nd => nd.neighbors) ∨
      g.nodes.map (fun nd => nd.neighbors) =
        (mesh_graph_new_f32 n pos).nodes.map (fun nd => nd.neighbors))
    (fuel : Nat) (hfuel : n < fuel) :
    (∃ g' total, mesh_graph_get_cost pick fuel (mesh_graph_reset g) = some (g', total) ∧
      heap_key g' 0 = 0) ∧
    (∃ g' total, mesh_graph_get_cost_f32 pick fuel (mesh_graph_reset g) = some (g', total) ∧
      heap_key g' 0 = 0) := by
  obtain ⟨hlen, hns⟩ := built_no_self_edge n pos g hg
  have hpos : 0 < g.n_node := by show 0 < g.nodes.length; omega
  have hfuel' : g.n_node < fuel := by show g.nodes.length < fuel; omega
  refine ⟨root_key_zero_of_no_neg_self_edge pick hp g hpos
    (fun e he h0 => absurd h0 (hns 0 e he)) fuel hfuel', ?_⟩
  have hfr : (with_fresh_heap (mesh_graph_reset g)).nodes.map frame = g.nodes.map frame :=
    mesh_graph_reset_frame g
  have hb : queue_budget (with_fresh_heap (mesh_graph_reset g)) < fuel := by
    have h1 : queue_budget (with_fresh_heap (mesh_graph_reset g)) ≤
        (mesh_graph_reset g).nodes.length := queue_budget_start (mesh_graph_reset g)
    have h2 : (mesh_graph_reset g).nodes.length = g.nodes.length :=
      frame_length (mesh_graph_reset_frame g)
    omega
  have hk0 : heap_key (with_fresh_heap (mesh_graph_reset g)) 0 = 0 := by
    have : heap_key (with_fresh_heap (mesh_graph_reset g)) 0 =
        heap_key (mesh_graph_reset g) 0 := rfl
    rw [this, mesh_graph_reset_heap_key]
    have h2 : 0 < g.nodes.length := hpos
    simp [h2]
  obtain ⟨g', hloop, hF⟩ := relax_loop_f32_total hp
    (fun gk u => gk.nodes.map frame = g.nodes.map frame ∧ heap_key gk 0 = 0 ∧
      (u = 0 ∨ visited_at gk 0 = true))
    (fun gk => heap_key gk 0 = 0)
    (by
      intro gk u m g2 hI hpop
      obtain ⟨h1, h2, h3⟩ := root_key_visit_f32 (hns 0) hI.1 hI.2.1 hI.2.2
      obtain ⟨_, hg2⟩ := heap_pop_some hpop
      rw [hg2]
      exact ⟨h1, h2, Or.inr h3⟩)
    (by
      intro gk u hI _
      exact (root_key_visit_f32 (hns 0) hI.1 hI.2.1 hI.2.2).2.1)
    (with_fresh_heap (mesh_graph_reset g)) 0 fuel hb ⟨hfr, hk0, Or.inl rfl⟩
  refine ⟨g', aggregate_cost_f32 g', ?_, hF⟩
  simp only [mesh_graph_get_cost_f32, hloop]

/-- Witness for C2 on the three-node graph with node 1 disabled. -/
theorem C2_root_min_cost_zero_witness :
    heap_contract pick_first_min ∧ 0 < 3 ∧
    (node1_disabled_graph.nodes.map (fun nd => nd.neighbors) =
        (mesh_graph_new 3 fun i => if i = 1 then (5, 0) else (5, 5)).nodes.map
          (fun nd => nd.neighbors) ∨
      node1_disabled_graph.nodes.map (fun nd => nd.neighbors) =
        (mesh_graph_new_f32 3 fun i => if i = 1 then (5, 0) else (5, 5)).nodes.map
          (fun nd => nd.neighbors)) ∧
    3 < 4 ∧
    (∃ g' total,
      mesh_graph_get_cost pick_first_min 4 (mesh_graph_reset node1_disabled_graph) =
        some (g', total) ∧ heap_key g' 0 = 0) ∧
    (∃ g' total,
      mesh_graph_get_cost_f32 pick_first_min 4 (mesh_graph_reset node1_disabled_graph) =
        some (g', total) ∧ heap_key g' 0 = 0) :=
  ⟨pick_first_min_contract, by decide, Or.inl (by decide!), by decide,
    C2_root_min_cost_zero pick_first_min pick_first_min_contract 3
      (fun i => if i = 1 then (5, 0) else (5, 5)) (by decide) node1_disabled_graph
      (Or.inl (by decide!)) 4 (by decide)⟩

/-- C20: for every graph with `n >= 1` nodes whose edges are those built by
`mesh_graph_new` (evaluated exactly or in single precision) and every enable snapshot, the
relaxation loop of `mesh_graph_get_cost` run after a reset terminates with an empty queue;
no node is inserted into the queue twice (a later improvement is a `heap_update` on the
handle of a node inserted earlier), the root is never inserted, no node is visited twice,
every visited node is a node of the graph and the loop performs at most `n` visits; with
the sums rounded to single precision the loop terminates with an empty queue as well. -/
theorem C20_relaxation_terminates
    (pick : (Nat → WithTop ℚ) → List Nat → Option Nat) (hp : heap_contract pick)
    (n : Nat) (pos : Nat → ℚ × ℚ) (hn : 0 < n) (g : mesh_graph)
    (hg : g.nodes.map (fun nd => nd.neighbors) =
        (mesh_graph_new n pos).nodes.map (fun nd => nd.neighbors) ∨
      g.nodes.map (fun nd => nd.neighbors) =
        (mesh_graph_new_f32 n pos).nodes.map (fun nd => nd.neighbors))
    (fuel : Nat) (hfuel : n < fuel) :
    ∃ g' total log,
      mesh_graph_get_cost pick fuel (mesh_graph_reset g) = some (g', total) ∧
      relax_loop_log pick fuel (with_fresh_heap (mesh_graph_reset g)) 0 = some log ∧
      g'.min_heap = [] ∧
      (adds log).Nodup ∧ 0 ∉ adds log ∧
      (∀ l1 h l2, log = l1 ++ heap_event.update h :: l2 → h ∈ adds l1) ∧
      (visits log).Nodup ∧ (∀ v ∈ visits log, v < n) ∧
      (visits log).length ≤ n ∧
      ∃ g1 total1,
        mesh_graph_get_cost_f32 pick fuel (mesh_graph_reset g) = some (g1, total1) ∧
        g1.min_heap = [] := by
  obtain ⟨hlen, hns⟩ := built_no_self_edge n pos g hg
  have hpos : 0 < g.n_node := by show 0 < g.nodes.length; omega
  have hfuel' : g.n_node < fuel := by show g.nodes.length < fuel; omega
  have hnn : g.n_node = n := hlen
  have hlenr : (mesh_graph_reset g).n_node = g.n_node :=
    frame_length (mesh_graph_reset_frame g)
  obtain ⟨g1, hget1, hq1⟩ := mesh_graph_get_cost_f32_empty_queue hp (mesh_graph_reset g)
    fuel (by rw [hlenr]; exact hfuel')
  obtain ⟨g', total, log, h1, h2, h3, h4, h5, h6, h7, h8, h9⟩ :=
    queue_discipline_of_no_neg_self_edge pick hp g hpos
      (fun e he h0 => absurd h0 (hns 0 e he)) fuel hfuel'
  rw [hnn] at h8 h9
  exact ⟨g', total, log, h1, h2, h3, h4, h5, h6, h7, h8, h9, g1, _, hget1, hq1⟩

/-- Witness for C20 on the three-node graph with node 1 disabled. -/
theorem C20_relaxation_terminates_witness :
    heap_contract pick_first_min ∧ 0 < 3 ∧
    (node1_disabled_graph.nodes.map (fun nd => nd.neighbors) =
        (mesh_graph_new 3 fun i => if i = 1 then (5, 0) else (5, 5)).nodes.map
          (fun nd => nd.neighbors) ∨
      node1_disabled_graph.nodes.map (fun nd => nd.neighbors) =
        (mesh_graph_new_f32 3 fun i => if i = 1 then (5, 0) else (5, 5)).nodes.map
          (fun nd => nd.neighbors)) ∧
    3 < 4 ∧
    ∃ g' total log,
      mesh_graph_get_cost pick_first_min 4 (mesh_graph_reset node1_disabled_graph) =
        some (g', total) ∧
      relax_loop_log pick_first_min 4
        (with_fresh_heap (mesh_graph_reset node1_disabled_graph)) 0 = some log ∧
      g'.min_heap = [] ∧
      (adds log).Nodup ∧ 0 ∉ adds log ∧
      (∀ l1 h l2, log = l1 ++ heap_event.update h :: l2 → h ∈ adds l1) ∧
      (visits log).Nodup ∧ (∀ v ∈ visits log, v < 3) ∧
      (visits log).length ≤ 3 ∧
      ∃ g1 total1,
        mesh_graph_get_cost_f32 pick_first_min 4 (mesh_graph_reset node1_disabled_graph) =
          some (g1, total1) ∧
        g1.min_heap = [] :=
  ⟨pick_first_min_contract, by decide, Or.inl (by decide!), by decide,
    C20_relaxation_terminates pick_first_min pick_first_min_contract 3
      (fun i => if i = 1 then (5, 0) else (5, 5)) (by decide) node1_disabled_graph
      (Or.inl (by decide!)) 4 (by decide)⟩

/-! ## Least relay costs in single precision: claim C1 -/

/-- C1 (amended): on a graph whose edge costs are natural numbers at most `C` with
`(n + 1) * C ≤ 2^24` (every graph built by `mesh_graph_new` with at most `104856` nodes:
its costs are integers between `30` and `160`), after `mesh_graph_reset` the relaxation of
`mesh_graph_get_cost`, with the sums rounded to single precision as the code does and any
queue meeting the contract, returns, and each node's `min_cost` is the least cost of a
relay route from the root through enabled nodes; it is `+infinity` exactly when there is
no such route. -/
theorem C1_min_cost_is_least_relay_cost
    (pick : (Nat → WithTop ℚ) → List Nat → Option Nat) (hp : heap_contract pick)
    (g : mesh_graph) (C : Nat) (hc : natural_costs g C)
    (hsize : (g.n_node + 1) * C ≤ 2 ^ 24) (hpos : 0 < g.n_node)
    (fuel : Nat) (hfuel : g.n_node < fuel) :
    ∃ g' total, mesh_graph_get_cost_f32 pick fuel (mesh_graph_reset g) = some (g', total) ∧
      ∀ v, v < g.n_node →
        (∀ c : ℚ, heap_key g' v = (c : WithTop ℚ) ↔ IsLeast {c' | relay_path g v c'} c) ∧
        (heap_key g' v = ⊤ ↔ ∀ c, ¬ relay_path g v c) := by
  obtain ⟨g', hget, _, hall⟩ := least_relay_cost_f32 pick hp g C hc hsize hpos fuel hfuel
  exact ⟨g', aggregate_cost_f32 g', hget, hall⟩

/-- Witness for C1 on the graph built from three nodes, the second five and the third
ten away from the root on a line. -/
theorem C1_min_cost_is_least_relay_cost_witness :
    heap_contract pick_first_min ∧
    natural_costs (mesh_graph_new_f32 3 fun i => (5 * (i : ℚ), 0)) 160 ∧
    ((mesh_graph_new_f32 3 fun i => (5 * (i : ℚ), 0)).n_node + 1) * 160 ≤ 2 ^ 24 ∧
    0 < (mesh_graph_new_f32 3 fun i => (5 * (i : ℚ), 0)).n_node ∧
    (mesh_graph_new_f32 3 fun i => (5 * (i : ℚ), 0)).n_node < 4 ∧
    ∃ g' total,
      mesh_graph_get_cost_f32 pick_first_min 4
        (mesh_graph_reset (mesh_graph_new_f32 3 fun i => (5 * (i : ℚ), 0))) =
          some (g', total) ∧
      ∀ v, v < (mesh_graph_new_f32 3 fun i => (5 * (i : ℚ), 0)).n_node →
        (∀ c : ℚ, heap_key g' v = (c : WithTop ℚ) ↔
          IsLeast {c' | relay_path (mesh_graph_new_f32 3 fun i => (5 * (i : ℚ), 0)) v c'} c) ∧
        (heap_key g' v = ⊤ ↔
          ∀ c, ¬ relay_path (mesh_graph_new_f32 3 fun i => (5 * (i : ℚ), 0)) v c) :=
  ⟨pick_first_min_contract, natural_costs_new_f32 _ _, by decide!, by decide!, by decide!,
    C1_min_cost_is_least_relay_cost pick_first_min pick_first_min_contract
      (mesh_graph_new_f32 3 fun i => (5 * (i : ℚ), 0)) 160 (natural_costs_new_f32 _ _)
      (by decide!) (by decide!) 4 (by decide!)⟩

/-- Counterexample to C1 as stated: on the chain of `108242` nodes nine apart built by
`mesh_graph_new`, all enabled, the edge costs are non-negative and the least relay cost
of node `108241` is `75 + 155 * 108240 = 16777275`, an odd number above `2^24` that no
`float` holds; the relaxation returns with a different `min_cost` on that node. -/
theorem C1_min_cost_is_least_relay_cost_counterexample :
    heap_contract pick_first_min ∧
    nonneg_costs (mesh_graph_new_f32 108242 chain_positions) ∧
    ∃ g' total,
      mesh_graph_get_cost_f32 pick_first_min 108243
        (mesh_graph_reset (mesh_graph_new_f32 108242 chain_positions)) = some (g', total) ∧
      IsLeast {c | relay_path (mesh_graph_new_f32 108242 chain_positions) 108241 c}
        16777275 ∧
      heap_key g' 108241 ≠ ((16777275 : ℚ) : WithTop ℚ) := by
  refine ⟨pick_first_min_contract, natural_costs_nonneg (natural_costs_new_f32 _ _), ?_⟩
  obtain ⟨g', total, hget, hleast, hr⟩ :=
    chain_pass_f32 108242 (by norm_num) 108241 (by norm_num) 108243 (by norm_num)
  have hc : chain_cost 108241 = 16777275 := by
    unfold chain_cost
    norm_num
  rw [hc] at hleast
  refine ⟨g', total, hget, hleast, ?_⟩
  intro h
  rcases hr 108241 with h1 | ⟨q, h1⟩
  · rw [h1] at h
    exact WithTop.top_ne_coe h
  · rw [h1] at h
    exact f32_round_ne_16777275 q (by exact_mod_cast h)

/-! ## The total cost in single precision: claim C3 -/

/-- C3 (amended): for a graph with at least one node, `mesh_graph_get_cost` returns and
keeps the node count and the enabled flags; the value returned is the `float` computed as
the code does: the per-node costs (`COST_NOT_FOUND` for a node whose final `min_cost` is
`+infinity`, the `min_cost` otherwise) are added one by one in index order, each partial
sum rounded to single precision, the sum is divided by `n` and the quotient rounded, and
`COST_MESSAGE` times the number of enabled nodes (root included) is added and the result
rounded.  When every final `min_cost` is `+infinity` or a natural number, the exact sum of
the per-node costs is at most `2^24` and `n < 2^24`, the accumulation is exact and the
value returned is `path_cost + message_cost` of the claim with the average rounded to
single precision and the final sum rounded again. -/
theorem C3_total_cost_formula
    (pick : (Nat → WithTop ℚ) → List Nat → Option Nat) (hp : heap_contract pick)
    (g : mesh_graph) (_hpos : 0 < g.n_node) (fuel : Nat) (hfuel : g.n_node < fuel) :
    ∃ g' total, mesh_graph_get_cost_f32 pick fuel g = some (g', total) ∧
      g'.n_node = g.n_node ∧ (∀ v, enabled_at g' v = enabled_at g v) ∧
      total =
        f32_add
          (f32_div
            (f32_sum
              (fun v => if heap_key g' v = ⊤ then COST_NOT_FOUND
                else (heap_key g' v).untop' 0) g'.n_node)
            (f32_round (g'.n_node : ℚ)))
          (f32_mul
            (f32_round
              ((((Finset.range g'.n_node).filter fun v => enabled_at g' v = true).card : ℕ) :
                ℚ))
            COST_MESSAGE) ∧
      ((∀ v, v < g'.n_node →
          heap_key g' v = ⊤ ∨ ∃ m : ℕ, heap_key g' v = ((m : ℚ) : WithTop ℚ)) →
        (∑ v in Finset.range g'.n_node,
          (if heap_key g' v = ⊤ then COST_NOT_FOUND else (heap_key g' v).untop' 0)) ≤
            2 ^ 24 →
        g'.n_node < 2 ^ 24 →
        total =
          f32_round
            (f32_round
              ((∑ v in Finset.range g'.n_node,
                  (if heap_key g' v = ⊤ then COST_NOT_FOUND
                    else (heap_key g' v).untop' 0)) / (g'.n_node : ℚ)) +
              COST_MESSAGE *
                (((Finset.range g'.n_node).filter fun v => enabled_at g' v = true).card :
                  ℚ))) := by
  obtain ⟨g', hget, hn, hen⟩ := mesh_graph_get_cost_f32_spec hp g fuel hfuel
  refine ⟨g', aggregate_cost_f32 g', hget, hn, hen, aggregate_cost_f32_eq g', ?_⟩
  intro hnat hsum hsize
  exact aggregate_cost_f32_small g' hnat hsum hsize

/-- Witness for C3 on the reset graph built from three nodes five apart on a line: the
pass relaxes the root's edge to node 1 and the edge from node 1 to node 2. -/
theorem C3_total_cost_formula_witness :
    heap_contract pick_first_min ∧
    0 < (mesh_graph_reset (mesh_graph_new_f32 3 (line_positions 5))).n_node ∧
    (mesh_graph_reset (mesh_graph_new_f32 3 (line_positions 5))).n_node < 4 ∧
    ∃ g' total,
      mesh_graph_get_cost_f32 pick_first_min 4
        (mesh_graph_reset (mesh_graph_new_f32 3 (line_positions 5))) = some (g', total) ∧
      g'.n_node = (mesh_graph_reset (mesh_graph_new_f32 3 (line_positions 5))).n_node ∧
      (∀ v, enabled_at g' v =
        enabled_at (mesh_graph_reset (mesh_graph_new_f32 3 (line_positions 5))) v) ∧
      total =
        f32_add
          (f32_div
            (f32_sum
              (fun v => if heap_key g' v = ⊤ then COST_NOT_FOUND
                else (heap_key g' v).untop' 0) g'.n_node)
            (f32_round (g'.n_node : ℚ)))
          (f32_mul
            (f32_round
              ((((Finset.range g'.n_node).filter fun v => enabled_at g' v = true).card : ℕ) :
                ℚ))
            COST_MESSAGE) ∧
      ((∀ v, v < g'.n_node →
          heap_key g' v = ⊤ ∨ ∃ m : ℕ, heap_key g' v = ((m : ℚ) : WithTop ℚ)) →
        (∑ v in Finset.range g'.n_node,
          (if heap_key g' v = ⊤ then COST_NOT_FOUND else (heap_key g' v).untop' 0)) ≤
            2 ^ 24 →
        g'.n_node < 2 ^ 24 →
        total =
          f32_round
            (f32_round
              ((∑ v in Finset.range g'.n_node,
                  (if heap_key g' v = ⊤ then COST_NOT_FOUND
                    else (heap_key g' v).untop' 0)) / (g'.n_node : ℚ)) +
              COST_MESSAGE *
                (((Finset.range g'.n_node).filter fun v => enabled_at g' v = true).card :
                  ℚ))) :=
  ⟨pick_first_min_contract, by decide!, by decide!,
    C3_total_cost_formula pick_first_min pick_first_min_contract
      (mesh_graph_reset (mesh_graph_new_f32 3 (line_positions 5))) (by decide!) 4
      (by decide!)⟩

/-- Counterexample to C3 as stated: on `100000` nodes built twenty apart on a line, all
enabled, the pass after a reset leaves every node but the root unreached; the formula of
the claim gives `99999 * 5000 / 100000 + 2 * 100000 = 204999.95`, but the accumulation of
`path_cost` in a `float` stops being exact at `2^27` and the call returns
`204994.09375`. -/
theorem C3_total_cost_formula_counterexample :
    ∃ g' total,
      mesh_graph_get_cost_f32 pick_first_min 100001
        (mesh_graph_reset (mesh_graph_new_f32 100000 (line_positions 20))) =
          some (g', total) ∧
      g'.n_node = 100000 ∧
      (∀ v, v < 100000 → heap_key g' v = if v = 0 then 0 else ⊤) ∧
      spec_total_cost g' = 4099999 / 20 ∧
      total = 6559811 / 32 := by
  obtain ⟨g', total, hget, hn, hkey, hspec, htot⟩ :=
    far_line_total 99999 (by norm_num) 100001 (by norm_num)
  refine ⟨g', total, hget, hn, hkey, ?_, ?_⟩
  · rw [hspec]
    norm_num [COST_NOT_FOUND, COST_MESSAGE]
  · rw [htot, f32_sum_penalty 99999 le_rfl]
    have h1 : penalty_sum 99999 = 499409760 := by
      unfold penalty_sum
      norm_num
    rw [h1]
    have h2 : (((99999 + 1 : ℕ)) : ℚ) = 100000 := by norm_num
    rw [h2]
    decide!

/-! ## The upper bound on the total cost: claim C4 -/

/-- C4 (amended): for every graph with at least one and at most `26843` nodes (up to
that size a `float` holds every multiple of `5000` that the sum can reach) and every
enable snapshot, `mesh_graph_get_cost` in single precision returns, and when every node's
final `min_cost` is `+infinity` or at most `COST_NOT_FOUND` the total cost is at most
`COST_NOT_FOUND + COST_MESSAGE * n`. -/
theorem C4_total_cost_upper_bound
    (pick : (Nat → WithTop ℚ) → List Nat → Option Nat) (hp : heap_contract pick)
    (g : mesh_graph) (hpos : 0 < g.n_node) (hsize : g.n_node ≤ 26843)
    (fuel : Nat) (hfuel : g.n_node < fuel) :
    ∃ g' total, mesh_graph_get_cost_f32 pick fuel g = some (g', total) ∧
      ((∀ v, v < g.n_node → heap_key g' v = ⊤ ∨ heap_key g' v ≤ (COST_NOT_FOUND : ℚ)) →
        total ≤ COST_NOT_FOUND + COST_MESSAGE * (g.n_node : ℚ)) := by
  obtain ⟨g', hget, hn, _⟩ := mesh_graph_get_cost_f32_spec hp g fuel hfuel
  refine ⟨g', aggregate_cost_f32 g', hget, ?_⟩
  intro hall
  rw [← hn]
  apply aggregate_cost_f32_le g' (by rw [hn]; exact hpos) (by rw [hn]; exact hsize)
  intro v hv
  exact spec_node_cost_le g' v (hall v (by rw [← hn]; exact hv))

/-- Witness for C4 on the reset graph built from three nodes five apart on a line. -/
theorem C4_total_cost_upper_bound_witness :
    heap_contract pick_first_min ∧
    0 < (mesh_graph_reset (mesh_graph_new_f32 3 (line_positions 5))).n_node ∧
    (mesh_graph_reset (mesh_graph_new_f32 3 (line_positions 5))).n_node ≤ 26843 ∧
    (mesh_graph_reset (mesh_graph_new_f32 3 (line_positions 5))).n_node < 4 ∧
    ∃ g' total,
      mesh_graph_get_cost_f32 pick_first_min 4
        (mesh_graph_reset (mesh_graph_new_f32 3 (line_positions 5))) = some (g', total) ∧
      ((∀ v, v < (mesh_graph_reset (mesh_graph_new_f32 3 (line_positions 5))).n_node →
          heap_key g' v = ⊤ ∨ heap_key g' v ≤ (COST_NOT_FOUND : ℚ)) →
        total ≤ COST_NOT_FOUND +
          COST_MESSAGE * ((mesh_graph_reset (mesh_graph_new_f32 3 (line_positions 5))).n_node : ℚ)) :=
  ⟨pick_first_min_contract, by decide!, by decide!, by decide!,
    C4_total_cost_upper_bound pick_first_min pick_first_min_contract
      (mesh_graph_reset (mesh_graph_new_f32 3 (line_positions 5))) (by decide!) (by decide!)
      4 (by decide!)⟩

/-- Counterexample to C4 as stated: on the chain of 67 nodes nine apart built by
`mesh_graph_new`, reset and with every node enabled by `mesh_graph_set_switch`, the pass
leaves `min_cost = 10150` on the last node, above `COST_NOT_FOUND`, and returns the total
`10588557/2048` (about `5170.19`), above `COST_NOT_FOUND + COST_MESSAGE * 67 = 5134`. -/
theorem C4_total_cost_upper_bound_counterexample :
    ∃ g' total,
      mesh_graph_get_cost_f32 pick_first_min 68
        (mesh_graph_set_switch sigmoid_approx (fun _ => 0)
          (mesh_graph_reset (mesh_graph_new_f32 67 chain_positions)) true) =
        some (g', total) ∧
      g'.n_node = 67 ∧
      heap_key g' 66 = ((10150 : ℚ) : WithTop ℚ) ∧
      total = 10588557 / 2048 ∧
      ¬ (total ≤ COST_NOT_FOUND + COST_MESSAGE * 67) := by
  have hlen0 : (mesh_graph_new_f32 67 chain_positions).nodes.length = 67 :=
    mesh_graph_new_f32_length _ _
  have hlen2 : (mesh_graph_set_switch sigmoid_approx (fun _ => 0)
      (mesh_graph_new_f32 67 chain_positions) true).nodes.length = 67 := by
    rw [mesh_graph_set_switch_length, hlen0]
  obtain ⟨g', hget, hn, hkey, hen⟩ := chain_enabled_pass 67 (by norm_num) (by norm_num)
    (mesh_graph_set_switch sigmoid_approx (fun _ => 0)
      (mesh_graph_new_f32 67 chain_positions) true)
    (fun v => mesh_graph_set_switch_neighbors_at _ _ _ _ v) hlen2
    (fun v hv => mesh_graph_set_switch_force_enabled _ _ _ v (by rw [hlen0]; exact hv))
    68 (by norm_num)
  rw [← set_switch_reset_comm] at hget
  have hcost : ∀ v, v < 67 → spec_node_cost g' v = chain_cost v := by
    intro v hv
    unfold spec_node_cost
    rw [hkey v hv, if_neg WithTop.coe_ne_top]
    rfl
  have hcard : ((Finset.range g'.n_node).filter fun v => enabled_at g' v = true).card =
      67 := by
    rw [hn, Finset.filter_true_of_mem, Finset.card_range]
    intro v hv
    exact hen v (Finset.mem_range.mp hv)
  have htot : aggregate_cost_f32 g' = 10588557 / 2048 := by
    rw [aggregate_cost_f32_eq, hcard, hn, f32_sum_congr 67 hcost]
    decide!
  refine ⟨g', aggregate_cost_f32 g', hget, hn, ?_, htot, ?_⟩
  · rw [hkey 66 (by norm_num)]
    have : chain_cost 66 = 10150 := by unfold chain_cost; norm_num
    rw [this]
  · rw [htot]
    norm_num [COST_NOT_FOUND, COST_MESSAGE]

/-! ## The learning round in single precision: claim C6 -/

/-- C6 (amended): in every round of the learning loop, computed in single precision, the
round returns, and for every node: the saved flag is the flag the node had before the
round; if the flag of this round equals it the weight is exactly unchanged; if the flags
differ the weight becomes the rounded sum of the weight and `delta * (-1)` (now enabled)
or `delta * 1` (now disabled), with `delta` the rounded product of the rounded difference
`total_cost - previous_round_total_cost` and `LEARNING_RATE`; so a weight held in a
`float` changes only if the flags differ and the total cost differs from that of the
previous round. -/
theorem C6_weight_changes_on_flip
    (sigmoid : ℚ → ℚ) (pick : (Nat → WithTop ℚ) → List Nat → Option Nat)
    (hp : heap_contract pick) (fuel : Nat) (draws : Nat → ℚ) (g : mesh_graph)
    (last_cost : ℚ) (hfuel : g.n_node < fuel) :
    ∃ g' new_cost,
      learning_round_f32 sigmoid pick fuel draws g last_cost = some (g', new_cost) ∧
      ∀ (i : Nat) (nd : mesh_node), g.nodes[i]? = some nd →
        ∃ nd', g'.nodes[i]? = some nd' ∧
          nd'.last_switch_enabled = nd.switch_enabled ∧
          (nd'.switch_enabled = nd'.last_switch_enabled → nd'.weight = nd.weight) ∧
          (nd'.switch_enabled ≠ nd'.last_switch_enabled →
            nd'.weight =
              f32_add nd.weight
                (f32_mul (f32_mul (f32_sub new_cost last_cost) LEARNING_RATE_f32)
                  (if nd'.switch_enabled = true then -1 else 1))) ∧
          (f32_round nd.weight = nd.weight → nd'.weight ≠ nd.weight →
            nd'.switch_enabled ≠ nd'.last_switch_enabled ∧ new_cost ≠ last_cost) := by
  have hlen : (mesh_graph_set_switch sigmoid draws (mesh_graph_reset g) false).n_node <
      fuel := by
    have h1 := mesh_graph_set_switch_length sigmoid draws (mesh_graph_reset g) false
    have h2 := frame_length (mesh_graph_reset_frame g)
    have h3 : g.nodes.length < fuel := hfuel
    show (mesh_graph_set_switch sigmoid draws (mesh_graph_reset g) false).nodes.length < fuel
    omega
  obtain ⟨g3, hget, hfr⟩ := mesh_graph_get_cost_f32_total hp _ fuel hlen
  refine ⟨mesh_graph_update_weight_f32 g3
    (f32_mul (f32_sub (aggregate_cost_f32 g3) last_cost) LEARNING_RATE_f32),
    aggregate_cost_f32 g3, ?_, ?_⟩
  · simp only [learning_round_f32, hget]
  · intro i nd hnd
    obtain ⟨nd2, hnd2, hw2, hl2, _⟩ := round_sampled_node sigmoid draws g i nd hnd
    obtain ⟨nd3, hnd3, he3, hl3, hw3, _⟩ := frame_fields hfr i nd2 hnd2
    refine ⟨mesh_node_update_weight_f32 nd3
      (f32_mul (f32_sub (aggregate_cost_f32 g3) last_cost) LEARNING_RATE_f32), ?_, ?_⟩
    · simp [mesh_graph_update_weight_f32, hnd3]
    · by_cases heq : nd3.switch_enabled = nd3.last_switch_enabled
      · have hsame : mesh_node_update_weight_f32 nd3
            (f32_mul (f32_sub (aggregate_cost_f32 g3) last_cost) LEARNING_RATE_f32) = nd3 := by
          unfold mesh_node_update_weight_f32
          rw [if_neg (by simp [heq])]
        rw [hsame]
        refine ⟨by rw [hl3, hl2], fun _ => by rw [hw3, hw2], fun h => absurd heq h, ?_⟩
        intro _ h
        exact absurd (by rw [hw3, hw2]) h
      · have hupd : mesh_node_update_weight_f32 nd3
            (f32_mul (f32_sub (aggregate_cost_f32 g3) last_cost) LEARNING_RATE_f32) =
            { nd3 with
              weight := f32_add nd3.weight
                (f32_mul (f32_mul (f32_sub (aggregate_cost_f32 g3) last_cost)
                  LEARNING_RATE_f32) (if nd3.switch_enabled then -1 else 1)) } := by
          unfold mesh_node_update_weight_f32
          rw [if_pos (by simpa using heq)]
        rw [hupd]
        simp only
        refine ⟨by rw [hl3, hl2], fun h => absurd h heq, fun _ => by rw [hw3, hw2],
          ?_⟩
        intro hfl hne
        refine ⟨heq, ?_⟩
        intro hcost
        apply hne
        rw [hcost, hw3, hw2]
        have h0 : f32_sub last_cost last_cost = 0 := by
          unfold f32_sub; rw [sub_self, f32_round_zero]
        have h1 : f32_mul 0 LEARNING_RATE_f32 = 0 := by
          unfold f32_mul; rw [zero_mul, f32_round_zero]
        have h2 : ∀ s : ℚ, f32_mul 0 s = 0 := by
          intro s; unfold f32_mul; rw [zero_mul, f32_round_zero]
        rw [h0, h1, h2]
        unfold f32_add
        rw [add_zero, hfl]

/-- Witness for C6 on the three nodes of `mirror_graph`, with a draw that disables
node 1. -/
theorem C6_weight_changes_on_flip_witness :
    heap_contract pick_first_min ∧ mirror_graph.n_node < 4 ∧
    ∃ g' new_cost,
      learning_round_f32 sigmoid_approx pick_first_min 4 (fun i => if i = 1 then 1 else 0)
        mirror_graph 40 = some (g', new_cost) ∧
      ∀ (i : Nat) (nd : mesh_node), mirror_graph.nodes[i]? = some nd →
        ∃ nd', g'.nodes[i]? = some nd' ∧
          nd'.last_switch_enabled = nd.switch_enabled ∧
          (nd'.switch_enabled = nd'.last_switch_enabled → nd'.weight = nd.weight) ∧
          (nd'.switch_enabled ≠ nd'.last_switch_enabled →
            nd'.weight =
              f32_add nd.weight
                (f32_mul (f32_mul (f32_sub new_cost 40) LEARNING_RATE_f32)
                  (if nd'.switch_enabled = true then -1 else 1))) ∧
          (f32_round nd.weight = nd.weight → nd'.weight ≠ nd.weight →
            nd'.switch_enabled ≠ nd'.last_switch_enabled ∧ new_cost ≠ 40) :=
  ⟨pick_first_min_contract, by decide!,
    C6_weight_changes_on_flip sigmoid_approx pick_first_min pick_first_min_contract 4
      (fun i => if i = 1 then 1 else 0) mirror_graph 40 (by decide!)⟩

/-- Counterexample to C6 as stated, on the graph with nodes 1 and 2 mirrored about the
root, in single precision: after the baseline pass, a first round disables node 2 only;
the second round disables node 1 and enables node 2, which leaves the total cost at the
same `float` (`10660523/262144`, about `40.67`), so `delta = 0` and node 1 keeps the
weight `3/2` although its enabled flag (now `false`) differs from its flag of the previous
round (`true`). -/
theorem C6_weight_changes_on_flip_counterexample :
    mirror_run.map (fun r => (r.1.2, r.2.2)) =
      some ((10660523 / 262144 : ℚ), (10660523 / 262144 : ℚ)) ∧
    mirror_run.map (fun r => flags_and_weight r.1.1 1) =
      some (some (true, true, (3 / 2 : ℚ))) ∧
    mirror_run.map (fun r => flags_and_weight r.2.1 1) =
      some (some (false, true, (3 / 2 : ℚ))) := by
  refine ⟨by decide!, by decide!, by decide!⟩

end MeshPruning
